import Mathlib

/-!
Verification development for the Mermaid-flowchart parser core of
`braid/parser.py` (Guided Reasoning Diagrams).  The Python source is
shallowly embedded: strings are processed as `List Char`, the regular
expressions of the source are transliterated into a small backtracking
matcher whose result list is ordered by the backtracking priority of the
Python `re` engine (leftmost match, greedy/lazy quantifier preference),
Python dicts become insertion-ordered association lists, and `raise
ValueError` becomes `Except String`.  All characters of interest are ASCII.
-/

namespace Braid

/-! ## Character classes and Python string primitives -/

/-- Python whitespace (`str.strip()` and regex `\s`), ASCII subset. -/
def isPyWS (c : Char) : Bool :=
  c = ' ' || c = '\t' || c = '\n' || c = '\r' || c = '\x0b' || c = '\x0c'

/-- The regex class `[ \t]`. -/
def isST (c : Char) : Bool := c = ' ' || c = '\t'

/-- The regex class `\w` (ASCII subset). -/
def isWordChar (c : Char) : Bool := c.isAlphanum || c = '_'

/-- The regex `.` with `DOTALL` off: any character except newline. -/
def notNL (c : Char) : Bool := c ≠ '\n'

def lstripL (cs : List Char) : List Char := cs.dropWhile isPyWS

def rstripL (cs : List Char) : List Char := (cs.reverse.dropWhile isPyWS).reverse

/-- Python `str.strip()`. -/
def stripL (cs : List Char) : List Char := rstripL (lstripL cs)

def pstrip (s : String) : String := ⟨stripL s.data⟩

def startsWithL (p cs : List Char) : Bool := p.isPrefixOf cs

theorem length_dropWhile_le {α : Type} (p : α → Bool) (l : List α) :
    (l.dropWhile p).length ≤ l.length := by
  induction l with
  | nil => simp
  | cons a t ih =>
    rw [List.dropWhile_cons]
    split
    · exact Nat.le_succ_of_le ih
    · simp

/-- Python `code.split('\n')` (never returns an empty list). -/
def splitNL : List Char → List (List Char)
  | [] => [[]]
  | c :: rest =>
    if c = '\n' then [] :: splitNL rest
    else
      match splitNL rest with
      | [] => [[c]]
      | l :: ls => (c :: l) :: ls

/-- Python `'\n'.join(lines)`. -/
def joinNL : List (List Char) → List Char
  | [] => []
  | l :: ls =>
    match ls with
    | [] => l
    | _ :: _ => l ++ '\n' :: joinNL ls

/-! ## The normalizer `MermaidParser._clean_code` -/

/-- The substitution `re.sub(r"%%.*", "", code)`: `.` does not match `'\n'`,
so each line is cut at its first `%%`.  Implemented as a scanner whose flag
is `true` while the remainder of a commented line is being skipped. -/
def subCommentAux : Bool → List Char → List Char
  | _, [] => []
  | true, c :: rest =>
    if c = '\n' then '\n' :: subCommentAux false rest else subCommentAux true rest
  | false, '%' :: '%' :: rest => subCommentAux true rest
  | false, c :: rest => c :: subCommentAux false rest

def subComment (cs : List Char) : List Char := subCommentAux false cs

/-- The substitution `re.sub(r'[ \t]+', ' ', line)`: every maximal run of
spaces/tabs becomes one space.  The flag is `true` while inside a run whose
single `' '` has already been emitted. -/
def collapseSTAux : Bool → List Char → List Char
  | _, [] => []
  | inRun, c :: rest =>
    if isST c then
      if inRun then collapseSTAux true rest else ' ' :: collapseSTAux true rest
    else c :: collapseSTAux false rest

def collapseST (cs : List Char) : List Char := collapseSTAux false cs

/-- In a list starting with a (maximal) whitespace run that contains at least
one `'\n'`, drop everything up to and including the last `'\n'` of that run.
This is where `re.sub(r'\n\s*\n', '\n', code)` resumes scanning after a
match: the greedy `\s*` backtracks so that the final `\n` of the pattern is
the last newline of the whitespace run. -/
def dropThroughLastNL (cs : List Char) : List Char :=
  let run := cs.takeWhile isPyWS
  let k := run.length - 1 - run.reverse.findIdx (· = '\n')
  cs.drop (k + 1)

/-- The substitution `re.sub(r'\n\s*\n', '\n', code)` (fuelled so that the
definition reduces; every step consumes at least one character, so a fuel of
`cs.length` can never run out). -/
def subBlankAux : Nat → List Char → List Char
  | 0, cs => cs
  | _ + 1, [] => []
  | fuel + 1, c :: rest =>
    if c = '\n' ∧ (rest.takeWhile isPyWS).any (· = '\n') then
      '\n' :: subBlankAux fuel (dropThroughLastNL rest)
    else c :: subBlankAux fuel rest

def subBlank (cs : List Char) : List Char := subBlankAux cs.length cs

/-- The markdown-fence removal at the top of `_clean_code`. -/
def fenceStrip (cs : List Char) : List Char :=
  if startsWithL "```".data (stripL cs) then
    let lines := splitNL cs
    let lines := if startsWithL "```".data (stripL (lines.headD [])) then lines.tail else lines
    let lines :=
      if lines ≠ [] ∧ stripL (lines.getLastD []) = "```".data then lines.dropLast else lines
    joinNL lines
  else cs

/-- `MermaidParser._clean_code`. -/
def clean_code (code : String) : String :=
  let cs := fenceStrip code.data
  let cs := subComment cs
  let lines := splitNL cs
  let cs := joinNL (lines.map (fun l => stripL (collapseST l)))
  let cs := subBlank cs
  ⟨stripL cs⟩

/-! ## The header classifier `MermaidParser._is_flowchart` -/

/-- Case-insensitive keyword prefix test (regex with `re.IGNORECASE`). -/
def kwCI (kw : List Char) (cs : List Char) : Bool :=
  kw.isPrefixOf (cs.map Char.toLower)

/-- Existence of a match of `\s*(graph|flowchart)` at this position
(the greedy `\s*` with backtracking reduces to an existential over the
amount of whitespace skipped). -/
def flowHere : List Char → Bool
  | [] => false
  | cs@(c :: rest) =>
    kwCI "graph".data cs || kwCI "flowchart".data cs || (isPyWS c && flowHere rest)

/-- `re.search` with `re.MULTILINE`: try the pattern at the start of the
text and after every newline. -/
def flowScan : List Char → Bool → Bool
  | [], _ => false
  | cs@(c :: rest), atStart => (atStart && flowHere cs) || flowScan rest (c = '\n')

/-- `MermaidParser._is_flowchart` (applied by `parse` to the cleaned code). -/
def is_flowchart (code : String) : Bool := flowScan code.data true

/-! ## A small backtracking matcher

Each matcher returns the list of all ways it can match a prefix of the
input, as `(captured groups, remaining input)` pairs, ordered by the
backtracking priority of the Python `re` engine; `matchAt` (the head of
that list) is the match `re` reports at a given position. -/

abbrev RxRes := List (List String × List Char)

abbrev Rx := List Char → RxRes

/-- A literal, e.g. `\[\[` or `\|`. -/
def rxLit (s : String) : Rx := fun cs =>
  if s.data.isPrefixOf cs then [([], cs.drop s.length)] else []

/-- A single-character class, e.g. `[->]` or `[^\]]`. -/
def rxPred (f : Char → Bool) : Rx := fun cs =>
  match cs with
  | [] => []
  | c :: rest => if f c then [([], rest)] else []

def rxSeq (p q : Rx) : Rx := fun cs =>
  (p cs).flatMap fun pr => (q pr.2).map fun qr => (pr.1 ++ qr.1, qr.2)

/-- Alternation `p|q`: the left branch has priority. -/
def rxAlt (p q : Rx) : Rx := fun cs => p cs ++ q cs

/-- Greedy option `p?`: matching is preferred to not matching. -/
def rxOpt (p : Rx) : Rx := fun cs => p cs ++ [([], cs)]

/-- Greedy star over a character class, e.g. `\s*`: longest first. -/
def rxStarG (f : Char → Bool) : Rx := fun cs =>
  let n := (cs.takeWhile f).length
  ((List.range (n + 1)).reverse).map fun k => ([], cs.drop k)

/-- Lazy star over a character class, i.e. `(.*?)`: shortest first. -/
def rxStarL (f : Char → Bool) : Rx := fun cs =>
  let n := (cs.takeWhile f).length
  (List.range (n + 1)).map fun k => ([], cs.drop k)

/-- Greedy plus over a character class, i.e. `\w+`: longest first. -/
def rxPlusG (f : Char → Bool) : Rx := fun cs =>
  let n := (cs.takeWhile f).length
  ((List.range n).reverse).map fun k => ([], cs.drop (k + 1))

/-- A capture group around `p`. -/
def rxCap (p : Rx) : Rx := fun cs =>
  (p cs).map fun pr => (String.mk (cs.take (cs.length - pr.2.length)) :: pr.1, pr.2)

/-- Tag the match of one branch of a top-level alternation, so that the
caller can tell which of the two groups sets was populated (the other
branch's groups are `None` in Python). -/
def rxMark (t : String) (p : Rx) : Rx := fun cs => (p cs).map fun pr => (t :: pr.1, pr.2)

def matchAt (p : Rx) (cs : List Char) : Option (List String × List Char) := (p cs).head?

/-- `re.finditer`: scan left to right, report non-overlapping matches,
resuming after the end of each match.  The fuel is one more than the
input length; every step either consumes a match of at least one
character or advances one position. -/
def finditerAux (p : Rx) : Nat → List Char → List (List String)
  | 0, _ => []
  | _ + 1, [] =>
    match matchAt p [] with
    | some (g, _) => [g]
    | none => []
  | fuel + 1, cs@(_ :: rest) =>
    match matchAt p cs with
    | some (g, r) =>
      if r.length < cs.length then g :: finditerAux p fuel r
      else g :: finditerAux p fuel rest
    | none => finditerAux p fuel rest

def finditer (p : Rx) (s : String) : List (List String) :=
  finditerAux p (s.data.length + 1) s.data

/-- Decidable equality for `Except`, so that concrete runs of `parse` can be
checked by `decide`. -/
instance {e a : Type} [DecidableEq e] [DecidableEq a] : DecidableEq (Except e a)
  | .error x, .error y =>
    decidable_of_iff (x = y) ⟨fun h => by rw [h], fun h => by injection h⟩
  | .error _, .ok _ => isFalse fun h => by injection h
  | .ok _, .error _ => isFalse fun h => by injection h
  | .ok x, .ok y =>
    decidable_of_iff (x = y) ⟨fun h => by rw [h], fun h => by injection h⟩

/-! ## The data model of `braid/parser.py` -/

/-- `NodeType`: types of nodes in a Mermaid diagram. -/
inductive NodeType where
  | RECTANGLE
  | ROUNDED
  | STADIUM
  | SUBROUTINE
  | CYLINDRICAL
  | CIRCLE
  | DIAMOND
  | HEXAGON
  | PARALLELOGRAM
  | TRAPEZOID
  | UNKNOWN
deriving DecidableEq

/-- `GRDNode` (the `Any`-valued `metadata` dict is modelled with string
values; the parser never writes to it). -/
structure GRDNode where
  id : String
  label : String
  node_type : NodeType := .RECTANGLE
  metadata : List (String × String) := []
deriving DecidableEq

/-- `GRDEdge`. -/
structure GRDEdge where
  from_node : String
  to_node : String
  label : Option String := none
  style : Option String := none
  condition : Option String := none
deriving DecidableEq

/-- `GRDStructure`. -/
structure GRDStructure where
  nodes : List GRDNode := []
  edges : List GRDEdge := []
  start_nodes : List String := []
  end_nodes : List String := []
  metadata : List (String × String) := []
deriving DecidableEq

/-! ## `GRDStructure.get_execution_order`

Python dicts are modelled as insertion-ordered association lists; a lookup
of a missing key (Python `KeyError`) surfaces as `Except.error`. -/

def dget? {α : Type} (d : List (String × α)) (k : String) : Option α :=
  (d.find? (fun e => e.1 = k)).map (·.2)

/-- `d[k] = v`: overwrite in place, or append a new key at the end. -/
def dset {α : Type} : List (String × α) → String → α → List (String × α)
  | [], k, v => [(k, v)]
  | e :: t, k, v => if e.1 = k then (k, v) :: t else e :: dset t k v

/-- `in_degree = {node.id: 0 for node in self.nodes}` -/
def initInDeg (nodes : List GRDNode) : List (String × Int) :=
  nodes.foldl (fun d n => dset d n.id 0) []

/-- `graph = {node.id: [] for node in self.nodes}` -/
def initAdj (nodes : List GRDNode) : List (String × List String) :=
  nodes.foldl (fun d n => dset d n.id []) []

/-- The edge loop of `get_execution_order`:
`graph[edge.from_node].append(edge.to_node)` (a `KeyError` if the source is
not a node id) and `in_degree[edge.to_node] = in_degree.get(edge.to_node, 0) + 1`. -/
def addEdges :
    List (String × List String) → List (String × Int) → List GRDEdge →
      Except String (List (String × List String) × List (String × Int))
  | adj, deg, [] => .ok (adj, deg)
  | adj, deg, e :: rest =>
    match dget? adj e.from_node with
    | none => .error ("KeyError: '" ++ e.from_node ++ "'")
    | some l =>
      addEdges (dset adj e.from_node (l ++ [e.to_node]))
        (dset deg e.to_node ((dget? deg e.to_node).getD 0 + 1)) rest

/-- The inner `for neighbor in graph[node_id]` loop: decrement each
neighbor's in-degree and collect (in order) those that reach zero. -/
def processNeighbors :
    List String → List (String × Int) → List String →
      Except String (List (String × Int) × List String)
  | [], deg, acc => .ok (deg, acc)
  | n :: rest, deg, acc =>
    match dget? deg n with
    | none => .error ("KeyError: '" ++ n ++ "'")
    | some d =>
      processNeighbors rest (dset deg n (d - 1)) (if d - 1 = 0 then acc ++ [n] else acc)

/-- The `while queue:` loop (fuelled; the fuel passed by
`get_execution_order` exceeds the number of iterations the loop can make,
since every popped id was enqueued exactly once). -/
def kahnLoop :
    Nat → List String → List (String × List String) → List (String × Int) →
      List String → Except String (List String)
  | 0, _, _, _, res => .ok res
  | _ + 1, [], _, _, res => .ok res
  | fuel + 1, v :: q, adj, deg, res =>
    match dget? adj v with
    | none => .error ("KeyError: '" ++ v ++ "'")
    | some neigh =>
      match processNeighbors neigh deg [] with
      | .error m => .error m
      | .ok (deg', newq) => kahnLoop fuel (q ++ newq) adj deg' (res ++ [v])

/-- `GRDStructure.get_execution_order`: topological sort via Kahn's
algorithm.  The seed queue is every key of `in_degree` whose value is zero,
in insertion order. -/
def GRDStructure.get_execution_order (s : GRDStructure) : Except String (List String) :=
  match addEdges (initAdj s.nodes) (initInDeg s.nodes) s.edges with
  | .error m => .error m
  | .ok (adj, deg) =>
    kahnLoop (s.nodes.length + s.edges.length + 1)
      ((deg.filter (fun e => e.2 = 0)).map (·.1)) adj deg []

/-! ## `MermaidParser`: node and edge patterns

Literal braces in string literals are written with their ASCII escapes
`\x7b` (left brace) and `\x7d` (right brace). -/

/-- A node pattern `(\w+) OPEN (.*?) CLOSE` for literal delimiters. -/
def nodePat (opn cls : String) : Rx :=
  rxSeq (rxCap (rxPlusG isWordChar))
    (rxSeq (rxLit opn) (rxSeq (rxCap (rxStarL notNL)) (rxLit cls)))

/-- `(\w+)\[/?(.*?)[/\\]\]`. -/
def paraPat : Rx :=
  rxSeq (rxCap (rxPlusG isWordChar))
    (rxSeq (rxLit "[")
      (rxSeq (rxOpt (rxLit "/"))
        (rxSeq (rxCap (rxStarL notNL))
          (rxSeq (rxPred (fun c => c = '/' || c = '\\')) (rxLit "]")))))

/-- `MermaidParser.NODE_PATTERNS`, in source order. -/
def NODE_PATTERNS : List (Rx × NodeType) :=
  [ (nodePat "[[" "]]", .SUBROUTINE)
  , (nodePat "[(" ")]", .STADIUM)
  , (nodePat "((" "))", .CIRCLE)
  , (nodePat "\x7b" "\x7d", .DIAMOND)
  , (nodePat "\x7b\x7b" "\x7d\x7d", .HEXAGON)
  , (nodePat "(" ")", .ROUNDED)
  , (nodePat "[" "]", .RECTANGLE)
  , (paraPat, .PARALLELOGRAM) ]

/-- `--[->]`: two dashes followed by a dash or a `>`. -/
def thinConnRx : Rx := rxSeq (rxLit "--") (rxPred (fun c => c = '-' || c = '>'))

/-- `(--[>]|==[>])` (captured; used as the edge style). -/
def connCapRx : Rx :=
  rxCap (rxAlt (rxSeq (rxLit "--") (rxPred (· = '>')))
               (rxSeq (rxLit "==") (rxPred (· = '>'))))

/-- `(?:\[[^\]]*\]|\([^\)]*\)|\{[^\}]*\})?`: an optional, discarded shape
bracket after an identifier.  The negated classes also match newlines. -/
def bracketOptRx : Rx :=
  rxOpt (rxAlt (rxSeq (rxLit "[") (rxSeq (rxStarG (· ≠ ']')) (rxLit "]")))
          (rxAlt (rxSeq (rxLit "(") (rxSeq (rxStarG (· ≠ ')')) (rxLit ")")))
            (rxSeq (rxLit "\x7b") (rxSeq (rxStarG (· ≠ '\x7d')) (rxLit "\x7d")))))

/-- The Pass-1 pattern of `_parse_edges`:
`(\w+)(?:…)?\s*--[->]\s*\|\s*(.*?)\s*\|\s*(\w+)(?:…)?`. -/
def labeledPat : Rx :=
  rxSeq (rxCap (rxPlusG isWordChar))
    (rxSeq bracketOptRx
      (rxSeq (rxStarG isPyWS)
        (rxSeq thinConnRx
          (rxSeq (rxStarG isPyWS)
            (rxSeq (rxLit "|")
              (rxSeq (rxStarG isPyWS)
                (rxSeq (rxCap (rxStarL notNL))
                  (rxSeq (rxStarG isPyWS)
                    (rxSeq (rxLit "|")
                      (rxSeq (rxStarG isPyWS)
                        (rxSeq (rxCap (rxPlusG isWordChar)) bracketOptRx)))))))))))

/-- The Pass-2 pattern of `_parse_edges`:
`(\w+)(?:…)?\s*(--[>]|==[>])\s*(\w+)(?:…)?`. -/
def simplePat : Rx :=
  rxSeq (rxCap (rxPlusG isWordChar))
    (rxSeq bracketOptRx
      (rxSeq (rxStarG isPyWS)
        (rxSeq connCapRx
          (rxSeq (rxStarG isPyWS)
            (rxSeq (rxCap (rxPlusG isWordChar)) bracketOptRx)))))

/-- `MermaidParser.EDGE_PATTERN`:
`(\w+)\s*(--[>]|==[>])\s*(\w+)|(\w+)\s*--[->]\s*\|\s*(.*?)\s*\|\s*(\w+)`.
The mark records which branch matched: a `"1"` match populates groups
1–3, a `"2"` match groups 4–6 (the other branch's groups are `None`). -/
def EDGE_PATTERN : Rx :=
  rxAlt
    (rxMark "1"
      (rxSeq (rxCap (rxPlusG isWordChar))
        (rxSeq (rxStarG isPyWS)
          (rxSeq connCapRx
            (rxSeq (rxStarG isPyWS) (rxCap (rxPlusG isWordChar)))))))
    (rxMark "2"
      (rxSeq (rxCap (rxPlusG isWordChar))
        (rxSeq (rxStarG isPyWS)
          (rxSeq thinConnRx
            (rxSeq (rxStarG isPyWS)
              (rxSeq (rxLit "|")
                (rxSeq (rxStarG isPyWS)
                  (rxSeq (rxCap (rxStarL notNL))
                    (rxSeq (rxStarG isPyWS)
                      (rxSeq (rxLit "|")
                        (rxSeq (rxStarG isPyWS)
                          (rxCap (rxPlusG isWordChar)))))))))))))

/-! ## `MermaidParser._parse_nodes`, `_parse_edges`, `parse`, `validate` -/

/-- One step of the `if node_id not in seen_ids` accumulation. -/
def addNode (acc : List GRDNode × List String) (n : GRDNode) : List GRDNode × List String :=
  if n.id ∈ acc.2 then acc else (acc.1 ++ [n], acc.2 ++ [n.id])

/-- One match of a node rule: `node_id = group(1)`, `label = group(2).strip()`
(every match of a node pattern has exactly two groups; anything else leaves
the accumulator unchanged). -/
def scanStep (ty : NodeType) (a : List GRDNode × List String) (groups : List String) :
    List GRDNode × List String :=
  match groups with
  | [nid, lab] => addNode a ⟨nid, pstrip lab, ty, []⟩
  | _ => a

/-- The scan of one `(pattern, node_type)` rule over the code. -/
def scanPattern (code : String) (acc : List GRDNode × List String) (pn : Rx × NodeType) :
    List GRDNode × List String :=
  (finditer pn.1 code).foldl (scanStep pn.2) acc

/-- The node ids an `EDGE_PATTERN` match contributes, i.e. the values of
groups 1, 3, 4, 6 that are not `None`, in that order. -/
def edgeMatchIds (groups : List String) : List String :=
  match groups with
  | ["1", a, _, b] => [a, b]
  | ["2", a, _, b] => [a, b]
  | _ => []

/-- The first stage of `_parse_nodes`: the ordered scan of `NODE_PATTERNS`. -/
def parse_nodes_scan (code : String) : List GRDNode × List String :=
  NODE_PATTERNS.foldl (scanPattern code) ([], [])

/-- The second stage of `_parse_nodes`: node ids appearing in edges get an
implicit `RECTANGLE` node labelled with the id itself. -/
def parse_nodes_acc (code : String) : List GRDNode × List String :=
  (finditer EDGE_PATTERN code).foldl
    (fun a groups =>
      (edgeMatchIds groups).foldl (fun a2 nid => addNode a2 ⟨nid, nid, .RECTANGLE, []⟩) a)
    (parse_nodes_scan code)

/-- `MermaidParser._parse_nodes` (runs on the cleaned code). -/
def parse_nodes (code : String) : List GRDNode :=
  (parse_nodes_acc code).1

/-- Pass 1 of `_parse_edges`: labeled edges. -/
def parse_edges_pass1 (code : String) (node_ids : List String) : List GRDEdge :=
  (finditer labeledPat code).foldl
    (fun es groups =>
      match groups with
      | [f, lab, t] =>
        if f ∈ node_ids ∧ t ∈ node_ids then
          es ++ [⟨f, t, some (pstrip lab), some "-->", none⟩]
        else es
      | _ => es)
    []

/-- Pass 2 of `_parse_edges`: simple edges, skipping `(from, to)` pairs
already captured. -/
def parse_edges_pass2 (code : String) (node_ids : List String) (edges : List GRDEdge) :
    List GRDEdge :=
  (finditer simplePat code).foldl
    (fun es groups =>
      match groups with
      | [f, sty, t] =>
        let captured := es.any (fun e => e.from_node = f && e.to_node = t)
        if ¬captured ∧ f ∈ node_ids ∧ t ∈ node_ids then
          es ++ [⟨f, t, none, some (pstrip sty), none⟩]
        else es
      | _ => es)
    edges

/-- `MermaidParser._parse_edges` (runs on the cleaned code). -/
def parse_edges (code : String) (nodes : List GRDNode) : List GRDEdge :=
  let node_ids := nodes.map (·.id)
  parse_edges_pass2 code node_ids (parse_edges_pass1 code node_ids)

/-- `MermaidParser._identify_start_end_nodes`.  The Python `node_ids` set
is modelled as the id list deduplicated to first occurrences; the claims
about `start_nodes`/`end_nodes` are membership claims, which do not depend
on the iteration order of the set. -/
def identify_start_end_nodes (nodes : List GRDNode) (edges : List GRDEdge) :
    List String × List String :=
  let node_ids := (nodes.map (·.id)).dedup
  ( node_ids.filter (fun i => ! edges.any (·.to_node = i))
  , node_ids.filter (fun i => ! edges.any (·.from_node = i)) )

/-- `MermaidParser.parse`.  `if not mermaid_code` is true exactly for the
empty string; `raise ValueError msg` is `Except.error msg`. -/
def parse (mermaid_code : String) : Except String GRDStructure :=
  if mermaid_code = "" then .error "Mermaid code cannot be empty"
  else
    let code := clean_code mermaid_code
    if ¬ is_flowchart code then .error "Only flowchart diagrams are supported"
    else
      let nodes := parse_nodes code
      let edges := parse_edges code nodes
      let se := identify_start_end_nodes nodes edges
      .ok ⟨nodes, edges, se.1, se.2, []⟩

/-- `MermaidParser.validate`. -/
def validate (mermaid_code : String) : Bool × Option String :=
  match parse mermaid_code with
  | .ok _ => (true, none)
  | .error e => (false, some e)

/-! ## General lemmas about `parse` -/

/-- Inversion of a successful `parse`. -/
theorem parse_ok_elim {code : String} {g : GRDStructure} (h : parse code = .ok g) :
    code ≠ "" ∧ is_flowchart (clean_code code) = true ∧
      g = ⟨parse_nodes (clean_code code),
           parse_edges (clean_code code) (parse_nodes (clean_code code)),
           (identify_start_end_nodes (parse_nodes (clean_code code))
             (parse_edges (clean_code code) (parse_nodes (clean_code code)))).1,
           (identify_start_end_nodes (parse_nodes (clean_code code))
             (parse_edges (clean_code code) (parse_nodes (clean_code code)))).2, []⟩ := by
  unfold parse at h
  split at h
  · exact absurd h (by simp)
  · dsimp only at h
    split at h
    · exact absurd h (by simp)
    · refine ⟨by assumption, by simp_all, ?_⟩
      exact (Except.ok.injEq _ _).mp h.symm

/-! ## Lemmas about the node scan -/

/-- A fold whose steps preserve a predicate preserves it. -/
theorem foldl_preserve {α β : Type} {P : α → Prop} {f : α → β → α}
    (hf : ∀ a b, P a → P (f a b)) : ∀ (l : List β) (a), P a → P (l.foldl f a) := by
  intro l
  induction l with
  | nil => exact fun a h => h
  | cons b t ih => exact fun a h => ih (f a b) (hf a b h)

/-- A fold whose steps preserve a predicate preserves it. -/
theorem foldl_preserve_mem {α β : Type} {P : α → Prop} {f : α → β → α} (l : List β)
    (hf : ∀ a, ∀ b ∈ l, P a → P (f a b)) : ∀ a, P a → P (l.foldl f a) := by
  induction l with
  | nil => exact fun a h => h
  | cons b t ih =>
    exact fun a h => ih (fun a2 b2 hb2 => hf a2 b2 (List.mem_cons_of_mem _ hb2))
      (f a b) (hf a b (List.mem_cons_self _ _) h)

/-- The bookkeeping invariant of `_parse_nodes`: the seen-ids list is the
id projection of the node list, without duplicates. -/
def NInv (acc : List GRDNode × List String) : Prop :=
  acc.2 = acc.1.map (·.id) ∧ acc.2.Nodup

theorem NInv_addNode {acc : List GRDNode × List String} (h : NInv acc) (n : GRDNode) :
    NInv (addNode acc n) := by
  unfold addNode
  split
  · exact h
  · refine ⟨by simp [h.1], ?_⟩
    have hn : n.id ∉ acc.2 := by assumption
    simp [List.nodup_append, h.2, hn]

theorem NInv_scanStep (ty : NodeType) {a : List GRDNode × List String}
    (ha : NInv a) (gs : List String) : NInv (scanStep ty a gs) := by
  unfold scanStep
  match gs with
  | [] => exact ha
  | [_] => exact ha
  | [nid, lab] => exact NInv_addNode ha _
  | _ :: _ :: _ :: _ => exact ha

theorem NInv_scanPattern (code : String) (pn : Rx × NodeType)
    {acc : List GRDNode × List String} (h : NInv acc) :
    NInv (scanPattern code acc pn) := by
  unfold scanPattern
  exact @foldl_preserve (List GRDNode × List String) _ NInv _
    (fun a gs ha => NInv_scanStep pn.2 ha gs) _ _ h

theorem NInv_parse_nodes_scan (code : String) : NInv (parse_nodes_scan code) :=
  foldl_preserve (fun _ pn ha => NInv_scanPattern code pn ha) _ _ ⟨rfl, List.nodup_nil⟩

theorem NInv_parse_nodes_acc (code : String) : NInv (parse_nodes_acc code) := by
  unfold parse_nodes_acc
  refine @foldl_preserve _ _ NInv _ (fun a gs ha => ?_) _ _ (NInv_parse_nodes_scan code)
  exact @foldl_preserve _ _ NInv _ (fun a2 nid ha2 => NInv_addNode ha2 _) _ _ ha

theorem parse_nodes_map_id_nodup (code : String) :
    ((parse_nodes code).map (·.id)).Nodup := by
  have h2 := NInv_parse_nodes_acc code
  unfold parse_nodes
  rw [← h2.1]
  exact h2.2

set_option maxHeartbeats 1000000 in
/-- Ids of the nodes a parsed graph holds are distinct. -/
theorem parse_nodes_ids_nodup (code : String) (g : GRDStructure) (h : parse code = .ok g) :
    (g.nodes.map (·.id)).Nodup := by
  obtain ⟨-, -, rfl⟩ := parse_ok_elim h
  exact parse_nodes_map_id_nodup (clean_code code)

/-! ## Claim C7: start and end node sets -/

/-- C7: for every graph produced by `parse`, `start_nodes` is exactly the
set of node ids with no incoming edge and `end_nodes` exactly the set of
node ids with no outgoing edge; a node touched by no edge is in both. -/
theorem C7_start_end_node_sets (code : String) (g : GRDStructure)
    (h : parse code = .ok g) :
    (∀ x, x ∈ g.start_nodes ↔ x ∈ g.nodes.map (·.id) ∧ ∀ e ∈ g.edges, e.to_node ≠ x) ∧
    (∀ x, x ∈ g.end_nodes ↔ x ∈ g.nodes.map (·.id) ∧ ∀ e ∈ g.edges, e.from_node ≠ x) ∧
    (∀ x, x ∈ g.nodes.map (·.id) →
      (∀ e ∈ g.edges, e.to_node ≠ x ∧ e.from_node ≠ x) →
      x ∈ g.start_nodes ∧ x ∈ g.end_nodes) := by
  obtain ⟨-, -, rfl⟩ := parse_ok_elim h
  simp only [identify_start_end_nodes, List.mem_filter, List.mem_dedup, List.any_eq_true,
    Bool.not_eq_true', List.any_eq_false, decide_eq_false_iff_not, decide_eq_true_eq, ne_eq]
  exact ⟨fun x => trivial, fun x => trivial, fun x hx he =>
    ⟨⟨hx, fun e hh => (he e hh).1⟩, ⟨hx, fun e hh => (he e hh).2⟩⟩⟩

/-- The graph a successful `parse` of `s` yields. -/
def parsedGraph (s : String) : GRDStructure :=
  ((parse s).toOption).getD ⟨[], [], [], [], []⟩

/-- C7 witness at a concrete input: `C[alone]` is an isolated node of
`flowchart TD\nA[x] --> B[y]\nC[alone]`, lying in both `start_nodes` and
`end_nodes`; `A` has no incoming and `B` no outgoing edge. -/
theorem C7_start_end_node_sets_witness :
    parse "flowchart TD\nA[x] --> B[y]\nC[alone]"
        = .ok (parsedGraph "flowchart TD\nA[x] --> B[y]\nC[alone]") ∧
      "C" ∈ (parsedGraph "flowchart TD\nA[x] --> B[y]\nC[alone]").start_nodes ∧
      "C" ∈ (parsedGraph "flowchart TD\nA[x] --> B[y]\nC[alone]").end_nodes ∧
      "A" ∈ (parsedGraph "flowchart TD\nA[x] --> B[y]\nC[alone]").start_nodes ∧
      "B" ∈ (parsedGraph "flowchart TD\nA[x] --> B[y]\nC[alone]").end_nodes := by
  have h := C7_start_end_node_sets "flowchart TD\nA[x] --> B[y]\nC[alone]"
    (parsedGraph "flowchart TD\nA[x] --> B[y]\nC[alone]") (by rfl)
  refine ⟨by rfl, (h.1 "C").mpr (by decide), (h.2.1 "C").mpr (by decide),
    (h.1 "A").mpr (by decide), (h.2.1 "B").mpr (by decide)⟩

/-! ## Claim C9: which node tags are assignable -/

/-- The eight tags `_parse_nodes` can assign: the tags of the eight rules,
plus `RECTANGLE` for implicit edge-endpoint nodes. -/
def assignableTags : List NodeType :=
  [.RECTANGLE, .ROUNDED, .STADIUM, .SUBROUTINE, .CIRCLE, .DIAMOND, .HEXAGON, .PARALLELOGRAM]

theorem addNode_type {P : NodeType → Prop} {acc : List GRDNode × List String} {n : GRDNode}
    (hacc : ∀ m ∈ acc.1, P m.node_type) (hn : P n.node_type) :
    ∀ m ∈ (addNode acc n).1, P m.node_type := by
  unfold addNode
  split
  · exact hacc
  · intro m hm
    rcases List.mem_append.mp hm with h | h
    · exact hacc m h
    · rw [List.mem_singleton.mp h]; exact hn

theorem scanPattern_type {P : NodeType → Prop} (code : String) (pn : Rx × NodeType)
    {acc : List GRDNode × List String} (hacc : ∀ m ∈ acc.1, P m.node_type)
    (hp : P pn.2) : ∀ m ∈ (scanPattern code acc pn).1, P m.node_type := by
  unfold scanPattern
  refine @foldl_preserve (List GRDNode × List String) _ (fun a => ∀ m ∈ a.1, P m.node_type) _
    (fun a gs ha => ?_) _ _ hacc
  unfold scanStep
  match gs with
  | [] => exact ha
  | [_] => exact ha
  | [nid, lab] => exact addNode_type ha hp
  | _ :: _ :: _ :: _ => exact ha

theorem NODE_PATTERNS_tags : ∀ pn ∈ NODE_PATTERNS, pn.2 ∈ assignableTags := by
  intro pn hpn
  simp only [NODE_PATTERNS, List.mem_cons, List.not_mem_nil, or_false] at hpn
  rcases hpn with rfl | rfl | rfl | rfl | rfl | rfl | rfl | rfl <;> decide

theorem parse_nodes_tags (code : String) :
    ∀ m ∈ parse_nodes code, m.node_type ∈ assignableTags := by
  have h1 : ∀ m ∈ (parse_nodes_scan code).1, m.node_type ∈ assignableTags := by
    unfold parse_nodes_scan
    refine @foldl_preserve_mem (List GRDNode × List String) _
      (fun a => ∀ m ∈ a.1, m.node_type ∈ assignableTags) _ _
      (fun a pn hpn ha => ?_) _ (by simp)
    exact scanPattern_type code pn ha (NODE_PATTERNS_tags pn hpn)
  have h2 : ∀ m ∈ (parse_nodes_acc code).1, m.node_type ∈ assignableTags := by
    unfold parse_nodes_acc
    refine @foldl_preserve (List GRDNode × List String) _
      (fun a => ∀ m ∈ a.1, m.node_type ∈ assignableTags) _
      (fun a gs ha => ?_) _ _ h1
    refine @foldl_preserve (List GRDNode × List String) _
      (fun a => ∀ m ∈ a.1, m.node_type ∈ assignableTags) _
      (fun a2 nid ha2 => ?_) _ _ ha
    exact addNode_type ha2 (show NodeType.RECTANGLE ∈ assignableTags by decide)
  exact h2

/-- C9 counterexample: the claim says the Hexagon tag is never assigned,
but parsing `graph TD\na{b{{c}}` assigns HEXAGON to node `b` (the diamond
rule's scan consumes `a{b{{c}` and never captures `b`, so the hexagon rule
is first to see it). -/
theorem C9_hexagon_is_assigned :
    (parse "graph TD\na\x7bb\x7b\x7bc\x7d\x7d").map
        (fun g => g.nodes.map (fun n => (n.id, n.node_type)))
      = .ok [("a", .DIAMOND), ("b", .HEXAGON)] := by decide

/-! ## Claims C6 and C8: the two edge passes -/

theorem pairwise_of_mem {α : Type} {R : α → α → Prop} {l : List α}
    (h : ∀ a ∈ l, ∀ b ∈ l, R a b) : l.Pairwise R := by
  induction l with
  | nil => exact List.Pairwise.nil
  | cons a t ih =>
    refine List.Pairwise.cons (fun b hb => h a (by simp) b (by simp [hb])) ?_
    exact ih fun x hx y hy => h x (by simp [hx]) y (by simp [hy])

/-- Every edge Pass 1 records is labeled with style `"-->"`. -/
theorem parse_edges_pass1_shape (code : String) (ids : List String) :
    ∀ e ∈ parse_edges_pass1 code ids, e.label.isSome ∧ e.style = some "-->" := by
  unfold parse_edges_pass1
  refine @foldl_preserve (List GRDEdge) _
    (fun es => ∀ e ∈ es, e.label.isSome ∧ e.style = some "-->") _
    (fun es gs hes => ?_) _ _ (by simp)
  match gs with
  | [] => exact hes
  | [_] => exact hes
  | [_, _] => exact hes
  | [f, lab, t] =>
    dsimp only
    split
    · intro e he
      rcases List.mem_append.mp he with h | h
      · exact hes e h
      · rw [List.mem_singleton.mp h]; exact ⟨rfl, rfl⟩
    · exact hes
  | _ :: _ :: _ :: _ :: _ => exact hes

/-- The dedup relation of claim C8: two recorded edges may share their
`(from, to)` pair only if both are labeled (Pass-1) edges. -/
def pairOnlyLabeledDup (e1 e2 : GRDEdge) : Prop :=
  (e1.from_node = e2.from_node ∧ e1.to_node = e2.to_node) →
    (e1.label.isSome = true ∧ e2.label.isSome = true)

/-- Pass 2 never duplicates a `(from, to)` pair that is already present,
so the pairwise relation survives it. -/
theorem parse_edges_pass2_pairwise (code : String) (ids : List String)
    {es0 : List GRDEdge} (h0 : es0.Pairwise pairOnlyLabeledDup) :
    (parse_edges_pass2 code ids es0).Pairwise pairOnlyLabeledDup := by
  unfold parse_edges_pass2
  refine @foldl_preserve (List GRDEdge) _ (fun es => es.Pairwise pairOnlyLabeledDup) _
    (fun es gs hes => ?_) _ _ h0
  match gs with
  | [] => exact hes
  | [_] => exact hes
  | [_, _] => exact hes
  | [f, sty, t] =>
    dsimp only
    split
    · next hcond =>
      rw [List.pairwise_append]
      refine ⟨hes, List.pairwise_singleton _ _, fun a ha b hb => ?_⟩
      rw [List.mem_singleton.mp hb]
      intro hpair
      exfalso
      have hnc : ¬ es.any (fun e => e.from_node = f && e.to_node = t) = true := by
        simpa using hcond.1
      exact hnc (List.any_eq_true.mpr ⟨a, ha, by simp [hpair.1, hpair.2]⟩)
    · exact hes
  | _ :: _ :: _ :: _ :: _ => exact hes

/-- The edge list `_parse_edges` returns satisfies the pairwise dedup
relation: pairs repeat only among labeled (Pass-1) edges. -/
theorem parse_edges_pairwise (code : String) (nodes : List GRDNode) :
    (parse_edges code nodes).Pairwise pairOnlyLabeledDup := by
  unfold parse_edges
  refine parse_edges_pass2_pairwise _ _ (pairwise_of_mem fun a ha b hb => ?_)
  intro hpair
  exact ⟨(parse_edges_pass1_shape _ _ a ha).1, (parse_edges_pass1_shape _ _ b hb).1⟩

/-- Labels only come from Pass 1, so a labeled edge carries style `"-->"`. -/
theorem parse_edges_labeled_style (code : String) (nodes : List GRDNode) :
    ∀ e ∈ parse_edges code nodes, e.label.isSome → e.style = some "-->" := by
  unfold parse_edges
  dsimp only
  refine @foldl_preserve (List GRDEdge) _
    (fun es => ∀ e ∈ es, e.label.isSome → e.style = some "-->") _
    (fun es gs hes => ?_) _ _
    (fun e he _ => (parse_edges_pass1_shape code (nodes.map (·.id)) e he).2)
  match gs with
  | [] => exact hes
  | [_] => exact hes
  | [_, _] => exact hes
  | [f, sty, t] =>
    dsimp only
    split
    · intro e he hl
      rcases List.mem_append.mp he with h | h
      · exact hes e h hl
      · rw [List.mem_singleton.mp h] at hl; exact absurd hl (by simp)
    · exact hes
  | _ :: _ :: _ :: _ :: _ => exact hes

set_option maxHeartbeats 1000000 in
/-- C6 (amended): Pass 1 accepts only thin (`--`-family) connectors, so a
thick labeled edge `source ==>|label| target` is recorded by neither pass
even when both endpoints are known node ids; every labeled edge that is
recorded carries style `"-->"`.  (The original claim, that a thick labeled
edge is recorded like a thin one, is refuted by the counterexample.) -/
theorem C6_no_thick_labeled_edges (code : String) (g : GRDStructure)
    (h : parse code = .ok g) :
    (∀ e ∈ g.edges, e.label.isSome → e.style = some "-->") ∧
      (parse "graph TD\nA[x]\nB[y]\nA ==>|lab| B").map
          (fun g2 => (g2.nodes.map (·.id), g2.edges)) = .ok (["A", "B"], []) := by
  obtain ⟨-, -, rfl⟩ := parse_ok_elim h
  exact ⟨parse_edges_labeled_style _ _, by decide⟩

/-- C6 counterexample: with `A` and `B` declared (so both endpoints are in
the known node-id set), the thick labeled edge line `A ==>|lab| B` yields
an empty edge list — Pass 1 does not record it (its connector pattern
`--[->]` matches no `==>`), and Pass 2 cannot match the pipe segment. -/
theorem C6_thick_labeled_edge_dropped :
    (parse "graph TD\nA[x]\nB[y]\nA ==>|lab| B").map
        (fun g => (g.nodes.map (·.id), g.edges)) = .ok (["A", "B"], []) := by decide

set_option maxHeartbeats 1000000 in
/-- C6 witness: the amended theorem applied to a thin labeled edge input. -/
theorem C6_no_thick_labeled_edges_witness :
    parse "graph TD\nA[x] -->|u| B[y]" = .ok (parsedGraph "graph TD\nA[x] -->|u| B[y]") ∧
      (∀ e ∈ (parsedGraph "graph TD\nA[x] -->|u| B[y]").edges,
        e.label.isSome → e.style = some "-->") :=
  ⟨by rfl, (C6_no_thick_labeled_edges "graph TD\nA[x] -->|u| B[y]" _ (by rfl)).1⟩

set_option maxHeartbeats 1000000 in
/-- C8 (amended): the deduplication of `_parse_edges` is one-sided: a
`(from, to)` pair recorded by Pass 1 (or by an earlier Pass-2 match) is
never recorded again by Pass 2, so two recorded edges can share their
ordered pair only when both are labeled Pass-1 edges; Pass 1 itself does
not deduplicate, so the full edge list need not be pair-distinct (see the
counterexample). -/
theorem C8_edge_dedup (code : String) (g : GRDStructure) (h : parse code = .ok g) :
    g.edges.Pairwise pairOnlyLabeledDup := by
  obtain ⟨-, -, rfl⟩ := parse_ok_elim h
  exact parse_edges_pairwise _ _

/-- C8 counterexample: two labeled edges with the same `(A, B)` pair are
both recorded by Pass 1 — the returned edge list is not deduplicated. -/
theorem C8_pass1_duplicates_pair :
    (parse "graph TD\nA[x]\nB[y]\nA -->|u| B\nA -->|v| B").map (fun g => g.edges)
      = .ok [⟨"A", "B", some "u", some "-->", none⟩,
             ⟨"A", "B", some "v", some "-->", none⟩] := by decide

set_option maxHeartbeats 1000000 in
/-- C8 witness: the amended theorem at a concrete input mixing a labeled
and a plain edge. -/
theorem C8_edge_dedup_witness :
    parse "graph TD\nA[x] -->|u| B[y]\nB --> C[z]"
        = .ok (parsedGraph "graph TD\nA[x] -->|u| B[y]\nB --> C[z]") ∧
      (parsedGraph "graph TD\nA[x] -->|u| B[y]\nB --> C[z]").edges.Pairwise
        pairOnlyLabeledDup :=
  ⟨by rfl, C8_edge_dedup "graph TD\nA[x] -->|u| B[y]\nB --> C[z]" _ (by rfl)⟩

/-! ## Claim C1: the first rule whose scan captures an id fixes its tag -/

/-- The identifiers (group 1) a node rule's scan captures anywhere in the
code. -/
def capturedIds (p : Rx) (code : String) : List String :=
  (finditer p code).filterMap (·.head?)

/-- The node list only ever grows. -/
theorem addNode_mem {acc : List GRDNode × List String} {m : GRDNode} (n : GRDNode)
    (h : m ∈ acc.1) : m ∈ (addNode acc n).1 := by
  unfold addNode
  split
  · exact h
  · exact List.mem_append.mpr (Or.inl h)

theorem scanStep_mem (ty : NodeType) {a : List GRDNode × List String} {m : GRDNode}
    (h : m ∈ a.1) (gs : List String) : m ∈ (scanStep ty a gs).1 := by
  unfold scanStep
  match gs with
  | [] => exact h
  | [_] => exact h
  | [nid, lab] => exact addNode_mem _ h
  | _ :: _ :: _ :: _ => exact h

theorem scanPattern_mem (code : String) (pn : Rx × NodeType)
    {acc : List GRDNode × List String} {m : GRDNode} (h : m ∈ acc.1) :
    m ∈ (scanPattern code acc pn).1 := by
  unfold scanPattern
  exact @foldl_preserve (List GRDNode × List String) _ (fun a => m ∈ a.1) _
    (fun a gs ha => scanStep_mem pn.2 ha gs) _ _ h

theorem parse_nodes_acc_mem (code : String) {m : GRDNode}
    (h : m ∈ (parse_nodes_scan code).1) : m ∈ parse_nodes code := by
  unfold parse_nodes parse_nodes_acc
  refine @foldl_preserve (List GRDNode × List String) _ (fun a => m ∈ a.1) _
    (fun a gs ha => ?_) _ _ h
  exact @foldl_preserve (List GRDNode × List String) _ (fun a => m ∈ a.1) _
    (fun a2 nid ha2 => addNode_mem _ ha2) _ _ ha

/-- A rule whose scan never captures `id` leaves `id` unseen. -/
theorem scanPattern_not_seen (code : String) (pn : Rx × NodeType)
    {acc : List GRDNode × List String} {i : String}
    (hid : i ∉ capturedIds pn.1 code) (h : i ∉ acc.2) :
    i ∉ (scanPattern code acc pn).2 := by
  unfold scanPattern
  refine @foldl_preserve_mem (List GRDNode × List String) _ (fun a => i ∉ a.2) _ _
    (fun a gs hgs ha => ?_) _ h
  unfold scanStep
  match gs with
  | [] => exact ha
  | [_] => exact ha
  | [nid, lab] =>
    have hnid : nid ∈ capturedIds pn.1 code :=
      List.mem_filterMap.mpr ⟨[nid, lab], hgs, rfl⟩
    dsimp only
    unfold addNode
    split
    · exact ha
    · intro hmem
      rcases List.mem_append.mp hmem with hq | hq
      · exact ha hq
      · rw [List.mem_singleton.mp hq] at hid
        exact hid hnid
  | _ :: _ :: _ :: _ => exact ha

/-- If some match of a rule captures `(i, lab)` and `i` is unseen when the
rule runs, the rule's scan adds a node with id `i` and the rule's tag. -/
theorem scanStep_capture_aux (ty : NodeType) (i : String) :
    ∀ (ms : List (List String)) (acc : List GRDNode × List String),
      ((∃ m ∈ acc.1, m.id = i ∧ m.node_type = ty) ∨
        (i ∉ acc.2 ∧ ∃ lab, [i, lab] ∈ ms)) →
      ∃ m ∈ (ms.foldl (scanStep ty) acc).1, m.id = i ∧ m.node_type = ty := by
  intro ms
  induction ms with
  | nil =>
    rintro acc (h | ⟨-, lab, h⟩)
    · simpa using h
    · cases h
  | cons gs ms ih =>
    intro acc h
    rw [List.foldl_cons]
    apply ih
    rcases h with hpres | ⟨hseen, lab, hmem⟩
    · obtain ⟨m, hm, hid, hty⟩ := hpres
      exact Or.inl ⟨m, scanStep_mem ty hm gs, hid, hty⟩
    · match gs with
      | [nid, lab0] =>
        by_cases hn : nid = i
        · subst hn
          left
          refine ⟨⟨nid, pstrip lab0, ty, []⟩, ?_, rfl, rfl⟩
          show _ ∈ (addNode acc _).1
          unfold addNode
          split
          · next hin => exact absurd hin hseen
          · simp
        · right
          constructor
          · show i ∉ (addNode acc _).2
            unfold addNode
            split
            · exact hseen
            · intro hmem2
              rcases List.mem_append.mp hmem2 with hq | hq
              · exact hseen hq
              · exact hn (List.mem_singleton.mp hq).symm
          · refine ⟨lab, ?_⟩
            rcases List.mem_cons.mp hmem with hq | hq
            · exfalso
              injection hq with hq1 hq2
              exact hn hq1.symm
            · exact hq
      | [] =>
        refine Or.inr ⟨hseen, lab, ?_⟩
        rcases List.mem_cons.mp hmem with hq | hq
        · cases hq
        · exact hq
      | [x] =>
        refine Or.inr ⟨hseen, lab, ?_⟩
        rcases List.mem_cons.mp hmem with hq | hq
        · cases hq
        · exact hq
      | x :: y :: z :: rest =>
        refine Or.inr ⟨hseen, lab, ?_⟩
        rcases List.mem_cons.mp hmem with hq | hq
        · cases hq
        · exact hq

theorem scanPattern_capture (code : String) (pn : Rx × NodeType)
    {acc : List GRDNode × List String} {i lab : String}
    (hm : [i, lab] ∈ finditer pn.1 code) (hseen : i ∉ acc.2) :
    ∃ m ∈ (scanPattern code acc pn).1, m.id = i ∧ m.node_type = pn.2 :=
  scanStep_capture_aux pn.2 i _ acc (Or.inr ⟨hseen, lab, hm⟩)

/-- Unfolding of the ordered `NODE_PATTERNS` scan. -/
theorem parse_nodes_scan_unfold (c : String) :
    parse_nodes_scan c =
      scanPattern c (scanPattern c (scanPattern c (scanPattern c
        (scanPattern c (scanPattern c (scanPattern c (scanPattern c ([], [])
          (nodePat "[[" "]]", .SUBROUTINE)) (nodePat "[(" ")]", .STADIUM))
          (nodePat "((" "))", .CIRCLE)) (nodePat "\x7b" "\x7d", .DIAMOND))
          (nodePat "\x7b\x7b" "\x7d\x7d", .HEXAGON)) (nodePat "(" ")", .ROUNDED))
          (nodePat "[" "]", .RECTANGLE)) (paraPat, .PARALLELOGRAM) := rfl

/-- The diamond rule fixes the tag of any id it captures first. -/
theorem parse_nodes_diamond_first (c i lab : String)
    (hdi : [i, lab] ∈ finditer (nodePat "\x7b" "\x7d") c)
    (h1 : i ∉ capturedIds (nodePat "[[" "]]") c)
    (h2 : i ∉ capturedIds (nodePat "[(" ")]") c)
    (h3 : i ∉ capturedIds (nodePat "((" "))") c) :
    ∃ n ∈ parse_nodes c, n.id = i ∧ n.node_type = .DIAMOND ∧
      ∀ n2 ∈ parse_nodes c, n2.id = i → n2 = n := by
  have h0 : i ∉ (([], []) : List GRDNode × List String).2 := by simp
  have hA := scanPattern_not_seen c (nodePat "[[" "]]", .SUBROUTINE) h1 h0
  have hB := scanPattern_not_seen c (nodePat "[(" ")]", .STADIUM) h2 hA
  have hC := scanPattern_not_seen c (nodePat "((" "))", .CIRCLE) h3 hB
  obtain ⟨m, hm, hmid, hmty⟩ :=
    scanPattern_capture c (nodePat "\x7b" "\x7d", .DIAMOND) hdi hC
  have hm8 : m ∈ (parse_nodes_scan c).1 := by
    rw [parse_nodes_scan_unfold]
    exact scanPattern_mem c _ (scanPattern_mem c _ (scanPattern_mem c _
      (scanPattern_mem c _ hm)))
  have hmn : m ∈ parse_nodes c := parse_nodes_acc_mem c hm8
  have hnodup := parse_nodes_map_id_nodup c
  exact ⟨m, hmn, hmid, hmty, fun n2 hn2 hni2 =>
    List.inj_on_of_nodup_map hnodup hn2 hmn (by rw [hni2, hmid])⟩

set_option maxHeartbeats 1000000 in
/-- C1 (amended): an identifier declared with hexagon delimiters
(`id{{text}}`) resolves to the DIAMOND tag, not HEXAGON, whenever the
diamond rule's scan captures it and no earlier rule (subroutine, stadium,
circle) does — in the code the diamond rule precedes the hexagon rule and
the first rule to capture an id fixes its tag.  The id appears exactly
once in the node list. -/
theorem C1_diamond_wins_over_hexagon (code i lab : String) (g : GRDStructure)
    (h : parse code = .ok g)
    (hdi : [i, lab] ∈ finditer (nodePat "\x7b" "\x7d") (clean_code code))
    (h1 : i ∉ capturedIds (nodePat "[[" "]]") (clean_code code))
    (h2 : i ∉ capturedIds (nodePat "[(" ")]") (clean_code code))
    (h3 : i ∉ capturedIds (nodePat "((" "))") (clean_code code)) :
    ∃ n ∈ g.nodes, n.id = i ∧ n.node_type = .DIAMOND ∧
      ∀ n2 ∈ g.nodes, n2.id = i → n2 = n := by
  obtain ⟨-, -, rfl⟩ := parse_ok_elim h
  exact parse_nodes_diamond_first (clean_code code) i lab hdi h1 h2 h3

/-- C1 counterexample: the claim says an id declared `id{{text}}` resolves
to the HEXAGON tag, but `parse "graph TD\nA{{hello}}"` tags `A` DIAMOND —
the diamond rule precedes the hexagon rule in `NODE_PATTERNS` and captures
`A` first (its lazy body matches `{hello`). -/
theorem C1_hexagon_declaration_gets_diamond_tag :
    (parse "graph TD\nA\x7b\x7bhello\x7d\x7d").map
        (fun g => g.nodes.map (fun n => (n.id, n.node_type)))
      = .ok [("A", .DIAMOND)] := by decide

set_option maxHeartbeats 1000000 in
/-- The hexagon-declaration example parses successfully. -/
theorem hexExample_parse_ok :
    parse "graph TD\nA\x7b\x7bhello\x7d\x7d"
      = .ok (parsedGraph "graph TD\nA\x7b\x7bhello\x7d\x7d") := by rfl

set_option maxHeartbeats 1000000 in
/-- The diamond rule's scan captures `A` in the hexagon-declaration example. -/
theorem hexExample_diamond_captures :
    ["A", "\x7bhello"] ∈ finditer (nodePat "\x7b" "\x7d")
      (clean_code "graph TD\nA\x7b\x7bhello\x7d\x7d") := by decide

set_option maxHeartbeats 1000000 in
/-- No earlier rule captures `A` in the hexagon-declaration example. -/
theorem hexExample_earlier_rules_miss :
    "A" ∉ capturedIds (nodePat "[[" "]]") (clean_code "graph TD\nA\x7b\x7bhello\x7d\x7d") ∧
    "A" ∉ capturedIds (nodePat "[(" ")]") (clean_code "graph TD\nA\x7b\x7bhello\x7d\x7d") ∧
    "A" ∉ capturedIds (nodePat "((" "))") (clean_code "graph TD\nA\x7b\x7bhello\x7d\x7d") := by
  refine ⟨?_, ?_, ?_⟩ <;> decide

set_option maxHeartbeats 1000000 in
/-- C1 witness: the amended theorem applied at `graph TD\nA{{hello}}`. -/
theorem C1_diamond_wins_over_hexagon_witness :
    ∃ n ∈ (parsedGraph "graph TD\nA\x7b\x7bhello\x7d\x7d").nodes,
      n.id = "A" ∧ n.node_type = .DIAMOND ∧
        ∀ n2 ∈ (parsedGraph "graph TD\nA\x7b\x7bhello\x7d\x7d").nodes,
          n2.id = "A" → n2 = n :=
  C1_diamond_wins_over_hexagon "graph TD\nA\x7b\x7bhello\x7d\x7d" "A" "\x7bhello"
    (parsedGraph "graph TD\nA\x7b\x7bhello\x7d\x7d") hexExample_parse_ok
    hexExample_diamond_captures hexExample_earlier_rules_miss.1
    hexExample_earlier_rules_miss.2.1 hexExample_earlier_rules_miss.2.2

/-! ## Claim C4: `validate` and the header classifier -/

theorem splitNL_ne_nil (cs : List Char) : splitNL cs ≠ [] := by
  induction cs with
  | nil => simp [splitNL]
  | cons c rest ih =>
    unfold splitNL
    split
    · simp
    · cases hs : splitNL rest with
      | nil => simp
      | cons l ls => simp

theorem splitNL_noNL (cs : List Char) : ∀ l ∈ splitNL cs, '\n' ∉ l := by
  induction cs with
  | nil =>
    intro l hl
    simp [splitNL] at hl
    simp [hl]
  | cons c rest ih =>
    intro l hl
    unfold splitNL at hl
    split at hl
    · rcases List.mem_cons.mp hl with rfl | hq
      · simp
      · exact ih l hq
    · next hc =>
      cases hs : splitNL rest with
      | nil => exact absurd hs (splitNL_ne_nil rest)
      | cons l0 ls =>
        rw [hs] at hl
        rcases List.mem_cons.mp hl with rfl | hq
        · intro hmem
          rcases List.mem_cons.mp hmem with rfl | hq2
          · exact hc rfl
          · exact ih l0 (hs ▸ List.mem_cons_self _ _) hq2
        · exact ih l (hs ▸ List.mem_cons_of_mem _ hq)

theorem joinNL_splitNL (cs : List Char) : joinNL (splitNL cs) = cs := by
  induction cs with
  | nil => rfl
  | cons c rest ih =>
    unfold splitNL
    split
    · next hc =>
      subst hc
      cases hs : splitNL rest with
      | nil => exact absurd hs (splitNL_ne_nil rest)
      | cons l ls =>
        rw [hs] at ih
        show joinNL ([] :: l :: ls) = '\n' :: rest
        unfold joinNL
        simpa using ih
    · next hc =>
      cases hs : splitNL rest with
      | nil => exact absurd hs (splitNL_ne_nil rest)
      | cons l ls =>
        rw [hs] at ih
        cases ls with
        | nil => simpa [joinNL] using ih
        | cons m ls2 =>
          show (c :: l) ++ '\n' :: joinNL (m :: ls2) = c :: rest
          have : l ++ '\n' :: joinNL (m :: ls2) = rest := ih
          simpa using this

theorem kwCI_cons (k : Char) (kt : List Char) (c : Char) (rest : List Char) :
    kwCI (k :: kt) (c :: rest) = ((k == Char.toLower c) && kwCI kt rest) := rfl

theorem kwCI_nil : ∀ cs : List Char, kwCI [] cs = true
  | [] => rfl
  | _ :: _ => rfl

theorem kwCI_append_nl (kw : List Char) (hkw : '\n' ∉ kw) (x R : List Char) :
    kwCI kw (x ++ '\n' :: R) = kwCI kw x := by
  induction kw generalizing x with
  | nil => rw [kwCI_nil, kwCI_nil]
  | cons k kt ih =>
    cases x with
    | nil =>
      show kwCI (k :: kt) ('\n' :: R) = kwCI (k :: kt) []
      rw [kwCI_cons]
      have hk : k ≠ '\n' := fun hq => hkw (hq ▸ List.mem_cons_self _ _)
      have : (k == Char.toLower '\n') = false := by
        simp [Char.toLower]
        intro hq
        exact absurd hq hk
      rw [this]
      rfl
    | cons a x2 =>
      show kwCI (k :: kt) (a :: (x2 ++ '\n' :: R)) = kwCI (k :: kt) (a :: x2)
      rw [kwCI_cons, kwCI_cons, ih (fun hq => hkw (List.mem_cons_of_mem _ hq))]

theorem kwCI_cons_append (kw : List Char) (hkw : '\n' ∉ kw) (c : Char) (x R : List Char) :
    kwCI kw (c :: (x ++ '\n' :: R)) = kwCI kw (c :: x) := by
  rw [← List.cons_append]
  exact kwCI_append_nl kw hkw (c :: x) R

theorem flowHere_cons (c : Char) (rest : List Char) :
    flowHere (c :: rest) =
      (kwCI "graph".data (c :: rest) || kwCI "flowchart".data (c :: rest) ||
        (isPyWS c && flowHere rest)) := rfl

theorem flowHere_append (x R : List Char) (hx : '\n' ∉ x) :
    flowHere (x ++ '\n' :: R) = (flowHere x || (x.all isPyWS && flowHere R)) := by
  induction x with
  | nil =>
    show flowHere ('\n' :: R) = _
    rw [flowHere_cons,
      show kwCI "graph".data ('\n' :: R) = false by rw [kwCI_cons]; rfl,
      show kwCI "flowchart".data ('\n' :: R) = false by rw [kwCI_cons]; rfl]
    simp [isPyWS, flowHere]
  | cons c x2 ih =>
    have hc : c ≠ '\n' := fun hq => hx (hq ▸ List.mem_cons_self _ _)
    have hx2 : '\n' ∉ x2 := fun hq => hx (List.mem_cons_of_mem _ hq)
    show flowHere (c :: (x2 ++ '\n' :: R)) = _
    rw [flowHere_cons, flowHere_cons,
      kwCI_cons_append "graph".data (by decide) c x2 R,
      kwCI_cons_append "flowchart".data (by decide) c x2 R, ih hx2]
    cases h1 : kwCI "graph".data (c :: x2) <;> cases h2 : kwCI "flowchart".data (c :: x2) <;>
      cases hq : isPyWS c <;> cases h3 : flowHere x2 <;> cases h4 : x2.all isPyWS <;>
        cases h5 : flowHere R <;>
          simp [List.all_cons, hq, h1, h2, h3, h4, h5]

theorem flowScan_cons (c : Char) (rest : List Char) (b : Bool) :
    flowScan (c :: rest) b =
      ((b && flowHere (c :: rest)) || flowScan rest (decide (c = '\n'))) := rfl

theorem flowScan_noNL (x : List Char) (hx : '\n' ∉ x) (b : Bool) :
    flowScan x b = (b && flowHere x) := by
  induction x generalizing b with
  | nil => simp [flowScan, flowHere]
  | cons c x2 ih =>
    have hc : c ≠ '\n' := fun hq => hx (hq ▸ List.mem_cons_self _ _)
    rw [flowScan_cons, ih (fun hq => hx (List.mem_cons_of_mem _ hq)),
      decide_eq_false hc]
    simp

theorem flowScan_append (x R : List Char) (hx : '\n' ∉ x) (b : Bool) :
    flowScan (x ++ '\n' :: R) b =
      ((b && flowHere (x ++ '\n' :: R)) || flowScan R true) := by
  induction x generalizing b with
  | nil =>
    show flowScan ('\n' :: R) b = _
    rw [flowScan_cons, decide_eq_true rfl]
    simp
  | cons c x2 ih =>
    have hc : c ≠ '\n' := fun hq => hx (hq ▸ List.mem_cons_self _ _)
    show flowScan (c :: (x2 ++ '\n' :: R)) b = _
    rw [flowScan_cons, decide_eq_false hc, ih (fun hq => hx (List.mem_cons_of_mem _ hq))]
    simp

theorem flowHere_joinNL_any (ls : List (List Char)) (h : ∀ l ∈ ls, '\n' ∉ l) :
    flowHere (joinNL ls) = true → ls.any (fun l => flowHere l) = true := by
  induction ls with
  | nil => intro hq; cases hq
  | cons l ls ih =>
    cases ls with
    | nil => intro hq; simpa using hq
    | cons m ls2 =>
      show flowHere (l ++ '\n' :: joinNL (m :: ls2)) = true → _
      rw [flowHere_append _ _ (h l (List.mem_cons_self _ _))]
      intro hq
      rcases Bool.or_eq_true_iff.mp hq with hq1 | hq2
      · simp [hq1]
      · have := ih (fun l2 hl2 => h l2 (List.mem_cons_of_mem _ hl2))
          (Bool.and_eq_true_iff.mp hq2).2
        simp [List.any_cons] at this ⊢
        tauto

theorem flowScan_joinNL (ls : List (List Char)) (h : ∀ l ∈ ls, '\n' ∉ l) :
    flowScan (joinNL ls) true = ls.any (fun l => flowHere l) := by
  induction ls with
  | nil => rfl
  | cons l ls ih =>
    cases ls with
    | nil =>
      show flowScan l true = _
      rw [flowScan_noNL l (h l (List.mem_cons_self _ _))]
      simp
    | cons m ls2 =>
      have hl := h l (List.mem_cons_self _ _)
      have htail : ∀ l2 ∈ m :: ls2, '\n' ∉ l2 :=
        fun l2 hl2 => h l2 (List.mem_cons_of_mem _ hl2)
      show flowScan (l ++ '\n' :: joinNL (m :: ls2)) true = _
      rw [flowScan_append _ _ hl, flowHere_append _ _ hl, ih htail]
      have habs := flowHere_joinNL_any (m :: ls2) htail
      cases hfl : flowHere l <;>
        cases hj : flowHere (joinNL (m :: ls2)) <;>
          simp [hfl, hj, List.any_cons] at habs ⊢ <;> tauto

/-- The header classifier accepts exactly when some line matches
`\s*(graph|flowchart)` case-insensitively at its start. -/
theorem is_flowchart_iff_line (s : String) :
    is_flowchart s = true ↔ ∃ l ∈ splitNL s.data, flowHere l = true := by
  unfold is_flowchart
  rw [show s.data = joinNL (splitNL s.data) from (joinNL_splitNL s.data).symm]
  rw [flowScan_joinNL _ (splitNL_noNL s.data)]
  rw [joinNL_splitNL]
  exact List.any_eq_true

/-- C4: `validate` never raises — it is a total function into
`Bool × Option String` whose result is `(true, none)` exactly when `parse`
succeeds and `(false, reason)` on every parse failure; `validate ""` gives
the empty-input reason, and a nonempty input whose normalized form has no
line matching the (case-insensitive) `graph`/`flowchart` header pattern
gives the header-classification reason. -/
theorem C4_validate_totality (t : String) :
    (validate t = (true, none) ↔ ∃ g, parse t = .ok g) ∧
    (validate t = (true, none) ∨ ∃ msg, validate t = (false, some msg)) ∧
    validate "" = (false, some "Mermaid code cannot be empty") ∧
    (t ≠ "" → (∀ l ∈ splitNL (clean_code t).data, flowHere l = false) →
      validate t = (false, some "Only flowchart diagrams are supported")) := by
  refine ⟨?_, ?_, by decide, ?_⟩
  · cases hp : parse t with
    | ok g => simp [validate, hp]
    | error e => simp [validate, hp]
  · cases hp : parse t with
    | ok g => left; simp [validate, hp]
    | error e => right; exact ⟨e, by simp [validate, hp]⟩
  · intro ht hlines
    have hif : is_flowchart (clean_code t) = false := by
      by_contra hq
      rw [Bool.not_eq_false] at hq
      obtain ⟨l, hl, hfl⟩ := (is_flowchart_iff_line _).mp hq
      rw [hlines l hl] at hfl
      cases hfl
    have hp : parse t = .error "Only flowchart diagrams are supported" := by
      unfold parse
      rw [if_neg ht]
      dsimp only
      rw [if_pos (by simp [hif])]
    simp [validate, hp]

/-- C4 witness: Scenario D (`A --> B` has no header line) and Scenario C
(empty input), through the theorem. -/
theorem C4_validate_totality_witness :
    validate "A --> B" = (false, some "Only flowchart diagrams are supported") ∧
      validate "" = (false, some "Mermaid code cannot be empty") ∧
      (validate "A --> B" = (true, none) ↔ ∃ g, parse "A --> B" = .ok g) :=
  ⟨(C4_validate_totality "A --> B").2.2.2 (by decide) (by decide),
    (C4_validate_totality "").2.2.1, (C4_validate_totality "A --> B").1⟩

/-! ## Claim C5: empty versus whitespace-only input -/

theorem mem_of_mem_dropWhile {p : Char → Bool} {l : List Char} {c : Char}
    (h : c ∈ l.dropWhile p) : c ∈ l := by
  induction l with
  | nil => simpa using h
  | cons a t ih =>
    rw [List.dropWhile_cons] at h
    split at h
    · exact List.mem_cons_of_mem _ (ih h)
    · exact h

theorem mem_of_mem_stripL {l : List Char} {c : Char} (h : c ∈ stripL l) : c ∈ l := by
  unfold stripL rstripL lstripL at h
  have h1 := List.mem_reverse.mp h
  have h2 := List.mem_reverse.mp (mem_of_mem_dropWhile h1)
  exact mem_of_mem_dropWhile h2

theorem stripL_eq_nil {l : List Char} (h : ∀ c ∈ l, isPyWS c = true) : stripL l = [] := by
  unfold stripL lstripL
  rw [List.dropWhile_eq_nil_iff.mpr h]
  rfl

theorem subCommentAux_subset_aux :
    ∀ (n : Nat) (b : Bool) (cs : List Char), cs.length ≤ n →
      ∀ c ∈ subCommentAux b cs, c ∈ cs := by
  intro n
  induction n with
  | zero =>
    intro b cs hlen c hc
    obtain rfl := List.length_eq_zero.mp (Nat.le_zero.mp hlen)
    simp [subCommentAux] at hc
  | succ n ih =>
    intro b cs hlen c hc
    unfold subCommentAux at hc
    split at hc
    · cases hc
    · next rest =>
      split at hc
      · next hny =>
        rcases List.mem_cons.mp hc with rfl | hq
        · rw [hny]
          exact List.mem_cons_self _ _
        · exact List.mem_cons_of_mem _
            (ih false rest (by simpa using hlen) c hq)
      · exact List.mem_cons_of_mem _ (ih true rest (by simpa using hlen) c hc)
    · next rest =>
      have hr : rest.length ≤ n := by
        simp [List.length_cons] at hlen
        omega
      exact List.mem_cons_of_mem _ (List.mem_cons_of_mem _ (ih true rest hr c hc))
    · next c1 rest _ =>
      rcases List.mem_cons.mp hc with rfl | hq
      · exact List.mem_cons_self _ _
      · exact List.mem_cons_of_mem _ (ih false rest (by simpa using hlen) c hq)

theorem subCommentAux_subset (b : Bool) (cs : List Char) :
    ∀ c ∈ subCommentAux b cs, c ∈ cs :=
  subCommentAux_subset_aux cs.length b cs (Nat.le_refl _)

theorem collapseSTAux_subset :
    ∀ (b : Bool) (cs : List Char), ∀ c ∈ collapseSTAux b cs, c ∈ cs ∨ c = ' ' := by
  intro b cs
  induction cs generalizing b with
  | nil => intro c hc; cases hc
  | cons a t ih =>
    intro c hc
    unfold collapseSTAux at hc
    split at hc
    · split at hc
      · rcases ih true c hc with hq | hq
        · exact Or.inl (List.mem_cons_of_mem _ hq)
        · exact Or.inr hq
      · rcases List.mem_cons.mp hc with rfl | hq
        · exact Or.inr rfl
        · rcases ih true c hq with hq2 | hq2
          · exact Or.inl (List.mem_cons_of_mem _ hq2)
          · exact Or.inr hq2
    · rcases List.mem_cons.mp hc with rfl | hq
      · exact Or.inl (List.mem_cons_self _ _)
      · rcases ih false c hq with hq2 | hq2
        · exact Or.inl (List.mem_cons_of_mem _ hq2)
        · exact Or.inr hq2

theorem splitNL_mem_subset :
    ∀ (cs : List Char) (l : List Char), l ∈ splitNL cs → ∀ c ∈ l, c ∈ cs := by
  intro cs
  induction cs with
  | nil =>
    intro l hl c hc
    simp [splitNL] at hl
    rw [hl] at hc
    cases hc
  | cons a t ih =>
    intro l hl c hc
    unfold splitNL at hl
    split at hl
    · rcases List.mem_cons.mp hl with rfl | hq
      · cases hc
      · exact List.mem_cons_of_mem _ (ih l hq c hc)
    · cases hs : splitNL t with
      | nil => exact absurd hs (splitNL_ne_nil t)
      | cons l0 ls =>
        rw [hs] at hl
        rcases List.mem_cons.mp hl with rfl | hq
        · rcases List.mem_cons.mp hc with rfl | hq2
          · exact List.mem_cons_self _ _
          · exact List.mem_cons_of_mem _ (ih l0 (hs ▸ List.mem_cons_self _ _) c hq2)
        · exact List.mem_cons_of_mem _ (ih l (hs ▸ List.mem_cons_of_mem _ hq) c hc)

theorem joinNL_subset :
    ∀ (ls : List (List Char)), ∀ c ∈ joinNL ls, (∃ l ∈ ls, c ∈ l) ∨ c = '\n' := by
  intro ls
  induction ls with
  | nil => intro c hc; cases hc
  | cons l ls ih =>
    intro c hc
    cases ls with
    | nil => exact Or.inl ⟨l, List.mem_cons_self _ _, hc⟩
    | cons m ls2 =>
      rcases List.mem_append.mp hc with hq | hq
      · exact Or.inl ⟨l, List.mem_cons_self _ _, hq⟩
      · rcases List.mem_cons.mp hq with rfl | hq2
        · exact Or.inr rfl
        · rcases ih c hq2 with ⟨l2, hl2, hc2⟩ | hq3
          · exact Or.inl ⟨l2, List.mem_cons_of_mem _ hl2, hc2⟩
          · exact Or.inr hq3

theorem subBlankAux_subset :
    ∀ (fuel : Nat) (cs : List Char), ∀ c ∈ subBlankAux fuel cs, c ∈ cs ∨ c = '\n' := by
  intro fuel
  induction fuel with
  | zero => intro cs c hc; exact Or.inl hc
  | succ f ih =>
    intro cs c hc
    cases cs with
    | nil => cases hc
    | cons a rest =>
      unfold subBlankAux at hc
      split at hc
      · rcases List.mem_cons.mp hc with rfl | hq
        · exact Or.inr rfl
        · rcases ih _ c hq with hq2 | hq2
          · refine Or.inl (List.mem_cons_of_mem _ ?_)
            unfold dropThroughLastNL at hq2
            exact List.mem_of_mem_drop hq2
          · exact Or.inr hq2
      · rcases List.mem_cons.mp hc with rfl | hq
        · exact Or.inl (List.mem_cons_self _ _)
        · rcases ih _ c hq with hq2 | hq2
          · exact Or.inl (List.mem_cons_of_mem _ hq2)
          · exact Or.inr hq2

/-- A whitespace-only input normalizes to the empty string. -/
theorem clean_code_of_all_ws (t : String) (h : ∀ c ∈ t.data, isPyWS c = true) :
    clean_code t = "" := by
  have hstrip0 : stripL t.data = [] := stripL_eq_nil h
  have hfence : fenceStrip t.data = t.data := by
    unfold fenceStrip
    rw [hstrip0, if_neg (by decide)]
  have h1 : ∀ c ∈ subComment (fenceStrip t.data), isPyWS c = true := by
    rw [hfence]
    exact fun c hc => h c (subCommentAux_subset false t.data c hc)
  have h4 : ∀ c ∈ joinNL ((splitNL (subComment (fenceStrip t.data))).map
      (fun l => stripL (collapseST l))), isPyWS c = true := by
    intro c hc
    rcases joinNL_subset _ c hc with ⟨l, hl, hcl⟩ | rfl
    · obtain ⟨l0, hl0, rfl⟩ := List.mem_map.mp hl
      have hl0ws : ∀ c2 ∈ collapseST l0, isPyWS c2 = true := by
        intro c2 hc2
        rcases collapseSTAux_subset false l0 c2 hc2 with hq | rfl
        · exact h1 c2 (splitNL_mem_subset _ l0 hl0 c2 hq)
        · decide
      rw [stripL_eq_nil hl0ws] at hcl
      cases hcl
    · decide
  have h5 : ∀ c ∈ subBlank (joinNL ((splitNL (subComment (fenceStrip t.data))).map
      (fun l => stripL (collapseST l)))), isPyWS c = true := by
    intro c hc
    rcases subBlankAux_subset _ _ c hc with hq | rfl
    · exact h4 c hq
    · decide
  show String.mk (stripL (subBlank (joinNL ((splitNL (subComment (fenceStrip t.data))).map
      (fun l => stripL (collapseST l)))))) = ""
  rw [stripL_eq_nil h5]

/-- C5 (amended): only the genuinely empty input triggers the EmptyInput
error (`if not mermaid_code` is an emptiness test, not a blank test); a
whitespace-only nonempty input passes it, normalizes to the empty string,
and then fails header classification with the WrongDiagramType error
instead. -/
theorem C5_empty_vs_whitespace (t : String) :
    parse "" = .error "Mermaid code cannot be empty" ∧
      (t ≠ "" → (∀ c ∈ t.data, isPyWS c = true) →
        parse t = .error "Only flowchart diagrams are supported") := by
  refine ⟨by decide, fun ht hws => ?_⟩
  unfold parse
  rw [if_neg ht]
  dsimp only
  rw [if_pos (by rw [clean_code_of_all_ws t hws]; decide)]

/-- C5 counterexample: the one-space input is whitespace-only, but `parse`
reports the header-classification error, not the empty-input error the
claim requires. -/
theorem C5_whitespace_gets_header_error :
    parse " " = .error "Only flowchart diagrams are supported" ∧
      parse " " ≠ .error "Mermaid code cannot be empty" := by decide

/-- C5 witness: the amended theorem at the one-space input. -/
theorem C5_empty_vs_whitespace_witness :
    parse "" = .error "Mermaid code cannot be empty" ∧
      parse " " = .error "Only flowchart diagrams are supported" :=
  ⟨(C5_empty_vs_whitespace " ").1,
    (C5_empty_vs_whitespace " ").2 (by decide) (by decide)⟩

/-! ## Claim C3: normalization and idempotence — stripping lemmas -/

theorem dropWhile_suffix (p : Char → Bool) (l : List Char) : l.dropWhile p <:+ l := by
  induction l with
  | nil => exact List.suffix_refl _
  | cons a t ih =>
    rw [List.dropWhile_cons]
    split
    · exact ih.trans (List.suffix_cons a t)
    · exact List.suffix_refl _

theorem head?_dropWhile (p : Char → Bool) (l : List Char) :
    ∀ c ∈ (l.dropWhile p).head?, p c = false := by
  induction l with
  | nil => intro c hc; cases hc
  | cons a t ih =>
    intro c hc
    rw [List.dropWhile_cons] at hc
    split at hc
    · exact ih c hc
    · next hq =>
      cases hc
      exact Bool.not_eq_true _ ▸ hq

theorem dropWhile_of_head_false (p : Char → Bool) (l : List Char)
    (h : ∀ c ∈ l.head?, p c = false) : l.dropWhile p = l := by
  cases l with
  | nil => rfl
  | cons a t =>
    rw [List.dropWhile_cons, if_neg]
    rw [h a rfl]
    simp

theorem dropWhile_append_of_ne_nil (p : Char → Bool) (a b : List Char)
    (h : a.dropWhile p ≠ []) : (a ++ b).dropWhile p = a.dropWhile p ++ b := by
  induction a with
  | nil => exact absurd rfl h
  | cons x t ih =>
    rw [List.cons_append, List.dropWhile_cons, List.dropWhile_cons]
    split
    · next hp =>
      rw [List.dropWhile_cons, if_pos hp] at h
      exact ih h
    · rfl

theorem dropWhile_append_of_eq_nil (p : Char → Bool) (a b : List Char)
    (h : a.dropWhile p = []) : (a ++ b).dropWhile p = b.dropWhile p := by
  induction a with
  | nil => rfl
  | cons x t ih =>
    rw [List.dropWhile_cons] at h
    rw [List.cons_append, List.dropWhile_cons]
    split
    · next hp =>
      rw [if_pos hp] at h
      exact ih h
    · next hp =>
      rw [if_neg hp] at h
      cases h

theorem rstripL_prefix (l : List Char) : rstripL l <+: l := by
  unfold rstripL
  have h := dropWhile_suffix isPyWS l.reverse
  have := List.reverse_prefix.mpr h
  simpa using this

theorem getLast?_rstripL (l : List Char) :
    ∀ c ∈ (rstripL l).getLast?, isPyWS c = false := by
  intro c hc
  unfold rstripL at hc
  rw [List.getLast?_reverse] at hc
  exact head?_dropWhile isPyWS l.reverse c hc

theorem rstripL_eq_self {l : List Char} (h : ∀ c ∈ l.getLast?, isPyWS c = false) :
    rstripL l = l := by
  unfold rstripL
  rw [dropWhile_of_head_false isPyWS l.reverse (by rw [List.head?_reverse]; exact h)]
  exact List.reverse_reverse l

theorem stripL_eq_self {l : List Char} (h1 : ∀ c ∈ l.head?, isPyWS c = false)
    (h2 : ∀ c ∈ l.getLast?, isPyWS c = false) : stripL l = l := by
  unfold stripL lstripL
  rw [dropWhile_of_head_false isPyWS l h1]
  exact rstripL_eq_self h2

theorem head?_stripL (l : List Char) : ∀ c ∈ (stripL l).head?, isPyWS c = false := by
  intro c hc
  unfold stripL at hc
  cases hp : rstripL (lstripL l) with
  | nil => rw [hp] at hc; cases hc
  | cons a t =>
    rw [hp, List.head?_cons, Option.mem_def] at hc
    injection hc with hac
    subst hac
    have hpre := rstripL_prefix (lstripL l)
    rw [hp] at hpre
    obtain ⟨t2, ht2⟩ := hpre
    have : (lstripL l).head? = some a := by rw [← ht2]; rfl
    exact head?_dropWhile isPyWS l a this

theorem getLast?_stripL (l : List Char) :
    ∀ c ∈ (stripL l).getLast?, isPyWS c = false := getLast?_rstripL (lstripL l)

theorem stripL_cons_of_ws {c : Char} (l : List Char) (h : isPyWS c = true) :
    stripL (c :: l) = stripL l := by
  unfold stripL lstripL
  rw [List.dropWhile_cons, if_pos h]

theorem rstripL_append (l Z : List Char) (hl : l ≠ [])
    (hlast : ∀ c ∈ l.getLast?, isPyWS c = false) :
    rstripL (l ++ Z) = l ++ rstripL Z := by
  unfold rstripL
  rw [List.reverse_append]
  by_cases hz : Z.reverse.dropWhile isPyWS = []
  · rw [dropWhile_append_of_eq_nil isPyWS Z.reverse l.reverse hz,
      dropWhile_of_head_false isPyWS l.reverse
        (by rw [List.head?_reverse]; exact hlast),
      hz]
    simp
  · rw [dropWhile_append_of_ne_nil isPyWS Z.reverse l.reverse hz, List.reverse_append,
      List.reverse_reverse]

theorem stripL_append_left (l Z : List Char) (hl : l ≠ [])
    (hhead : ∀ c ∈ l.head?, isPyWS c = false)
    (hlast : ∀ c ∈ l.getLast?, isPyWS c = false) :
    stripL (l ++ Z) = l ++ rstripL Z := by
  unfold stripL lstripL
  rw [dropWhile_of_head_false isPyWS (l ++ Z)
    (by rw [List.head?_append_of_ne_nil l hl]; exact hhead)]
  exact rstripL_append l Z hl hlast

/-! Fuel-invariance and recurrence for `subBlank`. -/

theorem dropThroughLastNL_length_le (cs : List Char) :
    (dropThroughLastNL cs).length ≤ cs.length := by
  unfold dropThroughLastNL
  simp only [List.length_drop]
  omega

theorem subBlankAux_congr :
    ∀ (f1 : Nat), ∀ {f2 : Nat} {cs : List Char}, cs.length ≤ f1 → cs.length ≤ f2 →
      subBlankAux f1 cs = subBlankAux f2 cs := by
  intro f1
  induction f1 with
  | zero =>
    intro f2 cs h1 h2
    obtain rfl := List.length_eq_zero.mp (Nat.le_zero.mp h1)
    cases f2 <;> rfl
  | succ f ih =>
    intro f2 cs h1 h2
    cases cs with
    | nil => cases f2 <;> rfl
    | cons c rest =>
      cases f2 with
      | zero => exact absurd h2 (by simp)
      | succ g =>
        show (if _ then '\n' :: subBlankAux f (dropThroughLastNL rest)
              else c :: subBlankAux f rest) =
            (if _ then '\n' :: subBlankAux g (dropThroughLastNL rest)
              else c :: subBlankAux g rest)
        have hr : rest.length ≤ f := by simpa using h1
        have hr2 : rest.length ≤ g := by simpa using h2
        have hd := dropThroughLastNL_length_le rest
        split
        · rw [ih (Nat.le_trans hd hr) (Nat.le_trans hd hr2)]
        · rw [ih hr hr2]

theorem subBlank_cons (c : Char) (rest : List Char) :
    subBlank (c :: rest) =
      if c = '\n' ∧ (rest.takeWhile isPyWS).any (· = '\n') then
        '\n' :: subBlank (dropThroughLastNL rest)
      else c :: subBlank rest := by
  show (if _ then '\n' :: subBlankAux rest.length (dropThroughLastNL rest)
        else c :: subBlankAux rest.length rest) = _
  unfold subBlank
  split
  · rw [subBlankAux_congr rest.length (dropThroughLastNL_length_le rest) (Nat.le_refl _)]
  · rfl

theorem subBlank_of_noNL {cs : List Char} (h : '\n' ∉ cs) : subBlank cs = cs := by
  induction cs with
  | nil => rfl
  | cons c rest ih =>
    rw [subBlank_cons,
      if_neg (by intro hq; apply h; rw [← hq.1]; exact List.mem_cons_self c rest)]
    rw [ih (fun hq => h (List.mem_cons_of_mem _ hq))]

theorem subBlank_append_noNL {l : List Char} (cs : List Char) (h : '\n' ∉ l) :
    subBlank (l ++ cs) = l ++ subBlank cs := by
  induction l with
  | nil => rfl
  | cons a t ih =>
    rw [List.cons_append, subBlank_cons,
      if_neg (by intro hq; apply h; rw [← hq.1]; exact List.mem_cons_self a t)]
    rw [ih (fun hq => h (List.mem_cons_of_mem _ hq)), List.cons_append]

theorem takeWhile_replicate_append (k : Nat) (X : List Char)
    (h : ∀ c ∈ X.head?, isPyWS c = false) :
    (List.replicate k '\n' ++ X).takeWhile isPyWS = List.replicate k '\n' := by
  induction k with
  | zero =>
    cases X with
    | nil => rfl
    | cons d r =>
      simp only [List.replicate, List.nil_append, List.takeWhile_cons]
      rw [h d rfl]
      rfl
  | succ j ih =>
    rw [List.replicate_succ, List.cons_append, List.takeWhile_cons, if_pos (by decide), ih]

theorem subBlank_nl_run (k : Nat) (hk : 1 ≤ k) (X : List Char)
    (h : ∀ c ∈ X.head?, isPyWS c = false) :
    subBlank (List.replicate k '\n' ++ X) = '\n' :: subBlank X := by
  obtain ⟨j, rfl⟩ : ∃ j, k = j + 1 := ⟨k - 1, by omega⟩
  rw [List.replicate_succ, List.cons_append, subBlank_cons]
  rw [takeWhile_replicate_append j X h]
  cases j with
  | zero => rw [if_neg (by simp)]; rfl
  | succ i =>
    rw [if_pos ⟨rfl, by rw [List.replicate_succ]; simp⟩]
    congr 1
    have hfind : (List.replicate (i + 1) '\n').findIdx (· = '\n') = 0 := by
      rw [List.replicate_succ, List.findIdx_cons]
      simp
    have hdrop : dropThroughLastNL (List.replicate (i + 1) '\n' ++ X) = X := by
      simp only [dropThroughLastNL]
      rw [takeWhile_replicate_append (i + 1) X h, List.reverse_replicate, hfind,
        List.length_replicate]
      rw [show i + 1 - 1 - 0 + 1 = (List.replicate (i + 1) '\n').length by
        rw [List.length_replicate]; omega]
      exact List.drop_left _ _
    rw [hdrop]

theorem subBlank_replicate_nl (m : Nat) :
    subBlank (List.replicate m '\n') = if m = 0 then [] else ['\n'] := by
  cases m with
  | zero => rfl
  | succ j =>
    rw [if_neg (by simp)]
    have := subBlank_nl_run (j + 1) (by omega) [] (by intro c hc; cases hc)
    simpa using this

theorem rstripL_cons_of_ne_nil (c : Char) (Z : List Char) (h : rstripL Z ≠ []) :
    rstripL (c :: Z) = c :: rstripL Z := by
  unfold rstripL at h ⊢
  have hd : Z.reverse.dropWhile isPyWS ≠ [] := by
    intro hq
    rw [hq] at h
    exact h rfl
  rw [List.reverse_cons, dropWhile_append_of_ne_nil isPyWS Z.reverse [c] hd,
    List.reverse_append]
  rfl

/-! ## Claim C3: character-pair invariants of the normalized text.

`ppOK` says the comment regex `%%.*` has no match at this pair, `ssOK` says
the run-collapsing regex `[ \t]+` has no length-two match, and `nbOK` says
the blank-line regex `\n\s*\n` has no match starting at this pair.  A string
whose adjacent pairs all satisfy them is a fixed point of the corresponding
substitution. -/

def ppOK (a b : Char) : Prop := ¬(a = '%' ∧ b = '%')

def ssOK (a b : Char) : Prop := ¬(a = ' ' ∧ b = ' ')

def nbOK (a b : Char) : Prop := a = '\n' → isPyWS b = false

theorem chain'_within {R : Char → Char → Prop} {l2 l : List Char}
    (h : List.Chain' R l) (h2 : l2 <:+: l) : List.Chain' R l2 :=
  h.infix h2

theorem stripL_isInfix (l : List Char) : stripL l <:+: l := by
  obtain ⟨s, hs⟩ := dropWhile_suffix isPyWS l
  obtain ⟨t, ht⟩ := rstripL_prefix (lstripL l)
  have hl : l = s ++ (stripL l ++ t) := by
    rw [show stripL l ++ t = lstripL l from ht]
    show l = s ++ List.dropWhile isPyWS l
    rw [hs]
  exact ⟨s, t, by rw [List.append_assoc]; exact hl.symm⟩

theorem joinNL_cons_of_ne_nil (m : List Char) {ms : List (List Char)} (h : ms ≠ []) :
    joinNL (m :: ms) = m ++ '\n' :: joinNL ms := by
  cases ms with
  | nil => exact absurd rfl h
  | cons a t => rfl

theorem head?_joinNL (m : List Char) (ms : List (List Char)) (hm : m ≠ []) :
    (joinNL (m :: ms)).head? = m.head? := by
  cases ms with
  | nil => rfl
  | cons a t =>
    rw [joinNL_cons_of_ne_nil m (by simp)]
    exact List.head?_append_of_ne_nil m hm

theorem joinNL_replicate_nil :
    ∀ a : Nat, joinNL (List.replicate (a + 1) []) = List.replicate a '\n' := by
  intro a
  induction a with
  | zero => rfl
  | succ b ih =>
    show joinNL ([] :: List.replicate (b + 1) []) = '\n' :: List.replicate b '\n'
    rw [joinNL_cons_of_ne_nil [] (by simp), ih]
    rfl

theorem joinNL_replicate_append (a : Nat) (ms : List (List Char)) (h : ms ≠ []) :
    joinNL (List.replicate a [] ++ ms) = List.replicate a '\n' ++ joinNL ms := by
  induction a with
  | zero => rfl
  | succ b ih =>
    show joinNL ([] :: (List.replicate b [] ++ ms)) =
      '\n' :: (List.replicate b '\n' ++ joinNL ms)
    rw [joinNL_cons_of_ne_nil []
      (fun hq => h (List.append_eq_nil.mp hq).2), ih]
    rfl

theorem splitNL_head_prefix {cs l0 : List Char} {ls : List (List Char)}
    (h : splitNL cs = l0 :: ls) : l0 <+: cs := by
  have hj := joinNL_splitNL cs
  rw [h] at hj
  cases ls with
  | nil =>
    rw [← hj]
    exact List.prefix_refl _
  | cons m ms =>
    rw [joinNL_cons_of_ne_nil l0 (by simp)] at hj
    exact ⟨'\n' :: joinNL (m :: ms), hj⟩

theorem splitNL_mem_isInfix : ∀ (cs : List Char), ∀ l ∈ splitNL cs, l <:+: cs := by
  intro cs
  induction cs with
  | nil =>
    intro l hl
    simp [splitNL] at hl
    subst hl
    exact List.infix_refl _
  | cons a t ih =>
    intro l hl
    unfold splitNL at hl
    split at hl
    · rcases List.mem_cons.mp hl with rfl | hq
      · exact List.nil_infix
      · exact (ih l hq).trans (List.infix_cons (List.infix_refl t))
    · cases hs : splitNL t with
      | nil => exact absurd hs (splitNL_ne_nil t)
      | cons l0 ls =>
        rw [hs] at hl
        rcases List.mem_cons.mp hl with rfl | hq
        · obtain ⟨r, hr⟩ := splitNL_head_prefix hs
          exact ⟨[], r, by rw [← hr]; rfl⟩
        · exact (ih l (hs ▸ List.mem_cons_of_mem _ hq)).trans
            (List.infix_cons (List.infix_refl t))

theorem splitNL_eq_single : ∀ (m : List Char), '\n' ∉ m → splitNL m = [m] := by
  intro m
  induction m with
  | nil => intro _; rfl
  | cons c m2 ih =>
    intro hm
    have hc : c ≠ '\n' := fun hq => hm (hq ▸ List.mem_cons_self _ _)
    simp only [splitNL]
    rw [if_neg hc, ih (fun hq => hm (List.mem_cons_of_mem _ hq))]

theorem splitNL_append_cons : ∀ (m : List Char), '\n' ∉ m → ∀ (z : List Char),
    splitNL (m ++ '\n' :: z) = m :: splitNL z := by
  intro m
  induction m with
  | nil =>
    intro _ z
    show splitNL ('\n' :: z) = [] :: splitNL z
    simp [splitNL]
  | cons c m2 ih =>
    intro hm z
    have hc : c ≠ '\n' := fun hq => hm (hq ▸ List.mem_cons_self _ _)
    have hm2 : '\n' ∉ m2 := fun hq => hm (List.mem_cons_of_mem _ hq)
    show splitNL (c :: (m2 ++ '\n' :: z)) = (c :: m2) :: splitNL z
    simp only [splitNL]
    rw [if_neg hc, ih hm2 z]

theorem splitNL_joinNL : ∀ (ms : List (List Char)), ms ≠ [] → (∀ m ∈ ms, '\n' ∉ m) →
    splitNL (joinNL ms) = ms := by
  intro ms
  induction ms with
  | nil => intro h _; exact absurd rfl h
  | cons m ms2 ih =>
    intro _ hnl
    cases ms2 with
    | nil => exact splitNL_eq_single m (hnl m (List.mem_cons_self _ _))
    | cons m2 ms3 =>
      rw [joinNL_cons_of_ne_nil m (by simp),
        splitNL_append_cons m (hnl m (List.mem_cons_self _ _)) (joinNL (m2 :: ms3)),
        ih (by simp) (fun x hx => hnl x (List.mem_cons_of_mem _ hx))]

theorem chain'_joinNL {R : Char → Char → Prop} :
    ∀ (ms : List (List Char)), (∀ m ∈ ms, m ≠ []) → (∀ m ∈ ms, List.Chain' R m) →
      (∀ m ∈ ms, ∀ a ∈ m.getLast?, R a '\n') →
      (∀ m ∈ ms, ∀ b ∈ m.head?, R '\n' b) →
      List.Chain' R (joinNL ms) := by
  intro ms
  induction ms with
  | nil => intro _ _ _ _; exact List.chain'_nil
  | cons m ms2 ih =>
    intro hne hch hlast hhead
    cases ms2 with
    | nil => exact hch m (List.mem_cons_self _ _)
    | cons m2 ms3 =>
      rw [joinNL_cons_of_ne_nil m (by simp)]
      refine List.chain'_append.mpr ⟨hch m (List.mem_cons_self _ _), ?_, ?_⟩
      · refine List.chain'_cons'.mpr ⟨?_, ?_⟩
        · intro y hy
          rw [head?_joinNL m2 ms3
            (hne m2 (List.mem_cons_of_mem _ (List.mem_cons_self _ _)))] at hy
          exact hhead m2 (List.mem_cons_of_mem _ (List.mem_cons_self _ _)) y hy
        · exact ih (fun x hx => hne x (List.mem_cons_of_mem _ hx))
            (fun x hx => hch x (List.mem_cons_of_mem _ hx))
            (fun x hx => hlast x (List.mem_cons_of_mem _ hx))
            (fun x hx => hhead x (List.mem_cons_of_mem _ hx))
      · intro x hx y hy
        rw [List.head?_cons, Option.mem_def] at hy
        injection hy with h
        subst h
        exact hlast m (List.mem_cons_self _ _) x hx

/-! The comment scanner emits no `%%` pair and is the identity on `%%`-free
text. -/

theorem head?_subCommentAux_true :
    ∀ cs : List Char, ∀ y ∈ (subCommentAux true cs).head?, y = '\n' := by
  intro cs
  induction cs with
  | nil => intro y hy; cases hy
  | cons c rest ih =>
    intro y hy
    unfold subCommentAux at hy
    split at hy
    · rw [List.head?_cons, Option.mem_def] at hy
      injection hy with h
      exact h.symm
    · exact ih y hy

theorem head?_subCommentAux_false (cs : List Char) :
    ∀ y ∈ (subCommentAux false cs).head?, y = '\n' ∨ y ∈ cs.head? := by
  intro y hy
  unfold subCommentAux at hy
  split at hy
  · cases hy
  · rename_i heq
    exact absurd heq (by decide)
  · exact Or.inl (head?_subCommentAux_true _ y hy)
  · rw [List.head?_cons, Option.mem_def] at hy
    injection hy with h
    subst h
    exact Or.inr rfl

theorem pp_subCommentAux :
    ∀ (n : Nat) (b : Bool) (cs : List Char), cs.length ≤ n →
      List.Chain' ppOK (subCommentAux b cs) := by
  intro n
  induction n with
  | zero =>
    intro b cs hlen
    obtain rfl := List.length_eq_zero.mp (Nat.le_zero.mp hlen)
    cases b <;> exact List.chain'_nil
  | succ n ih =>
    intro b cs hlen
    unfold subCommentAux
    split
    · exact List.chain'_nil
    · rename_i c rest
      split
      · refine List.chain'_cons'.mpr ⟨?_, ih false rest (by simpa using hlen)⟩
        intro y _ hq
        exact absurd hq.1 (by decide)
      · exact ih true rest (by simpa using hlen)
    · rename_i rest
      refine ih true rest ?_
      simp only [List.length_cons] at hlen
      omega
    · rename_i c rest hexcl
      refine List.chain'_cons'.mpr ⟨?_, ih false rest (by simpa using hlen)⟩
      intro y hy hq
      obtain ⟨rfl, rfl⟩ := hq
      rcases head?_subCommentAux_false rest '%' hy with h | h
      · exact absurd h (by decide)
      · cases rest with
        | nil => cases h
        | cons d r =>
          rw [List.head?_cons, Option.mem_def] at h
          injection h with h2
          exact hexcl r rfl (by rw [h2])

theorem subComment_eq_self_aux :
    ∀ (n : Nat) (cs : List Char), cs.length ≤ n → List.Chain' ppOK cs →
      subCommentAux false cs = cs := by
  intro n
  induction n with
  | zero =>
    intro cs hlen _
    obtain rfl := List.length_eq_zero.mp (Nat.le_zero.mp hlen)
    rfl
  | succ n ih =>
    intro cs hlen hch
    unfold subCommentAux
    split
    · rfl
    · rename_i heq
      exact absurd heq (by decide)
    · rename_i rest
      exact absurd ⟨rfl, rfl⟩ (List.chain'_cons.mp hch).1
    · rename_i c rest hexcl heq
      rw [ih rest (by simpa using hlen) hch.tail]

/-! The space/tab collapser emits no tab and no double space, preserves
`%%`-freeness, and is the identity on text that is already collapsed. -/

theorem collapseSTAux_false_cons (c : Char) (rest : List Char) :
    collapseSTAux false (c :: rest) =
      if isST c then ' ' :: collapseSTAux true rest else c :: collapseSTAux false rest := rfl

theorem collapseSTAux_true_cons (c : Char) (rest : List Char) :
    collapseSTAux true (c :: rest) =
      if isST c then collapseSTAux true rest else c :: collapseSTAux false rest := rfl

theorem head?_collapseSTAux_true :
    ∀ cs : List Char, ∀ y ∈ (collapseSTAux true cs).head?, isST y = false := by
  intro cs
  induction cs with
  | nil => intro y hy; cases hy
  | cons c rest ih =>
    intro y hy
    rw [collapseSTAux_true_cons] at hy
    split at hy
    · exact ih y hy
    · next hst =>
      rw [List.head?_cons, Option.mem_def] at hy
      injection hy with h
      subst h
      exact Bool.not_eq_true _ ▸ hst

theorem head?_collapseSTAux_false (cs : List Char) :
    ∀ y ∈ (collapseSTAux false cs).head?, y = ' ' ∨ y ∈ cs.head? := by
  intro y hy
  cases cs with
  | nil => cases hy
  | cons c rest =>
    rw [collapseSTAux_false_cons] at hy
    split at hy
    · rw [List.head?_cons, Option.mem_def] at hy
      injection hy with h
      subst h
      exact Or.inl rfl
    · rw [List.head?_cons, Option.mem_def] at hy
      injection hy with h
      subst h
      exact Or.inr rfl

theorem ss_collapseSTAux : ∀ (cs : List Char) (b : Bool),
    List.Chain' ssOK (collapseSTAux b cs) := by
  intro cs
  induction cs with
  | nil => intro b; exact List.chain'_nil
  | cons c rest ih =>
    intro b
    cases b
    · rw [collapseSTAux_false_cons]
      split
      · refine List.chain'_cons'.mpr ⟨?_, ih true⟩
        intro y hy hq
        have h2 := head?_collapseSTAux_true rest y hy
        rw [hq.2] at h2
        exact absurd h2 (by decide)
      · next hst =>
        refine List.chain'_cons'.mpr ⟨?_, ih false⟩
        intro y _ hq
        exact hst (by rw [hq.1]; decide)
    · rw [collapseSTAux_true_cons]
      split
      · exact ih true
      · next hst =>
        refine List.chain'_cons'.mpr ⟨?_, ih false⟩
        intro y _ hq
        exact hst (by rw [hq.1]; decide)

theorem noTab_collapseSTAux : ∀ (cs : List Char) (b : Bool),
    '\t' ∉ collapseSTAux b cs := by
  intro cs
  induction cs with
  | nil => intro b h; cases h
  | cons c rest ih =>
    intro b h
    cases b
    · rw [collapseSTAux_false_cons] at h
      split at h
      · rcases List.mem_cons.mp h with hq | hq
        · exact absurd hq (by decide)
        · exact ih true hq
      · next hst =>
        rcases List.mem_cons.mp h with hq | hq
        · exact hst (by rw [← hq]; decide)
        · exact ih false hq
    · rw [collapseSTAux_true_cons] at h
      split at h
      · exact ih true h
      · next hst =>
        rcases List.mem_cons.mp h with hq | hq
        · exact hst (by rw [← hq]; decide)
        · exact ih false hq

theorem pp_collapseSTAux : ∀ (cs : List Char) (b : Bool),
    List.Chain' ppOK cs → List.Chain' ppOK (collapseSTAux b cs) := by
  intro cs
  induction cs with
  | nil => intro b _; exact List.chain'_nil
  | cons c rest ih =>
    intro b hch
    have htl : List.Chain' ppOK rest := hch.tail
    have hstep : ∀ y ∈ (collapseSTAux false rest).head?, ppOK c y := by
      intro y hy hq
      rcases head?_collapseSTAux_false rest y hy with rfl | hyr
      · exact absurd hq.2 (by decide)
      · exact (List.chain'_cons'.mp hch).1 y hyr hq
    cases b
    · rw [collapseSTAux_false_cons]
      split
      · refine List.chain'_cons'.mpr ⟨?_, ih true htl⟩
        intro y _ hq
        exact absurd hq.1 (by decide)
      · exact List.chain'_cons'.mpr ⟨hstep, ih false htl⟩
    · rw [collapseSTAux_true_cons]
      split
      · exact ih true htl
      · exact List.chain'_cons'.mpr ⟨hstep, ih false htl⟩

theorem collapseSTAux_true_eq_false (rest : List Char)
    (h : ∀ y ∈ rest.head?, isST y = false) :
    collapseSTAux true rest = collapseSTAux false rest := by
  cases rest with
  | nil => rfl
  | cons d r =>
    rw [collapseSTAux_true_cons, collapseSTAux_false_cons,
      if_neg (by rw [h d rfl]; exact Bool.false_ne_true),
      if_neg (by rw [h d rfl]; exact Bool.false_ne_true)]

theorem collapseST_eq_self : ∀ (cs : List Char), '\t' ∉ cs → List.Chain' ssOK cs →
    collapseSTAux false cs = cs := by
  intro cs
  induction cs with
  | nil => intro _ _; rfl
  | cons c rest ih =>
    intro htab hch
    have htr : '\t' ∉ rest := fun hq => htab (List.mem_cons_of_mem _ hq)
    rw [collapseSTAux_false_cons]
    by_cases hsp : c = ' '
    · subst hsp
      rw [if_pos (by decide)]
      have hhd : ∀ y ∈ rest.head?, isST y = false := by
        intro y hy
        have hy2 : y ∈ rest := List.mem_of_mem_head? hy
        have hnsp : y ≠ ' ' := fun hq =>
          (List.chain'_cons'.mp hch).1 y hy ⟨rfl, hq⟩
        have hntb : y ≠ '\t' := fun hq => htr (hq ▸ hy2)
        simp [isST, hnsp, hntb]
      rw [collapseSTAux_true_eq_false rest hhd, ih htr hch.tail]
    · have hnt : c ≠ '\t' := fun hq => htab (hq ▸ List.mem_cons_self _ _)
      rw [if_neg (by simp [isST, hsp, hnt]), ih htr hch.tail]

/-! The blank-line substitution preserves pair invariants whose relation
accepts `'\n'` on the left, and is the identity when no newline is followed
by whitespace. -/

theorem head?_subBlank (cs : List Char) : (subBlank cs).head? = cs.head? := by
  cases cs with
  | nil => rfl
  | cons c rest =>
    rw [subBlank_cons]
    split
    · next hq => rw [List.head?_cons, List.head?_cons, hq.1]
    · rw [List.head?_cons, List.head?_cons]

theorem takeWhile_eq_nil_of_head (l : List Char) {p : Char → Bool}
    (h : ∀ y ∈ l.head?, p y = false) : l.takeWhile p = [] := by
  cases l with
  | nil => rfl
  | cons a t =>
    rw [List.takeWhile_cons, h a rfl]
    rfl

theorem chain'_subBlank {R : Char → Char → Prop} (hnl : ∀ b, R '\n' b) :
    ∀ (n : Nat) (cs : List Char), cs.length ≤ n → List.Chain' R cs →
      List.Chain' R (subBlank cs) := by
  intro n
  induction n with
  | zero =>
    intro cs hlen _
    obtain rfl := List.length_eq_zero.mp (Nat.le_zero.mp hlen)
    exact List.chain'_nil
  | succ n ih =>
    intro cs hlen hch
    cases cs with
    | nil => exact List.chain'_nil
    | cons c rest =>
      rw [subBlank_cons]
      split
      · refine List.chain'_cons'.mpr ⟨fun y _ => hnl y, ?_⟩
        have hsfx : dropThroughLastNL rest <:+ rest := List.drop_suffix _ _
        refine ih (dropThroughLastNL rest) ?_ (chain'_within hch.tail hsfx.isInfix)
        have := dropThroughLastNL_length_le rest
        simp only [List.length_cons] at hlen
        omega
      · refine List.chain'_cons'.mpr ⟨?_, ih rest (by simpa using hlen) hch.tail⟩
        intro y hy
        rw [head?_subBlank] at hy
        exact (List.chain'_cons'.mp hch).1 y hy

theorem subBlank_eq_self : ∀ {cs : List Char}, List.Chain' nbOK cs →
    subBlank cs = cs := by
  intro cs
  induction cs with
  | nil => intro _; rfl
  | cons c rest ih =>
    intro hch
    rw [subBlank_cons]
    split
    · next hq =>
      exfalso
      obtain ⟨h1, h2⟩ := hq
      subst h1
      have hhd : ∀ y ∈ rest.head?, isPyWS y = false := fun y hy =>
        (List.chain'_cons'.mp hch).1 y hy rfl
      rw [takeWhile_eq_nil_of_head rest hhd] at h2
      simp at h2
    · rw [ih hch.tail]

/-! ## Claim C3: the normal form of the cleaned text.

A line of the cleaned text is newline-free and stripped at both ends; the
cleaned text itself is the newline-join of its nonempty lines. -/

def LineOK (l : List Char) : Prop :=
  '\n' ∉ l ∧ (∀ c ∈ l.head?, isPyWS c = false) ∧ (∀ c ∈ l.getLast?, isPyWS c = false)

/-- The nonempty cleaned lines of the input: what survives blank-line
removal. -/
def cleanLines (x : String) : List (List Char) :=
  ((splitNL (subComment (fenceStrip x.data))).map
    (fun l => stripL (collapseST l))).filter (fun m => !m.isEmpty)

theorem exists_replicate_decomp (rest : List (List Char)) :
    ∃ b rest2, rest = List.replicate b [] ++ rest2 ∧
      (rest2 = [] ∨ ∃ m ms, rest2 = m :: ms ∧ m ≠ []) := by
  induction rest with
  | nil => exact ⟨0, [], rfl, Or.inl rfl⟩
  | cons r rs ih =>
    by_cases hr : r = []
    · subst hr
      obtain ⟨b, rest2, hdec, halt⟩ := ih
      exact ⟨b + 1, rest2, by rw [List.replicate_succ, List.cons_append, ← hdec], halt⟩
    · exact ⟨0, r :: rs, rfl, Or.inr ⟨r, rs, rfl, hr⟩⟩

theorem filter_empties_replicate (b : Nat) :
    (List.replicate b ([] : List Char)).filter (fun m => !m.isEmpty) = [] := by
  induction b with
  | zero => rfl
  | succ c ih =>
    rw [List.replicate_succ, List.filter_cons]
    simp [ih]

theorem filter_empties_cons {m : List Char} (hm : m ≠ []) (ms : List (List Char)) :
    (m :: ms).filter (fun l => !l.isEmpty) = m :: ms.filter (fun l => !l.isEmpty) := by
  rw [List.filter_cons,
    if_pos (show (!m.isEmpty) = true by
      cases m with
      | nil => exact absurd rfl hm
      | cons a t => rfl)]

theorem joinNL_cons_ne_nil {m : List Char} (hm : m ≠ []) (ms : List (List Char)) :
    joinNL (m :: ms) ≠ [] := by
  cases ms with
  | nil => exact hm
  | cons a t =>
    rw [joinNL_cons_of_ne_nil m (by simp)]
    intro hq
    exact hm (List.append_eq_nil.mp hq).1

theorem strip_subBlank_join_cons :
    ∀ (n : Nat) (l : List Char) (rest : List (List Char)), rest.length ≤ n →
      l ≠ [] → LineOK l → (∀ m ∈ rest, LineOK m) →
      stripL (subBlank (joinNL (l :: rest))) =
        joinNL (l :: rest.filter (fun m => !m.isEmpty)) := by
  intro n
  induction n with
  | zero =>
    intro l rest hlen hl hok _
    obtain rfl := List.length_eq_zero.mp (Nat.le_zero.mp hlen)
    show stripL (subBlank l) = l
    rw [subBlank_of_noNL hok.1]
    exact stripL_eq_self hok.2.1 hok.2.2
  | succ n ih =>
    intro l rest hlen hl hok hrest
    obtain ⟨b, rest2, rfl, halt⟩ := exists_replicate_decomp rest
    rcases halt with rfl | ⟨m, ms, rfl, hm⟩
    · simp only [List.append_nil]
      rw [filter_empties_replicate b]
      cases b with
      | zero =>
        show stripL (subBlank l) = l
        rw [subBlank_of_noNL hok.1]
        exact stripL_eq_self hok.2.1 hok.2.2
      | succ k =>
        rw [joinNL_cons_of_ne_nil l (by simp), joinNL_replicate_nil k,
          show ('\n' :: List.replicate k '\n') = List.replicate (k + 1) '\n' from rfl,
          subBlank_append_noNL _ hok.1, subBlank_replicate_nl (k + 1),
          if_neg (by omega), stripL_append_left l ['\n'] hl hok.2.1 hok.2.2]
        show l ++ rstripL ['\n'] = l
        rw [show rstripL ['\n'] = [] by decide]
        exact List.append_nil l
    · have hmok : LineOK m := hrest m (by simp)
      have hmsok : ∀ z ∈ ms, LineOK z := fun z hz => hrest z (by simp [hz])
      have hXhead : ∀ c ∈ (joinNL (m :: ms)).head?, isPyWS c = false := by
        rw [head?_joinNL m ms hm]
        exact hmok.2.1
      have hlen2 : ms.length ≤ n := by
        rw [List.length_append, List.length_replicate, List.length_cons] at hlen
        omega
      have hIH := ih m ms hlen2 hm hmok hmsok
      rw [joinNL_cons_of_ne_nil l (by simp), joinNL_replicate_append b (m :: ms) (by simp),
        show ('\n' :: (List.replicate b '\n' ++ joinNL (m :: ms))) =
          List.replicate (b + 1) '\n' ++ joinNL (m :: ms) from rfl,
        subBlank_append_noNL _ hok.1, subBlank_nl_run (b + 1) (by omega) _ hXhead,
        stripL_append_left l _ hl hok.2.1 hok.2.2]
      have hlst : lstripL (subBlank (joinNL (m :: ms))) = subBlank (joinNL (m :: ms)) := by
        apply dropWhile_of_head_false
        rw [head?_subBlank]
        exact hXhead
      have hrst : rstripL (subBlank (joinNL (m :: ms))) =
          joinNL (m :: ms.filter (fun q => !q.isEmpty)) := by
        rw [← hIH]
        show rstripL (subBlank (joinNL (m :: ms))) = stripL (subBlank (joinNL (m :: ms)))
        unfold stripL
        rw [hlst]
      have hrne : rstripL (subBlank (joinNL (m :: ms))) ≠ [] := by
        rw [hrst]
        exact joinNL_cons_ne_nil hm _
      rw [rstripL_cons_of_ne_nil _ _ hrne, hrst,
        List.filter_append, filter_empties_replicate b, filter_empties_cons hm ms,
        List.nil_append, joinNL_cons_of_ne_nil l (by simp)]

/-- The normal form of the post-fence pipeline: stripping the blank-line
substitution of the joined cleaned lines yields exactly the join of the
nonempty cleaned lines. -/
theorem strip_subBlank_join :
    ∀ (ls : List (List Char)), (∀ m ∈ ls, LineOK m) →
      stripL (subBlank (joinNL ls)) = joinNL (ls.filter (fun m => !m.isEmpty)) := by
  intro ls hok
  obtain ⟨b, rest2, rfl, halt⟩ := exists_replicate_decomp ls
  rcases halt with rfl | ⟨m, ms, rfl, hm⟩
  · simp only [List.append_nil]
    rw [filter_empties_replicate b]
    cases b with
    | zero => rfl
    | succ k =>
      rw [joinNL_replicate_nil k, subBlank_replicate_nl k]
      cases k with
      | zero => rfl
      | succ j =>
        rw [if_neg (by omega)]
        decide
  · have hmok : LineOK m := hok m (by simp)
    have hmsok : ∀ z ∈ ms, LineOK z := fun z hz => hok z (by simp [hz])
    have hXhead : ∀ c ∈ (joinNL (m :: ms)).head?, isPyWS c = false := by
      rw [head?_joinNL m ms hm]
      exact hmok.2.1
    rw [List.filter_append, filter_empties_replicate b, filter_empties_cons hm ms,
      List.nil_append]
    cases b with
    | zero =>
      exact strip_subBlank_join_cons ms.length m ms (Nat.le_refl _) hm hmok hmsok
    | succ k =>
      rw [joinNL_replicate_append (k + 1) (m :: ms) (by simp),
        subBlank_nl_run (k + 1) (by omega) _ hXhead,
        stripL_cons_of_ws _ (by decide)]
      exact strip_subBlank_join_cons ms.length m ms (Nat.le_refl _) hm hmok hmsok

theorem cleanLine_LineOK (l : List Char) (h : '\n' ∉ l) :
    LineOK (stripL (collapseST l)) := by
  refine ⟨?_, head?_stripL _, getLast?_stripL _⟩
  intro hq
  rcases collapseSTAux_subset false l '\n' (mem_of_mem_stripL hq) with h3 | h3
  · exact h h3
  · exact absurd h3 (by decide)

/-- Every surviving cleaned line is nonempty, well-formed, and a fixed point
of the per-line cleaning and of the comment scanner's pair condition. -/
theorem cleanLines_spec (x : String) :
    ∀ m ∈ cleanLines x, m ≠ [] ∧ LineOK m ∧ collapseST m = m ∧ stripL m = m ∧
      List.Chain' ppOK m := by
  intro m hm
  unfold cleanLines at hm
  rw [List.mem_filter] at hm
  obtain ⟨hmem, hfilt⟩ := hm
  rw [List.mem_map] at hmem
  obtain ⟨l0, hl0, rfl⟩ := hmem
  have hne : stripL (collapseST l0) ≠ [] := by
    intro hq
    rw [hq] at hfilt
    exact absurd hfilt (by decide)
  have hok := cleanLine_LineOK l0 (splitNL_noNL _ l0 hl0)
  have htab : '\t' ∉ stripL (collapseST l0) := fun hq =>
    noTab_collapseSTAux l0 false (mem_of_mem_stripL hq)
  have hss : List.Chain' ssOK (stripL (collapseST l0)) :=
    chain'_within (ss_collapseSTAux l0 false) (stripL_isInfix _)
  have hpp0 : List.Chain' ppOK (subComment (fenceStrip x.data)) :=
    pp_subCommentAux (fenceStrip x.data).length false (fenceStrip x.data) (Nat.le_refl _)
  have hppl : List.Chain' ppOK l0 :=
    chain'_within hpp0 (splitNL_mem_isInfix _ l0 hl0)
  have hppm : List.Chain' ppOK (stripL (collapseST l0)) :=
    chain'_within (pp_collapseSTAux l0 false hppl) (stripL_isInfix _)
  exact ⟨hne, hok, collapseST_eq_self _ htab hss,
    stripL_eq_self (head?_stripL _) (getLast?_stripL _), hppm⟩

theorem chain'_nbOK_of_noNL {m : List Char} (h : '\n' ∉ m) : List.Chain' nbOK m := by
  induction m with
  | nil => exact List.chain'_nil
  | cons a t ih =>
    refine List.chain'_cons'.mpr ⟨?_, ih (fun hq => h (List.mem_cons_of_mem _ hq))⟩
    intro y _ hq
    exfalso
    apply h
    rw [← hq]
    exact List.mem_cons_self a t

set_option maxHeartbeats 1000000 in
/-- C3 (amended): `_clean_code` is idempotent on every input whose cleaned
output does not itself begin with a markdown fence; on such inputs every
stage of the second run is the identity.  (The unconditional claim is
refuted by `C3_fence_refeeding_counterexample`: a cleaned output that again
begins with ``` is fence-stripped a second time.) -/
theorem C3_clean_code_conditionally_idempotent (x : String)
    (hf : startsWithL "```".data (clean_code x).data = false) :
    clean_code (clean_code x) = clean_code x := by
  have hlsOK : ∀ m ∈ (splitNL (subComment (fenceStrip x.data))).map
      (fun l => stripL (collapseST l)), LineOK m := by
    intro m hm
    rw [List.mem_map] at hm
    obtain ⟨l0, hl0, rfl⟩ := hm
    exact cleanLine_LineOK l0 (splitNL_noNL _ l0 hl0)
  have hyd : (clean_code x).data = joinNL (cleanLines x) :=
    strip_subBlank_join _ hlsOK
  have hspec := cleanLines_spec x
  have hstripy : stripL (clean_code x).data = (clean_code x).data :=
    stripL_eq_self (head?_stripL _) (getLast?_stripL _)
  have h1 : fenceStrip (clean_code x).data = (clean_code x).data := by
    unfold fenceStrip
    rw [hstripy, hf]
    rfl
  have hnoNLlines : ∀ m ∈ cleanLines x, '\n' ∉ m := fun m hm => ((hspec m hm).2.1).1
  have hppy : List.Chain' ppOK (joinNL (cleanLines x)) := by
    refine chain'_joinNL (cleanLines x) (fun m hm => (hspec m hm).1)
      (fun m hm => (hspec m hm).2.2.2.2) ?_ ?_
    · intro m _ a _ hq
      exact absurd hq.2 (by decide)
    · intro m _ b2 _ hq
      exact absurd hq.1 (by decide)
  have h2 : subComment (clean_code x).data = (clean_code x).data := by
    have h2a : List.Chain' ppOK (clean_code x).data := by
      rw [hyd]
      exact hppy
    exact subComment_eq_self_aux (clean_code x).data.length (clean_code x).data
      (Nat.le_refl _) h2a
  have hnb : List.Chain' nbOK (joinNL (cleanLines x)) := by
    refine chain'_joinNL (cleanLines x) (fun m hm => (hspec m hm).1)
      (fun m hm => chain'_nbOK_of_noNL (hnoNLlines m hm)) ?_ ?_
    · intro m hm a ha hq
      exfalso
      apply hnoNLlines m hm
      rw [← hq]
      exact List.mem_of_mem_getLast? ha
    · intro m hm b2 hb _
      exact ((hspec m hm).2.1).2.1 b2 hb
  have h6 : subBlank (clean_code x).data = (clean_code x).data := by
    rw [hyd]
    exact subBlank_eq_self hnb
  cases hcase : cleanLines x with
  | nil =>
    have hy0 : clean_code x = "" := by
      apply String.ext
      rw [hyd, hcase]
      rfl
    rw [hy0]
    rfl
  | cons m1 ms1 =>
    show String.mk (stripL (subBlank (joinNL ((splitNL (subComment (fenceStrip
        (clean_code x).data))).map (fun l => stripL (collapseST l)))))) = clean_code x
    rw [h1, h2]
    have h3 : splitNL (clean_code x).data = cleanLines x := by
      rw [hyd]
      refine splitNL_joinNL (cleanLines x) ?_ hnoNLlines
      rw [hcase]
      simp
    rw [h3]
    have h4 : (cleanLines x).map (fun l => stripL (collapseST l)) = cleanLines x := by
      have hcg : (cleanLines x).map (fun l => stripL (collapseST l)) =
          (cleanLines x).map (fun l => l) :=
        List.map_congr_left (fun m hm => by
          show stripL (collapseST m) = m
          rw [(hspec m hm).2.2.1, (hspec m hm).2.2.2.1])
      rw [hcg]
      exact List.map_id' _
    rw [h4, ← hyd, h6, hstripy]

/-- C3 counterexample: the normalizer is not idempotent.  The input
`"```\n```x"` cleans to `"```x"` (only the first fence line is stripped),
and cleaning that output again strips the new leading fence, giving the
empty string. -/
theorem C3_fence_refeeding_counterexample :
    clean_code "```\n```x" = "```x" ∧ clean_code "```x" = "" ∧
      clean_code (clean_code "```\n```x") ≠ clean_code "```\n```x" := by decide

/-- C3 witness: the amended theorem at a concrete flowchart input. -/
theorem C3_clean_code_conditionally_idempotent_witness :
    startsWithL "```".data (clean_code "graph TD\nA --> B").data = false ∧
      clean_code (clean_code "graph TD\nA --> B") = clean_code "graph TD\nA --> B" :=
  ⟨by decide, C3_clean_code_conditionally_idempotent "graph TD\nA --> B" (by decide)⟩

/-! ## Claims C2 and C10: Kahn's algorithm.

Association-list (dict) lemmas, then a specification of each phase of
`get_execution_order`. -/

theorem dget?_cons {α : Type} (e : String × α) (t : List (String × α)) (q : String) :
    dget? (e :: t) q = if e.1 = q then some e.2 else dget? t q := by
  unfold dget?
  by_cases hq : e.1 = q
  · rw [List.find?_cons_of_pos _ (by simp [hq]), if_pos hq]
    rfl
  · rw [List.find?_cons_of_neg _ (by simp [hq]), if_neg hq]

theorem dget?_dset {α : Type} :
    ∀ (d : List (String × α)) (k q : String) (v : α),
      dget? (dset d k v) q = if q = k then some v else dget? d q := by
  intro d
  induction d with
  | nil =>
    intro k q v
    show dget? [(k, v)] q = _
    rw [dget?_cons]
    by_cases hq : q = k
    · rw [if_pos hq.symm, if_pos hq]
    · rw [if_neg (fun h2 => hq h2.symm), if_neg hq]
  | cons e t ih =>
    intro k q v
    unfold dset
    split
    · next he =>
      rw [dget?_cons, dget?_cons]
      by_cases hq : q = k
      · rw [if_pos hq.symm, if_pos hq]
      · rw [if_neg (fun h2 => hq h2.symm), if_neg hq, if_neg (by rw [he]; exact fun h2 => hq h2.symm)]
    · next he =>
      rw [dget?_cons, dget?_cons, ih k q v]
      by_cases hq : e.1 = q
      · rw [if_pos hq, if_pos hq, if_neg (show ¬q = k by intro h2; exact he (hq.trans h2))]
      · rw [if_neg hq, if_neg hq]

theorem keys_dset {α : Type} :
    ∀ (d : List (String × α)) (k : String) (v : α),
      (dset d k v).map (fun p => p.1) =
        if k ∈ d.map (fun p => p.1) then d.map (fun p => p.1)
        else d.map (fun p => p.1) ++ [k] := by
  intro d
  induction d with
  | nil => intro k v; simp [dset]
  | cons e t ih =>
    intro k v
    unfold dset
    split
    · next he =>
      rw [if_pos (by simp [he])]
      simp [he]
    · next he =>
      rw [List.map_cons, List.map_cons, ih k v]
      by_cases hk : k ∈ t.map (fun p => p.1)
      · rw [if_pos hk, if_pos (by simp [hk])]
      · have hne : ¬k = e.1 := fun h2 => he h2.symm
        rw [if_neg hk, if_neg (by simp [hk, hne]), List.cons_append]

theorem keys_dset_nodup {α : Type} (d : List (String × α)) (k : String) (v : α)
    (h : (d.map (fun p => p.1)).Nodup) : ((dset d k v).map (fun p => p.1)).Nodup := by
  rw [keys_dset]
  split
  · exact h
  · next hk => simp [List.nodup_append, h, hk]

theorem dget?_of_mem {α : Type} :
    ∀ (d : List (String × α)), (d.map (fun p => p.1)).Nodup →
      ∀ p ∈ d, dget? d p.1 = some p.2 := by
  intro d
  induction d with
  | nil => intro _ p hp; cases hp
  | cons e t ih =>
    intro hnd p hp
    rw [dget?_cons]
    rcases List.mem_cons.mp hp with rfl | hp2
    · rw [if_pos rfl]
    · have hne : e.1 ≠ p.1 := by
        intro he
        have : p.1 ∈ t.map (fun p2 => p2.1) := List.mem_map.mpr ⟨p, hp2, rfl⟩
        rw [← he] at this
        exact (List.nodup_cons.mp hnd).1 this
      rw [if_neg hne]
      exact ih (List.nodup_cons.mp hnd).2 p hp2

theorem mem_of_dget? {α : Type} {d : List (String × α)} {k : String} {v : α}
    (h : dget? d k = some v) : (k, v) ∈ d := by
  unfold dget? at h
  obtain ⟨e, he, hv⟩ := Option.map_eq_some'.mp h
  have hmem := List.mem_of_find?_eq_some he
  have hkey := List.find?_some he
  rw [decide_eq_true_eq] at hkey
  obtain ⟨a, b⟩ := e
  dsimp at hkey hv
  rw [hkey] at hmem
  rw [hv] at hmem
  exact hmem

theorem foldl_dset_const {α : Type} (v0 : α) :
    ∀ (ns : List GRDNode) (d : List (String × α)) (k : String),
      dget? (ns.foldl (fun d2 n => dset d2 n.id v0) d) k =
        if k ∈ ns.map (fun n => n.id) then some v0 else dget? d k := by
  intro ns
  induction ns with
  | nil => intro d k; simp
  | cons n rest ih =>
    intro d k
    show dget? (rest.foldl _ (dset d n.id v0)) k = _
    rw [ih (dset d n.id v0) k, dget?_dset]
    by_cases h1 : k ∈ rest.map (fun n2 => n2.id)
    · rw [if_pos h1, if_pos (by simp [h1])]
    · rw [if_neg h1]
      by_cases h2 : k = n.id
      · rw [if_pos h2, if_pos (by simp [h2])]
      · rw [if_neg h2, if_neg (by simp [h1, h2])]

theorem foldl_dset_const_keysNodup {α : Type} (v0 : α) :
    ∀ (ns : List GRDNode) (d : List (String × α)), ((d.map (fun p => p.1)).Nodup) →
      (((ns.foldl (fun d2 n => dset d2 n.id v0) d).map (fun p => p.1)).Nodup) := by
  intro ns
  induction ns with
  | nil => intro d h; exact h
  | cons n rest ih =>
    intro d h
    exact ih (dset d n.id v0) (keys_dset_nodup d n.id v0 h)

/-- One step of the edge relation induced by an edge list. -/
def edgeStep (edges : List GRDEdge) (a b : String) : Prop :=
  ∃ e ∈ edges, e.from_node = a ∧ e.to_node = b

/-- Acyclicity of the graph induced by the edges. -/
def Acyclic (edges : List GRDEdge) : Prop :=
  ∀ a, ¬ Relation.TransGen (edgeStep edges) a a

/-- The adjacency list `get_execution_order` builds for a source id. -/
def outList (edges : List GRDEdge) (v : String) : List String :=
  (edges.filter (fun e => decide (e.from_node = v))).map (fun e => e.to_node)

/-- Total in-degree of an id. -/
def countTo (edges : List GRDEdge) (b : String) : Nat :=
  (edges.filter (fun e => decide (e.to_node = b))).length

/-- Number of parallel edges from `v` to `b`. -/
def countOut (edges : List GRDEdge) (v b : String) : Nat :=
  (edges.filter (fun e => decide (e.from_node = v ∧ e.to_node = b))).length

/-- In-degree of `b` counting only edges whose source is not yet popped. -/
def countRem (edges : List GRDEdge) (res : List String) (b : String) : Nat :=
  (edges.filter (fun e => decide (e.to_node = b ∧ e.from_node ∉ res))).length

theorem outList_cons (e : GRDEdge) (t : List GRDEdge) (v : String) :
    outList (e :: t) v =
      if e.from_node = v then e.to_node :: outList t v else outList t v := by
  unfold outList
  rw [List.filter_cons]
  by_cases h : e.from_node = v
  · rw [if_pos (by simp [h]), if_pos h, List.map_cons]
  · rw [if_neg (by simp [h]), if_neg h]

theorem countTo_cons (e : GRDEdge) (t : List GRDEdge) (b : String) :
    countTo (e :: t) b = countTo t b + (if e.to_node = b then 1 else 0) := by
  unfold countTo
  rw [List.filter_cons]
  by_cases h : e.to_node = b
  · rw [if_pos (by simp [h]), if_pos h, List.length_cons]
  · rw [if_neg (by simp [h]), if_neg h]
    omega

theorem countOut_cons (e : GRDEdge) (t : List GRDEdge) (v b : String) :
    countOut (e :: t) v b =
      countOut t v b + (if e.from_node = v ∧ e.to_node = b then 1 else 0) := by
  unfold countOut
  rw [List.filter_cons]
  by_cases h : e.from_node = v ∧ e.to_node = b
  · rw [if_pos (by simp [h]), if_pos h, List.length_cons]
  · rw [if_neg (by simp [h]), if_neg h]
    omega

theorem countRem_cons (e : GRDEdge) (t : List GRDEdge) (res : List String) (b : String) :
    countRem (e :: t) res b =
      countRem t res b + (if e.to_node = b ∧ e.from_node ∉ res then 1 else 0) := by
  unfold countRem
  rw [List.filter_cons]
  by_cases h : e.to_node = b ∧ e.from_node ∉ res
  · rw [if_pos (by simp [h.1, h.2]), if_pos h, List.length_cons]
  · rw [if_neg (by simpa using h), if_neg h]
    omega

theorem count_outList (edges : List GRDEdge) (v b : String) :
    List.count b (outList edges v) = countOut edges v b := by
  induction edges with
  | nil => rfl
  | cons e t ih =>
    rw [outList_cons, countOut_cons]
    by_cases hf : e.from_node = v
    · rw [if_pos hf]
      by_cases htb : e.to_node = b
      · rw [if_pos ⟨hf, htb⟩, htb, List.count_cons_self, ih]
      · rw [if_neg (show ¬(e.from_node = v ∧ e.to_node = b) from fun hq => htb hq.2),
          List.count_cons, ih]
        simp [beq_iff_eq, htb]
    · rw [if_neg hf,
        if_neg (show ¬(e.from_node = v ∧ e.to_node = b) from fun hq => hf hq.1), ih]
      omega

theorem countRem_nil_res (edges : List GRDEdge) (b : String) :
    countRem edges [] b = countTo edges b := by
  induction edges with
  | nil => rfl
  | cons e t ih =>
    rw [countRem_cons, countTo_cons, ih]
    by_cases h : e.to_node = b
    · rw [if_pos ⟨h, by simp⟩, if_pos h]
    · rw [if_neg (show ¬(e.to_node = b ∧ e.from_node ∉ ([] : List String)) from
        fun hq => h hq.1), if_neg h]

theorem countRem_pop (edges : List GRDEdge) (res : List String) (v : String)
    (hv : v ∉ res) : ∀ b,
      countRem edges res b = countRem edges (res ++ [v]) b + countOut edges v b := by
  intro b
  induction edges with
  | nil => rfl
  | cons e t ih =>
    rw [countRem_cons, countRem_cons, countOut_cons, ih]
    have hsplit : (if e.to_node = b ∧ e.from_node ∉ res then 1 else 0) =
        (if e.to_node = b ∧ e.from_node ∉ res ++ [v] then 1 else 0) +
          (if e.from_node = v ∧ e.to_node = b then 1 else 0) := by
      by_cases h1 : e.to_node = b <;> by_cases h2 : e.from_node = v <;>
        by_cases h3 : e.from_node ∈ res <;>
          simp_all [List.mem_append]
    omega

theorem countRem_pos_of_step {edges : List GRDEdge} {res : List String} {b y : String}
    (h : edgeStep edges y b) (hy : y ∉ res) : countRem edges res b ≠ 0 := by
  obtain ⟨e, he, hf, ht⟩ := h
  intro h0
  have : e ∈ edges.filter (fun e2 => decide (e2.to_node = b ∧ e2.from_node ∉ res)) :=
    List.mem_filter.mpr ⟨he, by simp [ht, hf, hy]⟩
  rw [List.length_eq_zero.mp h0] at this
  cases this

theorem countRem_zero_mem {edges : List GRDEdge} {res : List String} {b : String}
    (h : countRem edges res b = 0) :
    ∀ e ∈ edges, e.to_node = b → e.from_node ∈ res := by
  intro e he ht
  by_contra hf
  exact countRem_pos_of_step ⟨e, he, rfl, ht⟩ hf (ht ▸ h)

/-- The effect of the edge loop of `get_execution_order`. -/
theorem addEdges_spec (ids : List String) :
    ∀ (rest done : List GRDEdge) (adj : List (String × List String))
        (deg : List (String × Int)),
      (∀ e ∈ rest, e.from_node ∈ ids ∧ e.to_node ∈ ids) →
      (∀ v, dget? adj v = if v ∈ ids then some (outList done v) else none) →
      (∀ b, dget? deg b = if b ∈ ids then some ((countTo done b : Int)) else none) →
      ((deg.map (fun p => p.1)).Nodup) →
      ∃ adjF degF, addEdges adj deg rest = .ok (adjF, degF) ∧
        (∀ v, dget? adjF v = if v ∈ ids then some (outList (done ++ rest) v) else none) ∧
        (∀ b, dget? degF b = if b ∈ ids then some ((countTo (done ++ rest) b : Int)) else none) ∧
        ((degF.map (fun p => p.1)).Nodup) := by
  intro rest
  induction rest with
  | nil =>
    intro done adj deg _ hadj hdeg hnd
    exact ⟨adj, deg, rfl, by simpa using hadj, by simpa using hdeg, hnd⟩
  | cons e rest2 ih =>
    intro done adj deg hends hadj hdeg hnd
    obtain ⟨hf, ht⟩ := hends e (List.mem_cons_self _ _)
    have hget : dget? adj e.from_node = some (outList done e.from_node) := by
      rw [hadj, if_pos hf]
    have hdegto : dget? deg e.to_node = some ((countTo done e.to_node : Int)) := by
      rw [hdeg, if_pos ht]
    have hadj2 : ∀ v, dget? (dset adj e.from_node (outList done e.from_node ++ [e.to_node])) v =
        if v ∈ ids then some (outList (done ++ [e]) v) else none := by
      intro v
      rw [dget?_dset]
      by_cases hv : v = e.from_node
      · subst hv
        rw [if_pos rfl, if_pos hf]
        congr 1
        have hsp : outList (done ++ [e]) e.from_node =
            outList done e.from_node ++ outList [e] e.from_node := by
          unfold outList
          rw [List.filter_append, List.map_append]
        rw [hsp]
        congr 1
        rw [show outList [e] e.from_node = [e.to_node] by unfold outList; simp]
      · have hv2 : ¬e.from_node = v := fun hq => hv hq.symm
        rw [if_neg hv, hadj v]
        by_cases hvids : v ∈ ids
        · rw [if_pos hvids, if_pos hvids]
          congr 1
          unfold outList
          rw [List.filter_append, List.map_append,
            show (List.filter (fun e2 => decide (e2.from_node = v)) [e]) = [] by
              simp [hv2]]
          simp
        · rw [if_neg hvids, if_neg hvids]
    have hdeg2 : ∀ b, dget? (dset deg e.to_node ((countTo done e.to_node : Int) + 1)) b =
        if b ∈ ids then some ((countTo (done ++ [e]) b : Int)) else none := by
      have hsplit : ∀ b2, countTo (done ++ [e]) b2 = countTo done b2 +
          (if e.to_node = b2 then 1 else 0) := by
        intro b2
        unfold countTo
        rw [List.filter_append, List.length_append]
        by_cases h : e.to_node = b2
        · simp [h]
        · simp [h]
      intro b
      rw [dget?_dset]
      by_cases hb : b = e.to_node
      · subst hb
        rw [if_pos rfl, if_pos ht, hsplit, if_pos rfl, Nat.cast_add, Nat.cast_one]
      · have hb2 : ¬e.to_node = b := fun hq => hb hq.symm
        rw [if_neg hb, hdeg b]
        by_cases hbids : b ∈ ids
        · rw [if_pos hbids, if_pos hbids, hsplit, if_neg hb2, Nat.add_zero]
        · rw [if_neg hbids, if_neg hbids]
    have hstep : addEdges adj deg (e :: rest2) =
        addEdges (dset adj e.from_node (outList done e.from_node ++ [e.to_node]))
          (dset deg e.to_node ((countTo done e.to_node : Int) + 1)) rest2 := by
      show (match dget? adj e.from_node with
        | none => Except.error ("KeyError: '" ++ e.from_node ++ "'")
        | some l =>
          addEdges (dset adj e.from_node (l ++ [e.to_node]))
            (dset deg e.to_node ((dget? deg e.to_node).getD 0 + 1)) rest2) =
        addEdges (dset adj e.from_node (outList done e.from_node ++ [e.to_node]))
          (dset deg e.to_node ((countTo done e.to_node : Int) + 1)) rest2
      rw [hget, hdegto]
      rfl
    obtain ⟨adjF, degF, heq, hadjF, hdegF, hndF⟩ :=
      ih (done ++ [e])
        (dset adj e.from_node (outList done e.from_node ++ [e.to_node]))
        (dset deg e.to_node ((countTo done e.to_node : Int) + 1))
        (fun e2 he2 => hends e2 (List.mem_cons_of_mem _ he2))
        hadj2 hdeg2 (keys_dset_nodup deg e.to_node _ hnd)
    rw [show (done ++ [e]) ++ rest2 = done ++ e :: rest2 by simp] at hadjF hdegF
    exact ⟨adjF, degF, hstep.trans heq, hadjF, hdegF, hndF⟩

/-- The effect of the inner neighbor loop: each neighbor's degree drops by
its multiplicity, and exactly the neighbors whose running value hits zero
are appended, each at most once. -/
theorem processNeighbors_spec :
    ∀ (ns : List String) (deg : List (String × Int)) (acc : List String),
      (∀ n ∈ ns, (dget? deg n).isSome = true) →
      ∃ degF extra, processNeighbors ns deg acc = .ok (degF, acc ++ extra) ∧
        (∀ b, dget? degF b = (dget? deg b).map (fun d => d - (List.count b ns : Int))) ∧
        (∀ b, b ∈ extra ↔
          ∃ d, dget? deg b = some d ∧ 1 ≤ d ∧ d ≤ (List.count b ns : Int)) ∧
        extra.Nodup := by
  intro ns
  induction ns with
  | nil =>
    intro deg acc _
    refine ⟨deg, [], by rw [List.append_nil]; rfl, ?_, ?_, List.nodup_nil⟩
    · intro b
      cases dget? deg b <;> simp
    · intro b
      constructor
      · intro h; cases h
      · rintro ⟨d, _, h1, h2⟩
        simp at h2
        omega
  | cons n rest ih =>
    intro deg acc hsome
    obtain ⟨d, hd⟩ := Option.isSome_iff_exists.mp (hsome n (List.mem_cons_self _ _))
    have hstep : processNeighbors (n :: rest) deg acc =
        processNeighbors rest (dset deg n (d - 1))
          (if d - 1 = 0 then acc ++ [n] else acc) := by
      show (match dget? deg n with
        | none => Except.error ("KeyError: '" ++ n ++ "'")
        | some d2 => processNeighbors rest (dset deg n (d2 - 1))
            (if d2 - 1 = 0 then acc ++ [n] else acc)) =
        processNeighbors rest (dset deg n (d - 1)) (if d - 1 = 0 then acc ++ [n] else acc)
      rw [hd]
    have hsome2 : ∀ m ∈ rest, (dget? (dset deg n (d - 1)) m).isSome = true := by
      intro m hm
      rw [dget?_dset]
      split
      · rfl
      · exact hsome m (List.mem_cons_of_mem _ hm)
    obtain ⟨degF, extra, heq, hP1, hP3, hND⟩ :=
      ih (dset deg n (d - 1)) (if d - 1 = 0 then acc ++ [n] else acc) hsome2
    have hP1' : ∀ b, dget? degF b =
        (dget? deg b).map (fun d2 => d2 - (List.count b (n :: rest) : Int)) := by
      intro b
      rw [hP1 b, dget?_dset]
      by_cases hb : b = n
      · subst hb
        rw [if_pos rfl, hd, List.count_cons_self]
        dsimp only [Option.map_some']
        congr 1
        push_cast
        omega
      · rw [if_neg hb, List.count_cons]
        have : (n == b) = false := by
          simp [beq_iff_eq]
          exact fun hq => hb hq.symm
        rw [this]
        simp
    by_cases hzero : d - 1 = 0
    · refine ⟨degF, n :: extra, ?_, hP1', ?_, ?_⟩
      · rw [hstep, if_pos hzero]
        rw [if_pos hzero] at heq
        rw [heq]
        simp
      · intro b
        by_cases hb : b = n
        · subst hb
          constructor
          · intro _
            refine ⟨d, hd, by omega, ?_⟩
            rw [List.count_cons_self]
            push_cast
            omega
          · intro _
            exact List.mem_cons_self _ _
        · have h1 : (b ∈ n :: extra) ↔ b ∈ extra := by
            simp [hb]
          have hmem := hP3 b
          rw [dget?_dset, if_neg hb] at hmem
          have hcnt : List.count b (n :: rest) = List.count b rest := by
            rw [List.count_cons]
            have : (n == b) = false := by
              simp [beq_iff_eq]
              exact fun hq => hb hq.symm
            rw [this]
            simp
          rw [h1, hmem, hcnt]
      · refine List.nodup_cons.mpr ⟨?_, hND⟩
        intro hmem
        obtain ⟨d2, hd2, hh1, _⟩ := (hP3 n).mp hmem
        rw [dget?_dset, if_pos rfl] at hd2
        injection hd2 with hd2
        omega
    · refine ⟨degF, extra, ?_, hP1', ?_, hND⟩
      · rw [hstep, if_neg hzero]
        rw [if_neg hzero] at heq
        exact heq
      · intro b
        by_cases hb : b = n
        · subst hb
          constructor
          · intro h
            obtain ⟨d2, hd2, hh1, hh2⟩ := (hP3 b).mp h
            rw [dget?_dset, if_pos rfl] at hd2
            injection hd2 with hd2
            refine ⟨d, hd, by omega, ?_⟩
            rw [List.count_cons_self]
            push_cast
            omega
          · rintro ⟨d2, hd2, hh1, hh2⟩
            rw [hd] at hd2
            injection hd2 with hd2
            refine (hP3 b).mpr ⟨d - 1, by rw [dget?_dset, if_pos rfl], by omega, ?_⟩
            rw [List.count_cons_self] at hh2
            push_cast at hh2 ⊢
            omega
        · have hmem := hP3 b
          rw [dget?_dset, if_neg hb] at hmem
          have hcnt : List.count b (n :: rest) = List.count b rest := by
            rw [List.count_cons]
            have : (n == b) = false := by
              simp [beq_iff_eq]
              exact fun hq => hb hq.symm
            rw [this]
            simp
          rw [hmem, hcnt]

set_option maxHeartbeats 1000000 in
/-- The invariant proof of the `while queue` loop.  `res` holds the popped
ids, `q` the pending queue; `deg` tracks, for every id, the number of its
in-edges whose source has not been popped, and an id is in `res ∪ q` exactly
when that number is zero.  `S` is any set of ids each of whose members has
an `S`-predecessor edge: no such id can ever be enqueued. -/
theorem kahnLoop_spec (edges : List GRDEdge) (ids : List String)
    (adjF : List (String × List String))
    (hEnds : ∀ e ∈ edges, e.from_node ∈ ids ∧ e.to_node ∈ ids)
    (hadj : ∀ v ∈ ids, dget? adjF v = some (outList edges v))
    (S : String → Prop) (hS : ∀ x, S x → ∃ y, S y ∧ edgeStep edges y x) :
    ∀ (fuel : Nat) (q res : List String) (deg : List (String × Int)),
      ids.length - res.length < fuel →
      (res ++ q).Nodup →
      (∀ v ∈ res ++ q, v ∈ ids) →
      (∀ b ∈ ids, dget? deg b = some ((countRem edges res b : Int))) →
      (∀ b, b ∉ ids → dget? deg b = none) →
      (∀ b ∈ ids, (b ∈ res ∨ b ∈ q) ↔ countRem edges res b = 0) →
      (∀ v ∈ res ++ q, ¬ S v) →
      ∃ order, kahnLoop fuel q adjF deg res = .ok order ∧ order.Nodup ∧
        (∀ v ∈ order, v ∈ ids) ∧
        (∀ b ∈ ids, b ∉ order → countRem edges order b ≠ 0) ∧
        (∀ v ∈ order, ¬ S v) := by
  intro fuel
  induction fuel with
  | zero =>
    intro q res deg hfuel _ _ _ _ _ _
    exact absurd hfuel (by omega)
  | succ fuel ih =>
    intro q res deg hfuel hnd hsub hdeg hdegn hiff hSv
    cases q with
    | nil =>
      refine ⟨res, rfl, by simpa using hnd, ?_, ?_, ?_⟩
      · intro v hv
        exact hsub v (by simp [hv])
      · intro b hb hbno hc0
        exact hbno (((hiff b hb).mpr hc0).resolve_right (by simp))
      · intro v hv
        exact hSv v (by simp [hv])
    | cons v q2 =>
      have hvids : v ∈ ids := hsub v (by simp)
      have hndparts := List.nodup_append.mp hnd
      have hvres : v ∉ res := by
        intro hq
        exact hndparts.2.2 hq (List.mem_cons_self _ _)
      have hnssome : ∀ n ∈ outList edges v, (dget? deg n).isSome = true := by
        intro n hn
        have hnids : n ∈ ids := by
          unfold outList at hn
          rw [List.mem_map] at hn
          obtain ⟨e, he, rfl⟩ := hn
          exact (hEnds e (List.mem_filter.mp he).1).2
        rw [hdeg n hnids]
        rfl
      obtain ⟨degF, extra, hpn, hP1, hP3, hND⟩ :=
        processNeighbors_spec (outList edges v) deg [] hnssome
      rw [List.nil_append] at hpn
      have hstep : kahnLoop (fuel + 1) (v :: q2) adjF deg res =
          kahnLoop fuel (q2 ++ extra) adjF degF (res ++ [v]) := by
        show (match dget? adjF v with
          | none => Except.error ("KeyError: '" ++ v ++ "'")
          | some neigh =>
            match processNeighbors neigh deg [] with
            | .error m => Except.error m
            | .ok (deg2, newq) => kahnLoop fuel (q2 ++ newq) adjF deg2 (res ++ [v])) =
          kahnLoop fuel (q2 ++ extra) adjF degF (res ++ [v])
        rw [hadj v hvids]
        show (match processNeighbors (outList edges v) deg [] with
          | Except.error m => Except.error m
          | Except.ok (deg2, newq) => kahnLoop fuel (q2 ++ newq) adjF deg2 (res ++ [v])) =
          kahnLoop fuel (q2 ++ extra) adjF degF (res ++ [v])
        rw [hpn]
      have hpop := countRem_pop edges res v hvres
      have hcnt_eq : ∀ b, List.count b (outList edges v) = countOut edges v b :=
        fun b => count_outList edges v b
      have hdeg' : ∀ b ∈ ids, dget? degF b = some ((countRem edges (res ++ [v]) b : Int)) := by
        intro b hb
        rw [hP1 b, hdeg b hb]
        dsimp only [Option.map_some']
        congr 1
        rw [hcnt_eq b]
        have := hpop b
        omega
      have hdegn' : ∀ b, b ∉ ids → dget? degF b = none := by
        intro b hb
        rw [hP1 b, hdegn b hb]
        rfl
      have hextra : ∀ b, b ∈ extra ↔ b ∈ ids ∧ countRem edges res b ≠ 0 ∧
          countRem edges (res ++ [v]) b = 0 := by
        intro b
        rw [hP3 b]
        constructor
        · rintro ⟨d, hd, h1, h2⟩
          have hb : b ∈ ids := by
            by_contra hb
            rw [hdegn b hb] at hd
            cases hd
          rw [hdeg b hb] at hd
          injection hd with hd
          rw [hcnt_eq b] at h2
          have := hpop b
          refine ⟨hb, by omega, by omega⟩
        · rintro ⟨hb, h1, h2⟩
          refine ⟨(countRem edges res b : Int), hdeg b hb, by omega, ?_⟩
          rw [hcnt_eq b]
          have := hpop b
          omega
      have hextra_ids : ∀ b ∈ extra, b ∈ ids := fun b hb => ((hextra b).mp hb).1
      have hextra_notold : ∀ b ∈ extra, b ∉ res ++ v :: q2 := by
        intro b hb hold
        obtain ⟨hbids, hne0, -⟩ := (hextra b).mp hb
        refine hne0 ((hiff b hbids).mp ?_)
        rcases List.mem_append.mp hold with h | h
        · exact Or.inl h
        · exact Or.inr h
      have hndA : ((res ++ v :: q2) ++ extra).Nodup := by
        rw [List.nodup_append]
        refine ⟨hnd, hND, ?_⟩
        intro a ha hae
        exact hextra_notold a hae ha
      have hnd' : ((res ++ [v]) ++ (q2 ++ extra)).Nodup := by
        have heqL : (res ++ [v]) ++ (q2 ++ extra) = (res ++ v :: q2) ++ extra := by
          simp
        rw [heqL]
        exact hndA
      have hsub' : ∀ x ∈ (res ++ [v]) ++ (q2 ++ extra), x ∈ ids := by
        intro x hx
        rcases List.mem_append.mp hx with h | h
        · rcases List.mem_append.mp h with h2 | h2
          · exact hsub x (List.mem_append_left _ h2)
          · rw [List.mem_singleton] at h2
            subst h2
            exact hvids
        · rcases List.mem_append.mp h with h2 | h2
          · exact hsub x (List.mem_append_right _ (List.mem_cons_of_mem _ h2))
          · exact hextra_ids x h2
      have hiff' : ∀ b ∈ ids, (b ∈ res ++ [v] ∨ b ∈ q2 ++ extra) ↔
          countRem edges (res ++ [v]) b = 0 := by
        intro b hb
        constructor
        · intro h
          rcases h with h | h
          · rcases List.mem_append.mp h with h2 | h2
            · have h0 : countRem edges res b = 0 := (hiff b hb).mp (Or.inl h2)
              have := hpop b
              omega
            · rw [List.mem_singleton] at h2
              subst h2
              have h0 : countRem edges res b = 0 :=
                (hiff b hb).mp (Or.inr (List.mem_cons_self _ _))
              have := hpop b
              omega
          · rcases List.mem_append.mp h with h2 | h2
            · have h0 : countRem edges res b = 0 :=
                (hiff b hb).mp (Or.inr (List.mem_cons_of_mem _ h2))
              have := hpop b
              omega
            · exact ((hextra b).mp h2).2.2
        · intro h0
          by_cases hr : countRem edges res b = 0
          · rcases (hiff b hb).mpr hr with h | h
            · exact Or.inl (List.mem_append_left _ h)
            · rcases List.mem_cons.mp h with rfl | h2
              · exact Or.inl (List.mem_append_right _ (List.mem_singleton.mpr rfl))
              · exact Or.inr (List.mem_append_left _ h2)
          · exact Or.inr (List.mem_append_right _ ((hextra b).mpr ⟨hb, hr, h0⟩))
      have hSv' : ∀ x ∈ (res ++ [v]) ++ (q2 ++ extra), ¬ S x := by
        intro x hx hSx
        rcases List.mem_append.mp hx with h | h
        · rcases List.mem_append.mp h with h2 | h2
          · exact hSv x (List.mem_append_left _ h2) hSx
          · rw [List.mem_singleton] at h2
            subst h2
            exact hSv x (List.mem_append_right _ (List.mem_cons_self _ _)) hSx
        · rcases List.mem_append.mp h with h2 | h2
          · exact hSv x (List.mem_append_right _ (List.mem_cons_of_mem _ h2)) hSx
          · obtain ⟨hxids, -, h0⟩ := (hextra x).mp h2
            obtain ⟨y, hSy, hyx⟩ := hS x hSx
            have hy : y ∈ res ++ [v] := by
              obtain ⟨e, he, hfy, hty⟩ := hyx
              have := countRem_zero_mem h0 e he hty
              rw [hfy] at this
              exact this
            rcases List.mem_append.mp hy with h3 | h3
            · exact hSv y (List.mem_append_left _ h3) hSy
            · rw [List.mem_singleton] at h3
              subst h3
              exact hSv y (List.mem_append_right _ (List.mem_cons_self _ _)) hSy
      have hfuel' : ids.length - (res ++ [v]).length < fuel := by
        have hndrv : (res ++ [v]).Nodup := by
          rw [List.nodup_append]
          refine ⟨hndparts.1, List.nodup_singleton v, ?_⟩
          intro a ha ha2
          rw [List.mem_singleton] at ha2
          subst ha2
          exact hvres ha
        have hsubrv : ∀ x ∈ res ++ [v], x ∈ ids := by
          intro x hx
          rcases List.mem_append.mp hx with h | h
          · exact hsub x (List.mem_append_left _ h)
          · rw [List.mem_singleton] at h
            subst h
            exact hvids
        have hsp := List.Subperm.length_le (List.subperm_of_subset hndrv hsubrv)
        rw [List.length_append, List.length_singleton] at hsp ⊢
        omega
      obtain ⟨order, hloop, hordernd, hordersub, hcompl, horderS⟩ :=
        ih (q2 ++ extra) (res ++ [v]) degF hfuel' hnd' hsub' hdeg' hdegn' hiff' hSv'
      exact ⟨order, hstep.trans hloop, hordernd, hordersub, hcompl, horderS⟩

set_option maxHeartbeats 1000000 in
/-- A full run of `get_execution_order` on a structure whose edge endpoints
are all node ids: it succeeds, its output has no duplicates and only node
ids, every omitted id still has an in-edge from an omitted source, and no
member of a self-sustaining set `S` ever appears. -/
theorem kahn_run_spec (s : GRDStructure) (S : String → Prop)
    (hS : ∀ x, S x → ∃ y, S y ∧ edgeStep s.edges y x)
    (hEnds : ∀ e ∈ s.edges, e.from_node ∈ s.nodes.map (fun n => n.id) ∧
      e.to_node ∈ s.nodes.map (fun n => n.id)) :
    ∃ order, s.get_execution_order = .ok order ∧ order.Nodup ∧
      (∀ v ∈ order, v ∈ s.nodes.map (fun n => n.id)) ∧
      (∀ b ∈ s.nodes.map (fun n => n.id), b ∉ order → countRem s.edges order b ≠ 0) ∧
      (∀ v ∈ order, ¬ S v) := by
  obtain ⟨ids, hids⟩ : ∃ ids, ids = (s.nodes.map (fun n => n.id)).dedup := ⟨_, rfl⟩
  have hmemids : ∀ x, x ∈ ids ↔ x ∈ s.nodes.map (fun n => n.id) := by
    intro x
    rw [hids]
    exact List.mem_dedup
  have hEnds' : ∀ e ∈ s.edges, e.from_node ∈ ids ∧ e.to_node ∈ ids := fun e he =>
    ⟨(hmemids _).mpr (hEnds e he).1, (hmemids _).mpr (hEnds e he).2⟩
  have hinitadj : ∀ v, dget? (initAdj s.nodes) v =
      if v ∈ ids then some (outList ([] : List GRDEdge) v) else none := by
    intro v
    unfold initAdj
    rw [foldl_dset_const ([] : List String) s.nodes [] v]
    by_cases h : v ∈ s.nodes.map (fun n => n.id)
    · rw [if_pos h, if_pos ((hmemids v).mpr h)]
      rfl
    · rw [if_neg h, if_neg (fun hq => h ((hmemids v).mp hq))]
      rfl
  have hinitdeg : ∀ b, dget? (initInDeg s.nodes) b =
      if b ∈ ids then some ((countTo ([] : List GRDEdge) b : Int)) else none := by
    intro b
    unfold initInDeg
    rw [foldl_dset_const (0 : Int) s.nodes [] b]
    by_cases h : b ∈ s.nodes.map (fun n => n.id)
    · rw [if_pos h, if_pos ((hmemids b).mpr h)]
      rfl
    · rw [if_neg h, if_neg (fun hq => h ((hmemids b).mp hq))]
      rfl
  have hinitnd : ((initInDeg s.nodes).map (fun p => p.1)).Nodup := by
    unfold initInDeg
    exact foldl_dset_const_keysNodup (0 : Int) s.nodes [] (by simp)
  obtain ⟨adjF, degF, haddeq, hadjF, hdegF, hndF⟩ :=
    addEdges_spec ids s.edges [] (initAdj s.nodes) (initInDeg s.nodes)
      hEnds' hinitadj hinitdeg hinitnd
  rw [List.nil_append] at hadjF hdegF
  have hseed_mem : ∀ b, b ∈ (degF.filter (fun p => p.2 = 0)).map (fun p => p.1) ↔
      dget? degF b = some 0 := by
    intro b
    constructor
    · intro h
      rw [List.mem_map] at h
      obtain ⟨p, hp, rfl⟩ := h
      obtain ⟨hpd, hp0⟩ := List.mem_filter.mp hp
      rw [decide_eq_true_eq] at hp0
      rw [dget?_of_mem degF hndF p hpd, hp0]
    · intro h
      exact List.mem_map.mpr ⟨(b, 0), List.mem_filter.mpr ⟨mem_of_dget? h, by simp⟩, rfl⟩
  have hseednd : ((degF.filter (fun p => p.2 = 0)).map (fun p => p.1)).Nodup := by
    have hsub2 : List.Sublist ((degF.filter (fun p => p.2 = 0)).map (fun p => p.1))
        (degF.map (fun p => p.1)) := List.Sublist.map _ (List.filter_sublist _)
    exact hndF.sublist hsub2
  have hseed_ids : ∀ b ∈ (degF.filter (fun p => p.2 = 0)).map (fun p => p.1), b ∈ ids := by
    intro b hb
    rw [hseed_mem b] at hb
    by_contra hq
    rw [hdegF b, if_neg hq] at hb
    cases hb
  have hseed_cnt : ∀ b ∈ (degF.filter (fun p => p.2 = 0)).map (fun p => p.1),
      countRem s.edges [] b = 0 := by
    intro b hb
    have hbids := hseed_ids b hb
    rw [hseed_mem b, hdegF b, if_pos hbids] at hb
    injection hb with hb
    rw [countRem_nil_res]
    omega
  have hdeg0 : ∀ b ∈ ids, dget? degF b = some ((countRem s.edges [] b : Int)) := by
    intro b hb
    rw [hdegF b, if_pos hb, countRem_nil_res]
  have hdegn0 : ∀ b, b ∉ ids → dget? degF b = none := by
    intro b hb
    rw [hdegF b, if_neg hb]
  have hiff0 : ∀ b ∈ ids, (b ∈ ([] : List String) ∨
      b ∈ (degF.filter (fun p => p.2 = 0)).map (fun p => p.1)) ↔
      countRem s.edges [] b = 0 := by
    intro b hb
    constructor
    · intro h
      rcases h with h | h
      · cases h
      · exact hseed_cnt b h
    · intro h0
      refine Or.inr ((hseed_mem b).mpr ?_)
      rw [countRem_nil_res] at h0
      rw [hdegF b, if_pos hb, h0]
      rfl
  have hSv0 : ∀ x ∈ ([] : List String) ++
      (degF.filter (fun p => p.2 = 0)).map (fun p => p.1), ¬ S x := by
    intro x hx hSx
    rw [List.nil_append] at hx
    obtain ⟨y, _, hyx⟩ := hS x hSx
    obtain ⟨e, he, hfy, hty⟩ := hyx
    have h0 := hseed_cnt x hx
    have := countRem_zero_mem h0 e he hty
    cases this
  have hfuel0 : ids.length - ([] : List String).length <
      s.nodes.length + s.edges.length + 1 := by
    have hle : ids.length ≤ s.nodes.length := by
      rw [hids]
      have := List.Sublist.length_le (List.dedup_sublist (s.nodes.map (fun n => n.id)))
      simpa using this
    simp only [List.length_nil]
    omega
  have hidnd : ids.Nodup := by
    rw [hids]
    exact List.nodup_dedup _
  obtain ⟨order, hloop, hord1, hord2, hord3, hord4⟩ :=
    kahnLoop_spec s.edges ids adjF hEnds'
      (fun v hv => by rw [hadjF v, if_pos hv])
      S hS (s.nodes.length + s.edges.length + 1)
      ((degF.filter (fun p => p.2 = 0)).map (fun p => p.1)) [] degF
      hfuel0 (by simpa using hseednd) (by simpa using hseed_ids)
      hdeg0 hdegn0 hiff0 hSv0
  have hrun : s.get_execution_order =
      kahnLoop (s.nodes.length + s.edges.length + 1)
        ((degF.filter (fun p => p.2 = 0)).map (fun p => p.1)) adjF degF [] := by
    show (match addEdges (initAdj s.nodes) (initInDeg s.nodes) s.edges with
      | .error m => Except.error m
      | .ok (adj, deg) => kahnLoop (s.nodes.length + s.edges.length + 1)
          ((deg.filter (fun e => e.2 = 0)).map (fun e => e.1)) adj deg []) =
      kahnLoop (s.nodes.length + s.edges.length + 1)
        ((degF.filter (fun p => p.2 = 0)).map (fun p => p.1)) adjF degF []
    rw [haddeq]
  refine ⟨order, hrun.trans hloop, hord1, ?_, ?_, hord4⟩
  · intro v hv
    exact (hmemids v).mp (hord2 v hv)
  · intro b hb hbno
    exact hord3 b ((hmemids b).mpr hb) hbno


/-! ## Claims C2 and C10: the topological sort -/

theorem countRem_ne_zero_elim {edges : List GRDEdge} {res : List String} {b : String}
    (h : countRem edges res b ≠ 0) :
    ∃ e ∈ edges, e.to_node = b ∧ e.from_node ∉ res := by
  unfold countRem at h
  have hne : edges.filter (fun e => decide (e.to_node = b ∧ e.from_node ∉ res)) ≠ [] := by
    intro hq
    rw [hq] at h
    exact h rfl
  obtain ⟨e, hmem⟩ := List.exists_mem_of_ne_nil _ hne
  obtain ⟨he, hp⟩ := List.mem_filter.mp hmem
  rw [decide_eq_true_eq] at hp
  exact ⟨e, he, hp⟩

/-- Ids on a cycle through `a` form a self-sustaining set: each member has
a predecessor edge from another member. -/
theorem cycle_set_pred (edges : List GRDEdge) (a : String) :
    ∀ x, (Relation.ReflTransGen (edgeStep edges) a x ∧
        Relation.TransGen (edgeStep edges) x a) →
      ∃ y, (Relation.ReflTransGen (edgeStep edges) a y ∧
          Relation.TransGen (edgeStep edges) y a) ∧ edgeStep edges y x := by
  rintro x ⟨hax, hxa⟩
  rcases Relation.ReflTransGen.cases_tail hax with rfl | hc
  · obtain ⟨b, hab, hba⟩ := (Relation.TransGen.tail'_iff).mp hxa
    exact ⟨b, ⟨hab, Relation.TransGen.single hba⟩, hba⟩
  · obtain ⟨c, hac, hcx⟩ := hc
    exact ⟨c, ⟨hac, Relation.TransGen.head hcx hxa⟩, hcx⟩

/-- A nonempty set of ids drawn from a finite list, each member of which
has a predecessor edge from another member, forces a cycle (pigeonhole on
the iterated predecessor chooser). -/
theorem exists_cycle_of_pred (edges : List GRDEdge) (P : String → Prop) (U : List String)
    (hPU : ∀ x, P x → x ∈ U) (hpred : ∀ x, P x → ∃ y, P y ∧ edgeStep edges y x)
    {b : String} (hb : P b) : ∃ a, Relation.TransGen (edgeStep edges) a a := by
  classical
  choose f hfP hfE using hpred
  obtain ⟨step, hstepdef⟩ : ∃ step : {x : String // P x} → {x : String // P x},
      step = fun p => ⟨f p.1 p.2, hfP p.1 p.2⟩ := ⟨_, rfl⟩
  obtain ⟨g, hgdef⟩ : ∃ g : Nat → {x : String // P x},
      g = fun n => step^[n] ⟨b, hb⟩ := ⟨_, rfl⟩
  have hstep : ∀ n, edgeStep edges (g (n + 1)).1 (g n).1 := by
    intro n
    rw [hgdef]
    dsimp only
    rw [Function.iterate_succ_apply', hstepdef]
    exact hfE _ _
  have hchain : ∀ n m : Nat, m < n →
      Relation.TransGen (edgeStep edges) (g n).1 (g m).1 := by
    intro n
    induction n with
    | zero => intro m hm; exact absurd hm (by omega)
    | succ n ih =>
      intro m hm
      rcases Nat.lt_succ_iff_lt_or_eq.mp hm with h | h
      · exact Relation.TransGen.head (hstep n) (ih m h)
      · subst h
        exact Relation.TransGen.single (hstep m)
  obtain ⟨i, j, hij, hFeq⟩ := Fintype.exists_ne_map_eq_of_card_lt
    (fun i : Fin (U.length + 1) =>
      (⟨U.indexOf (g i.1).1, List.indexOf_lt_length.mpr (hPU _ (g i.1).2)⟩ : Fin U.length))
    (by simp)
  rw [Fin.mk.injEq] at hFeq
  have h1 := List.indexOf_get (List.indexOf_lt_length.mpr (hPU _ (g i.1).2))
  have h2 := List.indexOf_get (List.indexOf_lt_length.mpr (hPU _ (g j.1).2))
  have hval : (g i.1).1 = (g j.1).1 := by
    rw [← h1, ← h2]
    congr 1
    exact Fin.ext hFeq
  rcases lt_trichotomy i.1 j.1 with h | h | h
  · refine ⟨(g j.1).1, ?_⟩
    have hc := hchain j.1 i.1 h
    rw [hval] at hc
    exact hc
  · exact absurd (Fin.ext h) hij
  · refine ⟨(g i.1).1, ?_⟩
    have hc := hchain i.1 j.1 h
    rw [← hval] at hc
    exact hc

/-- Pass 1 records only edges whose endpoints passed the node-id guard. -/
theorem parse_edges_pass1_endpoints (code : String) (ids : List String) :
    ∀ e ∈ parse_edges_pass1 code ids, e.from_node ∈ ids ∧ e.to_node ∈ ids := by
  unfold parse_edges_pass1
  refine @foldl_preserve (List GRDEdge) _
    (fun es => ∀ e ∈ es, e.from_node ∈ ids ∧ e.to_node ∈ ids) _
    (fun es gs hes => ?_) _ _ (by simp)
  match gs with
  | [] => exact hes
  | [_] => exact hes
  | [_, _] => exact hes
  | [f, lab, t] =>
    dsimp only
    split
    · next hc =>
      intro e he
      rcases List.mem_append.mp he with h | h
      · exact hes e h
      · rw [List.mem_singleton.mp h]
        exact ⟨hc.1, hc.2⟩
    · exact hes
  | _ :: _ :: _ :: _ :: _ => exact hes

/-- Pass 2 records only edges whose endpoints passed the node-id guard. -/
theorem parse_edges_pass2_endpoints (code : String) (ids : List String)
    {es0 : List GRDEdge} (h0 : ∀ e ∈ es0, e.from_node ∈ ids ∧ e.to_node ∈ ids) :
    ∀ e ∈ parse_edges_pass2 code ids es0, e.from_node ∈ ids ∧ e.to_node ∈ ids := by
  unfold parse_edges_pass2
  refine @foldl_preserve (List GRDEdge) _
    (fun es => ∀ e ∈ es, e.from_node ∈ ids ∧ e.to_node ∈ ids) _
    (fun es gs hes => ?_) _ _ h0
  match gs with
  | [] => exact hes
  | [_] => exact hes
  | [_, _] => exact hes
  | [f, sty, t] =>
    dsimp only
    split
    · next hc =>
      intro e he
      rcases List.mem_append.mp he with h | h
      · exact hes e h
      · rw [List.mem_singleton.mp h]
        exact ⟨hc.2.1, hc.2.2⟩
    · exact hes
  | _ :: _ :: _ :: _ :: _ => exact hes

/-- Every edge `_parse_edges` returns has both endpoints among the node
ids. -/
theorem parse_edges_endpoints (code : String) (nodes : List GRDNode) :
    ∀ e ∈ parse_edges code nodes,
      e.from_node ∈ nodes.map (fun n => n.id) ∧ e.to_node ∈ nodes.map (fun n => n.id) := by
  unfold parse_edges
  exact parse_edges_pass2_endpoints code _ (parse_edges_pass1_endpoints code _)


set_option maxHeartbeats 1000000 in
/-- C2: for every graph `parse` returns, `get_execution_order` succeeds (no
error is signalled even when edges form a cycle), the order is at most as
long as the node list, and the lengths are equal exactly when the graph
induced by the edges is acyclic — ids trapped in a cycle are silently
omitted; on the two-node cycle `A-->B`, `B-->A` the returned order is
empty. -/
theorem C2_topological_order_length (code : String) (g : GRDStructure)
    (h : parse code = .ok g) :
    (∃ order, g.get_execution_order = .ok order ∧
      order.length ≤ g.nodes.length ∧
      (order.length = g.nodes.length ↔ Acyclic g.edges)) ∧
    (parse "graph TD\nA-->B\nB-->A").map
        (fun g2 => (g2.nodes.map (fun n => n.id), g2.get_execution_order))
      = .ok (["A", "B"], .ok []) := by
  refine ⟨?_, by decide⟩
  have hidnd : (g.nodes.map (fun n => n.id)).Nodup := parse_nodes_ids_nodup code g h
  have hEnds : ∀ e ∈ g.edges, e.from_node ∈ g.nodes.map (fun n => n.id) ∧
      e.to_node ∈ g.nodes.map (fun n => n.id) := by
    obtain ⟨-, -, hg⟩ := parse_ok_elim h
    subst hg
    exact parse_edges_endpoints _ _
  obtain ⟨order, hrun, hnd, hsub, hcompl, -⟩ :=
    kahn_run_spec g (fun _ => False) (fun x hx => hx.elim) hEnds
  refine ⟨order, hrun, ?_, ?_, ?_⟩
  · have hsp := List.Subperm.length_le (List.subperm_of_subset hnd hsub)
    rw [List.length_map] at hsp
    exact hsp
  · intro hlen_eq
    intro a hcyc
    obtain ⟨order2, hrun2, -, -, -, hS2⟩ :=
      kahn_run_spec g
        (fun x => Relation.ReflTransGen (edgeStep g.edges) a x ∧
          Relation.TransGen (edgeStep g.edges) x a)
        (cycle_set_pred g.edges a) hEnds
    rw [hrun] at hrun2
    injection hrun2 with ho
    have hano : a ∉ order := by
      intro hq
      refine hS2 a ?_ ⟨Relation.ReflTransGen.refl, hcyc⟩
      rw [← ho]
      exact hq
    have haids : a ∈ g.nodes.map (fun n => n.id) := by
      obtain ⟨b0, -, hba⟩ := (Relation.TransGen.tail'_iff).mp hcyc
      obtain ⟨e, he, -, hto⟩ := hba
      rw [← hto]
      exact (hEnds e he).2
    have hsub3 : ∀ x ∈ order, x ∈ (g.nodes.map (fun n => n.id)).erase a := by
      intro x hx
      have hxa : x ≠ a := fun hq => hano (hq ▸ hx)
      exact (List.mem_erase_of_ne hxa).mpr (hsub x hx)
    have hsp := List.Subperm.length_le (List.subperm_of_subset hnd hsub3)
    rw [List.length_erase_of_mem haids, List.length_map] at hsp
    have hpos := List.length_pos_of_mem haids
    rw [List.length_map] at hpos
    omega
  · intro hacyc
    have hall : ∀ x ∈ g.nodes.map (fun n => n.id), x ∈ order := by
      by_contra hq
      push_neg at hq
      obtain ⟨b, hbids, hbno⟩ := hq
      obtain ⟨a2, hcyc2⟩ := exists_cycle_of_pred g.edges
        (fun x => x ∈ g.nodes.map (fun n => n.id) ∧ x ∉ order)
        (g.nodes.map (fun n => n.id)) (fun x hx => hx.1)
        (fun x hx => by
          obtain ⟨e, he, hto, hfrom⟩ := countRem_ne_zero_elim (hcompl x hx.1 hx.2)
          exact ⟨e.from_node, ⟨(hEnds e he).1, hfrom⟩, ⟨e, he, rfl, hto⟩⟩)
        ⟨hbids, hbno⟩
      exact hacyc a2 hcyc2
    have h1 := List.Subperm.length_le (List.subperm_of_subset hnd hsub)
    have h2 := List.Subperm.length_le (List.subperm_of_subset hidnd hall)
    rw [List.length_map] at h1 h2
    omega

set_option maxHeartbeats 1000000 in
/-- C2 witness: the theorem applied to the concrete two-node cycle
`graph TD\nA-->B\nB-->A`, whose parse succeeds with two nodes, and whose
execution order is the empty list. -/
theorem C2_topological_order_length_witness :
    parse "graph TD\nA-->B\nB-->A" = .ok (parsedGraph "graph TD\nA-->B\nB-->A") ∧
    ((∃ order, (parsedGraph "graph TD\nA-->B\nB-->A").get_execution_order = .ok order ∧
      order.length ≤ (parsedGraph "graph TD\nA-->B\nB-->A").nodes.length ∧
      (order.length = (parsedGraph "graph TD\nA-->B\nB-->A").nodes.length ↔
        Acyclic (parsedGraph "graph TD\nA-->B\nB-->A").edges)) ∧
     (parse "graph TD\nA-->B\nB-->A").map
        (fun g2 => (g2.nodes.map (fun n => n.id), g2.get_execution_order))
      = .ok (["A", "B"], .ok [])) :=
  ⟨by rfl, C2_topological_order_length "graph TD\nA-->B\nB-->A" _ (by rfl)⟩

/-- A structure whose edge endpoints are all node ids. -/
def kahnDemo : GRDStructure :=
  ⟨[⟨"A", "A", .RECTANGLE, []⟩, ⟨"B", "B", .RECTANGLE, []⟩],
   [⟨"A", "B", none, none, none⟩], [], [], []⟩

/-- A directly constructed structure with an edge to the foreign id `X`:
node `A` is enqueued, pops, enqueues its neighbour `X` (whose in-degree
entry was created by the `in_degree.get(to, 0) + 1` default), and the
adjacency lookup `graph[X]` then raises. -/
def kahnBad : GRDStructure :=
  ⟨[⟨"A", "A", .RECTANGLE, []⟩], [⟨"A", "X", none, none, none⟩], [], [], []⟩

set_option maxHeartbeats 1000000 in
/-- C10: on every structure whose edge endpoints are all node ids (as in
every parsed graph), `get_execution_order` terminates normally with a
duplicate-free output drawn from the node ids; and on the directly
constructed `kahnBad`, whose edge points at a foreign id, the missing-key
error branch is reached. -/
theorem C10_execution_order_safety (s : GRDStructure)
    (h : ∀ e ∈ s.edges, e.from_node ∈ s.nodes.map (fun n => n.id) ∧
      e.to_node ∈ s.nodes.map (fun n => n.id)) :
    (∃ order, s.get_execution_order = .ok order ∧ order.Nodup ∧
      ∀ v ∈ order, v ∈ s.nodes.map (fun n => n.id)) ∧
    kahnBad.get_execution_order = .error "KeyError: 'X'" := by
  obtain ⟨order, h1, h2, h3, -, -⟩ :=
    kahn_run_spec s (fun _ => False) (fun x hx => hx.elim) h
  exact ⟨⟨order, h1, h2, h3⟩, by decide⟩

set_option maxHeartbeats 1000000 in
/-- C10 witness: the theorem applied to the concrete structure `kahnDemo`. -/
theorem C10_execution_order_safety_witness :
    (∀ e ∈ kahnDemo.edges, e.from_node ∈ kahnDemo.nodes.map (fun n => n.id) ∧
      e.to_node ∈ kahnDemo.nodes.map (fun n => n.id)) ∧
    ((∃ order, kahnDemo.get_execution_order = .ok order ∧ order.Nodup ∧
      ∀ v ∈ order, v ∈ kahnDemo.nodes.map (fun n => n.id)) ∧
     kahnBad.get_execution_order = .error "KeyError: 'X'") :=
  ⟨by decide, C10_execution_order_safety kahnDemo (by decide)⟩

/-! ### C9 groundwork: list toolkit -/

theorem append_eq_append_decomp {α : Type} {a b c d : List α} (h : a ++ b = c ++ d)
    (hl : a.length ≤ c.length) : ∃ m, c = a ++ m ∧ b = m ++ d := by
  rcases List.append_eq_append_iff.mp h with ⟨m, hm1, hm2⟩ | ⟨m, hm1, hm2⟩
  · exact ⟨m, hm1, hm2⟩
  · have hlen : m.length = 0 := by
      have := congrArg List.length hm1
      rw [List.length_append] at this
      omega
    rw [List.length_eq_zero.mp hlen, List.append_nil] at hm1
    rw [List.length_eq_zero.mp hlen, List.nil_append] at hm2
    exact ⟨[], by rw [hm1, List.append_nil], by rw [hm2, List.nil_append]⟩

theorem suffix_of_suffix_len_le {α : Type} {t r u : List α} (ht : List.IsSuffix t u)
    (hr : List.IsSuffix r u) (hl : t.length ≤ r.length) : List.IsSuffix t r := by
  obtain ⟨a, ha⟩ := ht
  obtain ⟨b, hb⟩ := hr
  have h : b ++ r = a ++ t := by rw [ha, hb]
  have hba : b.length ≤ a.length := by
    have := congrArg List.length h
    rw [List.length_append, List.length_append] at this
    omega
  obtain ⟨m, hm1, hm2⟩ := append_eq_append_decomp h hba
  exact ⟨m, hm2.symm⟩

theorem takeWhile_all_append (f : Char → Bool) :
    ∀ (a b : List Char), (∀ c ∈ a, f c = true) →
      (a ++ b).takeWhile f = a ++ b.takeWhile f := by
  intro a
  induction a with
  | nil => intro b _; rfl
  | cons c a2 ih =>
    intro b hall
    rw [List.cons_append, List.takeWhile_cons_of_pos (hall c (by simp)), List.cons_append,
      ih b (fun x hx => hall x (by simp [hx]))]

theorem takeWhile_run (f : Char → Bool) (a : List Char) (c : Char) (b : List Char)
    (hall : ∀ x ∈ a, f x = true) (hc : f c = false) :
    (a ++ c :: b).takeWhile f = a := by
  rw [takeWhile_all_append f a _ hall, List.takeWhile_cons_of_neg (by rw [hc]; simp),
    List.append_nil]

theorem take_all_of_le_takeWhile {f : Char → Bool} {l : List Char} {j : Nat}
    (hj : j ≤ (l.takeWhile f).length) : ∀ c ∈ l.take j, f c = true := by
  intro c hc
  have heq : l.take j = (l.takeWhile f).take j := by
    have hsplit := List.takeWhile_append_dropWhile f l
    calc l.take j = ((l.takeWhile f) ++ (l.dropWhile f)).take j := by rw [hsplit]
    _ = (l.takeWhile f).take j := List.take_append_of_le_length hj
  rw [heq] at hc
  exact List.mem_takeWhile_imp (List.take_subset j _ hc)

theorem isPrefixOf_elim : ∀ (a b : List Char), a.isPrefixOf b = true →
    b = a ++ b.drop a.length := by
  intro a
  induction a with
  | nil => intro b _; rfl
  | cons c a2 ih =>
    intro b h
    cases b with
    | nil => exact absurd h (by simp [List.isPrefixOf])
    | cons d b2 =>
      rw [List.isPrefixOf_cons₂, Bool.and_eq_true] at h
      obtain ⟨h1, h2⟩ := h
      rw [beq_iff_eq] at h1
      subst h1
      rw [List.cons_append, List.length_cons, List.drop_succ_cons]
      rw [← ih b2 h2]

theorem isPrefixOf_self_append : ∀ (a b : List Char), a.isPrefixOf (a ++ b) = true := by
  intro a
  induction a with
  | nil => intro b; simp [List.isPrefixOf]
  | cons c a2 ih =>
    intro b
    rw [List.cons_append, List.isPrefixOf_cons₂]
    simp [ih b]

theorem wordChar_notNL {c : Char} (h : isWordChar c = true) : notNL c = true := by
  by_cases hc : c = '\n'
  · subst hc
    exact absurd h (by decide)
  · simp [notNL, hc]

/-! ### Membership inversions for the combinators -/

theorem mem_rxSeq_iff {p q : Rx} {cs : List Char} {x : List String × List Char} :
    x ∈ rxSeq p q cs ↔
      ∃ pr ∈ p cs, ∃ qr ∈ q pr.2, x = (pr.1 ++ qr.1, qr.2) := by
  unfold rxSeq
  rw [List.mem_flatMap]
  constructor
  · rintro ⟨pr, hpr, hx⟩
    rw [List.mem_map] at hx
    obtain ⟨qr, hqr, hx⟩ := hx
    exact ⟨pr, hpr, qr, hqr, hx.symm⟩
  · rintro ⟨pr, hpr, qr, hqr, hx⟩
    exact ⟨pr, hpr, List.mem_map.mpr ⟨qr, hqr, hx.symm⟩⟩

theorem mem_rxCap_iff {p : Rx} {cs : List Char} {x : List String × List Char} :
    x ∈ rxCap p cs ↔ ∃ pr ∈ p cs,
      x = (String.mk (cs.take (cs.length - pr.2.length)) :: pr.1, pr.2) := by
  unfold rxCap
  rw [List.mem_map]
  constructor
  · rintro ⟨pr, hpr, hx⟩
    exact ⟨pr, hpr, hx.symm⟩
  · rintro ⟨pr, hpr, hx⟩
    exact ⟨pr, hpr, hx.symm⟩

theorem mem_rxLit_iff {s : String} {cs : List Char} {x : List String × List Char} :
    x ∈ rxLit s cs ↔ s.data.isPrefixOf cs = true ∧ x = ([], cs.drop s.length) := by
  unfold rxLit
  split
  · next h => simp [h]
  · next h => simp [h]

theorem mem_rxPred_iff {f : Char → Bool} {cs : List Char} {x : List String × List Char} :
    x ∈ rxPred f cs ↔ ∃ c rest, cs = c :: rest ∧ f c = true ∧ x = ([], rest) := by
  cases cs with
  | nil => simp [rxPred]
  | cons c rest =>
    show x ∈ (if f c then [(([] : List String), rest)] else []) ↔ _
    by_cases hf : f c = true
    · rw [if_pos hf, List.mem_singleton]
      constructor
      · intro hx
        exact ⟨c, rest, rfl, hf, hx⟩
      · rintro ⟨c2, r2, heq, hf2, hx⟩
        injection heq with h1 h2
        subst h2
        exact hx
    · rw [if_neg hf]
      simp only [List.not_mem_nil, false_iff]
      rintro ⟨c2, r2, heq, hf2, hx⟩
      injection heq with h1 h2
      subst h1
      exact hf hf2

theorem mem_rxOpt_iff {p : Rx} {cs : List Char} {x : List String × List Char} :
    x ∈ rxOpt p cs ↔ x ∈ p cs ∨ x = ([], cs) := by
  unfold rxOpt
  rw [List.mem_append, List.mem_singleton]

theorem mem_rxPlusG_iff {f : Char → Bool} {cs : List Char} {x : List String × List Char} :
    x ∈ rxPlusG f cs ↔
      ∃ k < (cs.takeWhile f).length, x = ([], cs.drop (k + 1)) := by
  unfold rxPlusG
  dsimp only
  rw [List.mem_map]
  constructor
  · rintro ⟨k, hk, hx⟩
    rw [List.mem_reverse, List.mem_range] at hk
    exact ⟨k, hk, hx.symm⟩
  · rintro ⟨k, hk, hx⟩
    exact ⟨k, by rw [List.mem_reverse, List.mem_range]; exact hk, hx.symm⟩

theorem mem_rxStarL_iff {f : Char → Bool} {cs : List Char} {x : List String × List Char} :
    x ∈ rxStarL f cs ↔
      ∃ k ≤ (cs.takeWhile f).length, x = ([], cs.drop k) := by
  unfold rxStarL
  dsimp only
  rw [List.mem_map]
  constructor
  · rintro ⟨k, hk, hx⟩
    rw [List.mem_range] at hk
    exact ⟨k, by omega, hx.symm⟩
  · rintro ⟨k, hk, hx⟩
    exact ⟨k, by rw [List.mem_range]; omega, hx.symm⟩

/-! ### The canonical (fuel-free) finditer -/

theorem finditerAux_fuel (p : Rx) :
    ∀ (n : Nat) (cs : List Char) (f1 f2 : Nat), cs.length ≤ n →
      cs.length + 1 ≤ f1 → cs.length + 1 ≤ f2 →
      finditerAux p f1 cs = finditerAux p f2 cs := by
  intro n
  induction n with
  | zero =>
    intro cs f1 f2 hn h1 h2
    have hcs : cs = [] := List.length_eq_zero.mp (by omega)
    subst hcs
    cases f1 with
    | zero => omega
    | succ k1 =>
      cases f2 with
      | zero => omega
      | succ k2 => rfl
  | succ n ih =>
    intro cs f1 f2 hn h1 h2
    cases cs with
    | nil =>
      cases f1 with
      | zero => omega
      | succ k1 =>
        cases f2 with
        | zero => omega
        | succ k2 => rfl
    | cons c rest =>
      cases f1 with
      | zero => omega
      | succ k1 =>
        cases f2 with
        | zero => omega
        | succ k2 =>
          show (match matchAt p (c :: rest) with
            | some (g, r) =>
              if r.length < (c :: rest).length then g :: finditerAux p k1 r
              else g :: finditerAux p k1 rest
            | none => finditerAux p k1 rest) =
            (match matchAt p (c :: rest) with
            | some (g, r) =>
              if r.length < (c :: rest).length then g :: finditerAux p k2 r
              else g :: finditerAux p k2 rest
            | none => finditerAux p k2 rest)
          have hrest : rest.length ≤ n := by
            rw [List.length_cons] at hn
            omega
          cases hm : matchAt p (c :: rest) with
          | none =>
            exact ih rest k1 k2 hrest (by rw [List.length_cons] at h1; omega)
              (by rw [List.length_cons] at h2; omega)
          | some gr =>
            obtain ⟨g, r⟩ := gr
            show (if r.length < (c :: rest).length then g :: finditerAux p k1 r
                else g :: finditerAux p k1 rest) =
              (if r.length < (c :: rest).length then g :: finditerAux p k2 r
                else g :: finditerAux p k2 rest)
            by_cases hlt : r.length < (c :: rest).length
            · rw [if_pos hlt, if_pos hlt]
              have hr : r.length ≤ n := by
                rw [List.length_cons] at hn hlt
                omega
              rw [ih r k1 k2 hr (by rw [List.length_cons] at h1 hlt; omega)
                (by rw [List.length_cons] at h2 hlt; omega)]
            · rw [if_neg hlt, if_neg hlt]
              rw [ih rest k1 k2 hrest (by rw [List.length_cons] at h1; omega)
                (by rw [List.length_cons] at h2; omega)]

/-- `finditer` with its canonical fuel, as a function of the char list. -/
def fiC (p : Rx) (cs : List Char) : List (List String) :=
  finditerAux p (cs.length + 1) cs

theorem finditer_eq_fiC (p : Rx) (s : String) : finditer p s = fiC p s.data := rfl

theorem fiC_match {p : Rx} {cs : List Char} {g : List String} {r : List Char}
    (h : matchAt p cs = some (g, r)) (hlen : r.length < cs.length) :
    fiC p cs = g :: fiC p r := by
  cases cs with
  | nil => simp at hlen
  | cons c rest =>
    show (match matchAt p (c :: rest) with
      | some (g, r) =>
        if r.length < (c :: rest).length then g :: finditerAux p ((c :: rest).length) r
        else g :: finditerAux p ((c :: rest).length) rest
      | none => finditerAux p ((c :: rest).length) rest) = g :: fiC p r
    rw [h]
    show (if r.length < (c :: rest).length then g :: finditerAux p ((c :: rest).length) r
        else g :: finditerAux p ((c :: rest).length) rest) = g :: fiC p r
    rw [if_pos hlen]
    congr 1
    exact finditerAux_fuel p r.length r ((c :: rest).length) (r.length + 1) le_rfl
      (by omega) le_rfl

theorem fiC_slide {p : Rx} {c : Char} {rest : List Char}
    (h : matchAt p (c :: rest) = none) : fiC p (c :: rest) = fiC p rest := by
  show (match matchAt p (c :: rest) with
    | some (g, r) =>
      if r.length < (c :: rest).length then g :: finditerAux p ((c :: rest).length) r
      else g :: finditerAux p ((c :: rest).length) rest
    | none => finditerAux p ((c :: rest).length) rest) = fiC p rest
  rw [h]
  rfl

/-! ### Head-of-list match computations -/

theorem range_reverse_head (m : Nat) :
    ((List.range (m + 1)).reverse).head? = some m := by
  simp [List.range_succ]

theorem matchAt_rxSeq_head {p q : Rx} {cs : List Char} {pr qr : List String × List Char}
    (hp : (p cs).head? = some pr) (hq : (q pr.2).head? = some qr) :
    matchAt (rxSeq p q) cs = some (pr.1 ++ qr.1, qr.2) := by
  cases hl : p cs with
  | nil => rw [hl] at hp; cases hp
  | cons a tl =>
    rw [hl, List.head?_cons] at hp
    injection hp with hp
    subst hp
    unfold matchAt rxSeq
    rw [hl, List.flatMap_cons]
    cases hl2 : q a.2 with
    | nil => rw [hl2] at hq; cases hq
    | cons b tl2 =>
      rw [hl2, List.head?_cons] at hq
      injection hq with hq
      subst hq
      rw [List.map_cons, List.cons_append, List.head?_cons]

theorem head?_capPlus {cs W T : List Char}
    (hW : W ≠ []) (hTW : cs.takeWhile isWordChar = W) (hcs : cs = W ++ T) :
    (rxCap (rxPlusG isWordChar) cs).head? = some ([String.mk W], T) := by
  obtain ⟨w0, W2, hWs⟩ : ∃ w0 W2, W = w0 :: W2 := by
    cases W with
    | nil => exact absurd rfl hW
    | cons a b => exact ⟨a, b, rfl⟩
  have hWlen : W.length = W2.length + 1 := by rw [hWs]; rfl
  have hlen : (cs.takeWhile isWordChar).length = W2.length + 1 := by
    rw [hTW, hWlen]
  unfold rxCap rxPlusG
  dsimp only
  rw [hlen, List.head?_map, List.head?_map, range_reverse_head]
  dsimp only [Option.map_some']
  have hdrop : cs.drop (W2.length + 1) = T := by
    rw [hcs, ← hWlen, List.drop_left]
  rw [hdrop]
  have htke : cs.take (cs.length - T.length) = W := by
    have hclen : cs.length = W.length + T.length := by rw [hcs, List.length_append]
    have hsub : cs.length - T.length = W.length := by omega
    rw [hsub, hcs, List.take_left]
  rw [htke]

theorem head?_rxLit_pos {s : String} {cs : List Char} (h : s.data.isPrefixOf cs = true) :
    (rxLit s cs).head? = some ([], cs.drop s.length) := by
  unfold rxLit
  rw [if_pos h]
  rfl

theorem head?_flatMap_range' {b : Type} (g : Nat → List b) {x : b} :
    ∀ (len s k0 : Nat), s ≤ k0 → k0 < s + len →
      (∀ k, s ≤ k → k < k0 → g k = []) → (g k0).head? = some x →
      ((List.range' s len).flatMap g).head? = some x := by
  intro len
  induction len with
  | zero => intro s k0 h1 h2 _ _; omega
  | succ len ih =>
    intro s k0 h1 h2 hfail hsucc
    rw [List.range'_succ, List.flatMap_cons]
    by_cases hs : s = k0
    · subst hs
      cases hgl : g s with
      | nil => rw [hgl] at hsucc; cases hsucc
      | cons y t =>
        rw [List.cons_append, List.head?_cons]
        rw [hgl, List.head?_cons] at hsucc
        exact hsucc
    · rw [hfail s le_rfl (by omega), List.nil_append]
      exact ih (s + 1) k0 (by omega) (by omega)
        (fun k hk1 hk2 => hfail k (by omega) hk2) hsucc

theorem matchAt_starL_seq {f : Char → Bool} {q : Rx} {cs : List Char} {k0 : Nat}
    {qr : List String × List Char}
    (hk0 : k0 ≤ (cs.takeWhile f).length)
    (hfail : ∀ k < k0, q (cs.drop k) = [])
    (hq : (q (cs.drop k0)).head? = some qr) :
    matchAt (rxSeq (rxCap (rxStarL f)) q) cs =
      some (String.mk (cs.take k0) :: qr.1, qr.2) := by
  have htwcs : (cs.takeWhile f).length ≤ cs.length := by
    have h := congrArg List.length (List.takeWhile_append_dropWhile f cs)
    rw [List.length_append] at h
    omega
  have hk0cs : k0 ≤ cs.length := le_trans hk0 htwcs
  unfold matchAt rxSeq rxCap rxStarL
  dsimp only
  rw [List.map_map, List.flatMap_map, List.range_eq_range']
  have hcap : cs.length - (cs.drop k0).length = k0 := by
    rw [List.length_drop]
    omega
  refine head?_flatMap_range' _ ((cs.takeWhile f).length + 1) 0 k0 (by omega)
    (by omega) ?_ ?_
  · intro k _ hk2
    dsimp only [Function.comp]
    rw [hfail k hk2]
    rfl
  · dsimp only [Function.comp]
    rw [List.head?_map, hq]
    dsimp only [Option.map_some']
    rw [hcap]
    rfl

theorem rectPat_matchAt_intro {W B rest : List Char}
    (hW : W ≠ []) (hWall : ∀ c ∈ W, isWordChar c = true)
    (hBnn : ∀ c ∈ B, notNL c = true) (hBfree : ']' ∉ B) :
    matchAt (nodePat "[" "]") (W ++ '[' :: (B ++ ']' :: rest)) =
      some ([String.mk W, String.mk B], rest) := by
  have hTW : (W ++ '[' :: (B ++ ']' :: rest)).takeWhile isWordChar = W :=
    takeWhile_run _ W '[' _ hWall (by decide)
  have hp := head?_capPlus hW hTW rfl
  have hlit1 : (rxLit "[" ('[' :: (B ++ ']' :: rest))).head? =
      some ([], B ++ ']' :: rest) :=
    head?_rxLit_pos (isPrefixOf_self_append ['['] (B ++ ']' :: rest))
  have hfailB : ∀ k < B.length, rxLit "]" ((B ++ ']' :: rest).drop k) = [] := by
    intro k hk
    rw [List.drop_append_of_le_length (by omega), List.drop_eq_getElem_cons hk]
    unfold rxLit
    rw [if_neg]
    intro hpref
    rw [List.cons_append] at hpref
    have hpref2 : ([']'] : List Char).isPrefixOf
        (B[k] :: (B.drop (k + 1) ++ ']' :: rest)) = true := hpref
    rw [List.isPrefixOf_cons₂, Bool.and_eq_true, beq_iff_eq] at hpref2
    refine hBfree ?_
    rw [hpref2.1]
    exact List.getElem_mem hk
  have hlit2 : (rxLit "]" ((B ++ ']' :: rest).drop B.length)).head? =
      some ([], rest) := by
    rw [List.drop_left]
    exact head?_rxLit_pos (isPrefixOf_self_append [']'] rest)
  have hk0 : B.length ≤ ((B ++ ']' :: rest).takeWhile notNL).length := by
    rw [takeWhile_all_append notNL B _ hBnn, List.length_append]
    omega
  have hq2 := matchAt_starL_seq hk0 hfailB hlit2
  rw [List.take_left] at hq2
  have hmid := matchAt_rxSeq_head hlit1 hq2
  have hfin := matchAt_rxSeq_head hp hmid
  exact hfin

/-! ### Pattern-level inversions -/

theorem dropWhile_head_not {p : Char → Bool} :
    ∀ (l : List Char) {d : Char} {rest : List Char},
      l.dropWhile p = d :: rest → p d = false := by
  intro l
  induction l with
  | nil => intro d rest h; cases h
  | cons c l2 ih =>
    intro d rest h
    rw [List.dropWhile_cons] at h
    split at h
    · exact ih h
    · next hc =>
      injection h with h1 h2
      subst h1
      exact Bool.eq_false_iff.mpr hc

theorem capPlus_seq_elim {K : Rx} {cs : List Char} {g : List String} {r : List Char}
    (hmem : (g, r) ∈ rxSeq (rxCap (rxPlusG isWordChar)) K cs) :
    ∃ (W T : List Char) (g2 : List String),
      cs = W ++ T ∧ W ≠ [] ∧ (∀ c ∈ W, isWordChar c = true) ∧
      W.length ≤ (cs.takeWhile isWordChar).length ∧
      (g2, r) ∈ K T ∧ g = String.mk W :: g2 := by
  rw [mem_rxSeq_iff] at hmem
  obtain ⟨pr1, hpr1, qr1, hqr1, heq1⟩ := hmem
  rw [mem_rxCap_iff] at hpr1
  obtain ⟨pp, hpp, hpr1e⟩ := hpr1
  rw [mem_rxPlusG_iff] at hpp
  obtain ⟨k, hk, hppe⟩ := hpp
  rw [hppe] at hpr1e
  rw [hpr1e] at heq1 hqr1
  dsimp only at heq1 hqr1
  simp only [List.cons_append, List.nil_append] at heq1
  injection heq1 with hg hr
  have hkcs : k + 1 ≤ cs.length := by
    have h := congrArg List.length (List.takeWhile_append_dropWhile isWordChar cs)
    rw [List.length_append] at h
    omega
  have hcap : cs.length - (cs.drop (k + 1)).length = k + 1 := by
    rw [List.length_drop]
    omega
  refine ⟨cs.take (k + 1), cs.drop (k + 1), qr1.1,
    (List.take_append_drop _ _).symm, ?_, ?_, ?_, ?_, ?_⟩
  · intro hq
    have hql := congrArg List.length hq
    rw [List.length_take] at hql
    simp only [List.length_nil] at hql
    omega
  · exact take_all_of_le_takeWhile (by omega)
  · rw [List.length_take]
    omega
  · rw [hr]
    exact hqr1
  · rw [hg, hcap]

theorem rect_tail_elim {T : List Char} {g2 : List String} {r : List Char}
    (hmem : (g2, r) ∈ rxSeq (rxLit "[") (rxSeq (rxCap (rxStarL notNL)) (rxLit "]")) T) :
    ∃ B, T = '[' :: (B ++ ']' :: r) ∧ (∀ c ∈ B, notNL c = true) ∧
      g2 = [String.mk B] := by
  rw [mem_rxSeq_iff] at hmem
  obtain ⟨pr2, hpr2, qr2, hqr2, heq2⟩ := hmem
  rw [mem_rxLit_iff] at hpr2
  obtain ⟨hpf2, hpr2e⟩ := hpr2
  obtain ⟨Z, hZ2⟩ : ∃ Z, T = '[' :: Z := ⟨T.drop 1, isPrefixOf_elim _ _ hpf2⟩
  have he1 : T.drop ("[" : String).length = Z := by rw [hZ2]; rfl
  rw [hpr2e] at heq2 hqr2
  dsimp only at heq2 hqr2
  simp only [List.nil_append] at heq2
  rw [he1] at hqr2
  injection heq2 with hg2 hr2
  rw [mem_rxSeq_iff] at hqr2
  obtain ⟨pr3, hpr3, qr3, hqr3, heq3⟩ := hqr2
  rw [mem_rxCap_iff] at hpr3
  obtain ⟨pp3, hpp3, hpr3e⟩ := hpr3
  rw [mem_rxStarL_iff] at hpp3
  obtain ⟨k2, hk2, hpp3e⟩ := hpp3
  rw [hpp3e] at hpr3e
  rw [hpr3e] at heq3 hqr3
  dsimp only at heq3 hqr3
  rw [mem_rxLit_iff] at hqr3
  obtain ⟨hpf3, hqr3e⟩ := hqr3
  have hW : Z.drop k2 = ']' :: (Z.drop k2).drop 1 := isPrefixOf_elim _ _ hpf3
  have he2 : (Z.drop k2).drop ("]" : String).length = (Z.drop k2).drop 1 := rfl
  have hk2Z : k2 ≤ Z.length := by
    have h := congrArg List.length (List.takeWhile_append_dropWhile notNL Z)
    rw [List.length_append] at h
    omega
  have hcap3 : Z.length - (Z.drop k2).length = k2 := by
    rw [List.length_drop]
    omega
  rw [hqr3e] at heq3
  dsimp only at heq3
  simp only [List.cons_append, List.nil_append] at heq3
  rw [heq3] at hg2 hr2
  dsimp only at hg2 hr2
  refine ⟨Z.take k2, ?_, take_all_of_le_takeWhile hk2, ?_⟩
  · rw [hZ2]
    congr 1
    rw [hr2, he2, ← hW]
    exact (List.take_append_drop k2 Z).symm
  · rw [hg2, hcap3]

theorem para_tail2_elim {V : List Char} {g3 : List String} {r : List Char}
    (hmem : (g3, r) ∈ rxSeq (rxCap (rxStarL notNL))
      (rxSeq (rxPred (fun c => c = '/' || c = '\\')) (rxLit "]")) V) :
    ∃ (body : List Char) (X : Char),
      V = body ++ X :: ']' :: r ∧ (∀ c ∈ body, notNL c = true) ∧
      (X = '/' ∨ X = '\\') ∧ g3 = [String.mk body] := by
  rw [mem_rxSeq_iff] at hmem
  obtain ⟨pr4, hpr4, qr4, hqr4, heq4⟩ := hmem
  rw [mem_rxCap_iff] at hpr4
  obtain ⟨pp4, hpp4, hpr4e⟩ := hpr4
  rw [mem_rxStarL_iff] at hpp4
  obtain ⟨k2, hk2, hpp4e⟩ := hpp4
  rw [hpp4e] at hpr4e
  rw [hpr4e] at heq4 hqr4
  dsimp only at heq4 hqr4
  rw [mem_rxSeq_iff] at hqr4
  obtain ⟨pr5, hpr5, qr5, hqr5, heq5⟩ := hqr4
  rw [mem_rxPred_iff] at hpr5
  obtain ⟨X, rest5, hVd, hfX, hpr5e⟩ := hpr5
  rw [hpr5e] at heq5 hqr5
  dsimp only at heq5 hqr5
  rw [mem_rxLit_iff] at hqr5
  obtain ⟨hpf5, hqr5e⟩ := hqr5
  have hW5 : rest5 = ']' :: rest5.drop 1 := isPrefixOf_elim _ _ hpf5
  have he5 : rest5.drop ("]" : String).length = rest5.drop 1 := rfl
  rw [hqr5e, he5] at heq5
  dsimp only at heq5
  simp only [List.nil_append] at heq5
  rw [heq5] at heq4
  dsimp only at heq4
  simp only [List.cons_append, List.nil_append] at heq4
  injection heq4 with hg3 hr4
  have hk2V : k2 ≤ V.length := by
    have h := congrArg List.length (List.takeWhile_append_dropWhile notNL V)
    rw [List.length_append] at h
    omega
  have hcap4 : V.length - (V.drop k2).length = k2 := by
    rw [List.length_drop]
    omega
  refine ⟨V.take k2, X, ?_, take_all_of_le_takeWhile hk2, ?_, ?_⟩
  · rw [hr4]
    calc V = V.take k2 ++ V.drop k2 := (List.take_append_drop k2 V).symm
    _ = V.take k2 ++ X :: rest5 := by rw [hVd]
    _ = V.take k2 ++ X :: ']' :: rest5.drop 1 := by rw [← hW5]
  · rw [Bool.or_eq_true, decide_eq_true_eq, decide_eq_true_eq] at hfX
    exact hfX
  · rw [hg3, hcap4]

theorem para_tail_elim {T : List Char} {g2 : List String} {r : List Char}
    (hmem : (g2, r) ∈ rxSeq (rxLit "[")
      (rxSeq (rxOpt (rxLit "/"))
        (rxSeq (rxCap (rxStarL notNL))
          (rxSeq (rxPred (fun c => c = '/' || c = '\\')) (rxLit "]")))) T) :
    ∃ (M : List Char) (X : Char) (lab : String),
      T = '[' :: (M ++ X :: ']' :: r) ∧ (∀ c ∈ M, notNL c = true) ∧
      (X = '/' ∨ X = '\\') ∧ g2 = [lab] := by
  rw [mem_rxSeq_iff] at hmem
  obtain ⟨pr2, hpr2, qr2, hqr2, heq2⟩ := hmem
  rw [mem_rxLit_iff] at hpr2
  obtain ⟨hpf2, hpr2e⟩ := hpr2
  obtain ⟨Z, hZ2⟩ : ∃ Z, T = '[' :: Z := ⟨T.drop 1, isPrefixOf_elim _ _ hpf2⟩
  have he1 : T.drop ("[" : String).length = Z := by rw [hZ2]; rfl
  rw [hpr2e] at heq2 hqr2
  dsimp only at heq2 hqr2
  simp only [List.nil_append] at heq2
  rw [he1] at hqr2
  injection heq2 with hg2 hr2
  rw [mem_rxSeq_iff] at hqr2
  obtain ⟨pr3, hpr3, qr3, hqr3, heq3⟩ := hqr2
  rw [mem_rxOpt_iff] at hpr3
  rcases hpr3 with hpr3 | hpr3e
  · -- the optional '/' was consumed
    rw [mem_rxLit_iff] at hpr3
    obtain ⟨hpf3, hpr3e⟩ := hpr3
    have hZs : Z = '/' :: Z.drop 1 := isPrefixOf_elim _ _ hpf3
    have he3 : Z.drop ("/" : String).length = Z.drop 1 := rfl
    rw [hpr3e, he3] at heq3 hqr3
    dsimp only at heq3 hqr3
    simp only [List.nil_append] at heq3
    obtain ⟨body, X, hVdec, hbodynn, hX, hg3⟩ := para_tail2_elim hqr3
    rw [heq3, hg3] at hg2
    refine ⟨'/' :: body, X, String.mk body, ?_, ?_, hX, ?_⟩
    · rw [hZ2]
      congr 1
      rw [heq3] at hr2
      calc Z = '/' :: Z.drop 1 := hZs
      _ = '/' :: (body ++ X :: ']' :: qr3.2) := by rw [hVdec]
      _ = ('/' :: body) ++ X :: ']' :: qr3.2 := rfl
      _ = ('/' :: body) ++ X :: ']' :: r := by rw [← hr2]
    · intro c hc
      rcases List.mem_cons.mp hc with rfl | hc2
      · decide
      · exact hbodynn c hc2
    · rw [hg2]
  · -- the optional '/' was skipped
    rw [hpr3e] at heq3 hqr3
    dsimp only at heq3 hqr3
    simp only [List.nil_append] at heq3
    obtain ⟨body, X, hVdec, hbodynn, hX, hg3⟩ := para_tail2_elim hqr3
    rw [heq3, hg3] at hg2
    refine ⟨body, X, String.mk body, ?_, hbodynn, hX, ?_⟩
    · rw [hZ2]
      congr 1
      rw [heq3] at hr2
      calc Z = body ++ X :: ']' :: qr3.2 := hVdec
      _ = body ++ X :: ']' :: r := by rw [← hr2]
    · rw [hg2]

theorem paraPat_matchAt_elim {cs : List Char} {g : List String} {r : List Char}
    (h : matchAt paraPat cs = some (g, r)) :
    ∃ (W M : List Char) (X : Char) (lab : String),
      g = [String.mk W, lab] ∧ cs = W ++ '[' :: (M ++ X :: ']' :: r) ∧
      W ≠ [] ∧ (∀ c ∈ W, isWordChar c = true) ∧ cs.takeWhile isWordChar = W ∧
      (∀ c ∈ M, notNL c = true) ∧ (X = '/' ∨ X = '\\') := by
  have hmem : (g, r) ∈ paraPat cs := List.mem_of_mem_head? h
  unfold paraPat at hmem
  obtain ⟨W, T, g2, hcs, hWne, hWall, hWlen, hK, hg⟩ := capPlus_seq_elim hmem
  obtain ⟨M, X, lab, hT, hMnn, hX, hg2⟩ := para_tail_elim hK
  subst hT
  refine ⟨W, M, X, lab, by rw [hg, hg2], hcs, hWne, hWall, ?_, hMnn, hX⟩
  rw [hcs]
  exact takeWhile_run _ W '[' _ hWall (by decide)

theorem rectPat_mem_elim {cs : List Char} {g : List String} {r : List Char}
    (hmem : (g, r) ∈ nodePat "[" "]" cs) :
    ∃ (W B : List Char),
      g = [String.mk W, String.mk B] ∧ cs = W ++ '[' :: (B ++ ']' :: r) ∧
      W ≠ [] ∧ (∀ c ∈ W, isWordChar c = true) ∧ cs.takeWhile isWordChar = W ∧
      (∀ c ∈ B, notNL c = true) := by
  unfold nodePat at hmem
  obtain ⟨W, T, g2, hcs, hWne, hWall, hWlen, hK, hg⟩ := capPlus_seq_elim hmem
  obtain ⟨B, hT, hBnn, hg2⟩ := rect_tail_elim hK
  subst hT
  refine ⟨W, B, by rw [hg, hg2], hcs, hWne, hWall, ?_, hBnn⟩
  rw [hcs]
  exact takeWhile_run _ W '[' _ hWall (by decide)

theorem rectPat_matchAt_elim {cs : List Char} {g : List String} {r : List Char}
    (h : matchAt (nodePat "[" "]") cs = some (g, r)) :
    ∃ (W B : List Char),
      g = [String.mk W, String.mk B] ∧ cs = W ++ '[' :: (B ++ ']' :: r) ∧
      W ≠ [] ∧ (∀ c ∈ W, isWordChar c = true) ∧ cs.takeWhile isWordChar = W ∧
      (∀ c ∈ B, notNL c = true) ∧ ']' ∉ B := by
  obtain ⟨W, B1, hg1, hcs1, hWne, hWall, hTW, hB1nn⟩ :=
    rectPat_mem_elim (List.mem_of_mem_head? h)
  obtain ⟨d, rest2, hdw⟩ : ∃ d rest2,
      (B1 ++ ']' :: r).dropWhile (fun c => c != ']') = d :: rest2 := by
    cases hq : (B1 ++ ']' :: r).dropWhile (fun c => c != ']') with
    | nil =>
      rw [List.dropWhile_eq_nil_iff] at hq
      have hr := hq ']' (by simp)
      simp at hr
    | cons d rest2 => exact ⟨d, rest2, rfl⟩
  have hdeq : d = ']' := by
    have hnot := dropWhile_head_not _ hdw
    simpa using hnot
  subst hdeq
  have hsplit : B1 ++ ']' :: r =
      (B1 ++ ']' :: r).takeWhile (fun c => c != ']') ++ ']' :: rest2 := by
    rw [← hdw]
    exact (List.takeWhile_append_dropWhile _ _).symm
  obtain ⟨B, hB⟩ : ∃ B, B = (B1 ++ ']' :: r).takeWhile (fun c => c != ']') := ⟨_, rfl⟩
  rw [← hB] at hsplit
  have hBfree : (']' : Char) ∉ B := by
    intro hq
    rw [hB] at hq
    have := List.mem_takeWhile_imp hq
    simp at this
  have hBlen : B.length ≤ B1.length := by
    by_contra hq
    push_neg at hq
    obtain ⟨m, hm1, hm2⟩ := append_eq_append_decomp hsplit (by omega)
    cases m with
    | nil =>
      rw [List.append_nil] at hm1
      rw [hm1] at hq
      omega
    | cons c0 m2 =>
      rw [List.cons_append] at hm2
      injection hm2 with hm2a hm2b
      refine hBfree ?_
      rw [hm1, hm2a]
      simp
  have hBnn : ∀ c ∈ B, notNL c = true := by
    obtain ⟨m, hm1, hm2⟩ := append_eq_append_decomp hsplit.symm (by omega)
    intro c hc
    exact hB1nn c (by rw [hm1]; exact List.mem_append_left _ hc)
  have hmain := @rectPat_matchAt_intro W B rest2 hWne hWall hBnn hBfree
  rw [show W ++ '[' :: (B ++ ']' :: rest2) = cs from by rw [hcs1, hsplit]] at hmain
  rw [h] at hmain
  injection hmain with hmain
  injection hmain with hmA hmB
  exact ⟨W, B, hmA, by rw [hcs1, hsplit, hmB], hWne, hWall, hTW, hBnn, hBfree⟩

/-! ### Existence of a parallelogram match -/

theorem length_sub_drop (l : List Char) (n : Nat) (h : n ≤ l.length) :
    l.length - (l.drop n).length = n := by
  rw [List.length_drop]
  omega

theorem paraPat_matchAt_ne_none {W M rtail : List Char} {X : Char}
    (hW : W ≠ []) (hWall : ∀ c ∈ W, isWordChar c = true)
    (hM : ∀ c ∈ M, notNL c = true) (hX : X = '/' ∨ X = '\\') :
    matchAt paraPat (W ++ '[' :: (M ++ X :: ']' :: rtail)) ≠ none := by
  intro hnone
  have hempty : paraPat (W ++ '[' :: (M ++ X :: ']' :: rtail)) = [] :=
    List.head?_eq_none_iff.mp hnone
  obtain ⟨w0, W2, rfl⟩ : ∃ w0 W2, W = w0 :: W2 := by
    cases W with
    | nil => exact absurd rfl hW
    | cons a b => exact ⟨a, b, rfl⟩
  have hTW : ((w0 :: W2) ++ '[' :: (M ++ X :: ']' :: rtail)).takeWhile isWordChar
      = w0 :: W2 := takeWhile_run _ _ '[' _ hWall (by decide)
  have hpp : ((([] : List String)),
      ((w0 :: W2) ++ '[' :: (M ++ X :: ']' :: rtail)).drop (W2.length + 1)) ∈
      rxPlusG isWordChar ((w0 :: W2) ++ '[' :: (M ++ X :: ']' :: rtail)) := by
    rw [mem_rxPlusG_iff]
    exact ⟨W2.length, by rw [hTW, List.length_cons]; omega, rfl⟩
  have hdropW : ((w0 :: W2) ++ '[' :: (M ++ X :: ']' :: rtail)).drop (W2.length + 1)
      = '[' :: (M ++ X :: ']' :: rtail) := by
    rw [show W2.length + 1 = (w0 :: W2).length from rfl]
    exact List.drop_left _ _
  have hcap : ([String.mk (w0 :: W2)], '[' :: (M ++ X :: ']' :: rtail)) ∈
      rxCap (rxPlusG isWordChar) ((w0 :: W2) ++ '[' :: (M ++ X :: ']' :: rtail)) := by
    rw [mem_rxCap_iff]
    refine ⟨_, hpp, ?_⟩
    dsimp only
    rw [hdropW]
    have hsub : ((w0 :: W2) ++ '[' :: (M ++ X :: ']' :: rtail)).length -
        ('[' :: (M ++ X :: ']' :: rtail)).length = W2.length + 1 := by
      rw [List.length_append, List.length_cons]
      omega
    rw [hsub, show W2.length + 1 = (w0 :: W2).length from rfl, List.take_left]
  have h6 : ((([] : List String)), rtail) ∈ rxLit "]" (']' :: rtail) := by
    rw [mem_rxLit_iff]
    exact ⟨isPrefixOf_self_append [']'] rtail, rfl⟩
  have h5 : ((([] : List String)), ']' :: rtail) ∈
      rxPred (fun c => c = '/' || c = '\\') (X :: ']' :: rtail) := by
    rw [mem_rxPred_iff]
    refine ⟨X, ']' :: rtail, rfl, ?_, rfl⟩
    rcases hX with rfl | rfl <;> decide
  have h4 : (([String.mk M]), X :: ']' :: rtail) ∈
      rxCap (rxStarL notNL) (M ++ X :: ']' :: rtail) := by
    rw [mem_rxCap_iff]
    refine ⟨([], (M ++ X :: ']' :: rtail).drop M.length), ?_, ?_⟩
    · rw [mem_rxStarL_iff]
      refine ⟨M.length, ?_, rfl⟩
      rw [takeWhile_all_append notNL M _ hM, List.length_append]
      omega
    · dsimp only
      rw [length_sub_drop _ _ (by rw [List.length_append]; omega), List.take_left,
        List.drop_left]
  have h56 : ((([] : List String)), rtail) ∈
      rxSeq (rxPred (fun c => c = '/' || c = '\\')) (rxLit "]") (X :: ']' :: rtail) :=
    mem_rxSeq_iff.mpr ⟨([], ']' :: rtail), h5, ([], rtail), h6, rfl⟩
  have h456 : (([String.mk M]), rtail) ∈
      rxSeq (rxCap (rxStarL notNL))
        (rxSeq (rxPred (fun c => c = '/' || c = '\\')) (rxLit "]"))
        (M ++ X :: ']' :: rtail) :=
    mem_rxSeq_iff.mpr ⟨([String.mk M], X :: ']' :: rtail), h4, ([], rtail), h56, rfl⟩
  have h3456 : (([String.mk M]), rtail) ∈
      rxSeq (rxOpt (rxLit "/"))
        (rxSeq (rxCap (rxStarL notNL))
          (rxSeq (rxPred (fun c => c = '/' || c = '\\')) (rxLit "]")))
        (M ++ X :: ']' :: rtail) :=
    mem_rxSeq_iff.mpr ⟨([], M ++ X :: ']' :: rtail),
      mem_rxOpt_iff.mpr (Or.inr rfl), ([String.mk M], rtail), h456, rfl⟩
  have h23456 : (([String.mk M]), rtail) ∈
      rxSeq (rxLit "[")
        (rxSeq (rxOpt (rxLit "/"))
          (rxSeq (rxCap (rxStarL notNL))
            (rxSeq (rxPred (fun c => c = '/' || c = '\\')) (rxLit "]"))))
        ('[' :: (M ++ X :: ']' :: rtail)) :=
    mem_rxSeq_iff.mpr ⟨([], M ++ X :: ']' :: rtail),
      mem_rxLit_iff.mpr ⟨isPrefixOf_self_append ['['] _, rfl⟩,
      ([String.mk M], rtail), h3456, rfl⟩
  have htop : (([String.mk (w0 :: W2), String.mk M]), rtail) ∈
      paraPat ((w0 :: W2) ++ '[' :: (M ++ X :: ']' :: rtail)) := by
    unfold paraPat
    exact mem_rxSeq_iff.mpr ⟨([String.mk (w0 :: W2)], '[' :: (M ++ X :: ']' :: rtail)),
      hcap, ([String.mk M], rtail), h23456, rfl⟩
  rw [hempty] at htop
  cases htop

/-! ### The rectangle scan never crosses a bracket or an unmatched region -/

theorem rect_match_stops (m4 r : List Char) {g : List String} {r2 : List Char}
    (hm : matchAt (nodePat "[" "]") (m4 ++ ']' :: r) = some (g, r2)) :
    List.IsSuffix r r2 := by
  obtain ⟨Wq, Bq, hg, hcs, hWne, hWall, hTW, hBnn, hBfree⟩ := rectPat_matchAt_elim hm
  by_cases hlen : r.length ≤ r2.length
  · refine @suffix_of_suffix_len_le Char r r2 (m4 ++ ']' :: r)
      ⟨m4 ++ [']'], by simp [List.append_assoc]⟩
      ⟨Wq ++ '[' :: Bq ++ [']'], ?_⟩ hlen
    rw [hcs]
    simp [List.append_assoc]
  · exfalso
    push_neg at hlen
    have h1 : (m4 ++ ']' :: r)[m4.length]? = some ']' := by
      rw [List.getElem?_append_right le_rfl]
      simp
    rw [hcs] at h1
    have hlen2 : m4.length + r.length + 1 =
        Wq.length + Bq.length + r2.length + 2 := by
      have h := congrArg List.length hcs
      simp only [List.length_append, List.length_cons] at h
      omega
    by_cases hz1 : m4.length < Wq.length
    · rw [List.getElem?_append, if_pos hz1] at h1
      have hmem : (']' : Char) ∈ Wq := List.mem_iff_getElem?.mpr ⟨m4.length, h1⟩
      have hww := hWall ']' hmem
      exact absurd hww (by decide)
    · push_neg at hz1
      rw [List.getElem?_append, if_neg (by omega)] at h1
      by_cases hz2 : m4.length = Wq.length
      · rw [show m4.length - Wq.length = 0 from by omega] at h1
        simp at h1
      · have hz3 : Wq.length < m4.length := by omega
        rw [show m4.length - Wq.length = (m4.length - Wq.length - 1) + 1 from by omega,
          List.getElem?_cons_succ] at h1
        by_cases hz4 : m4.length - Wq.length - 1 < Bq.length
        · rw [List.getElem?_append, if_pos hz4] at h1
          exact hBfree (List.mem_iff_getElem?.mpr ⟨_, h1⟩)
        · push_neg at hz4
          omega

/-! ### Skipping a harmless region leaves the rectangle captures -/

theorem fiC_rect_extend_aux :
    ∀ (n : Nat) (w t : List Char), w.length ≤ n →
      (∀ i < w.length, ∀ g r, matchAt (nodePat "[" "]") (w.drop i ++ t) = some (g, r) →
        List.IsSuffix t r) →
      ∀ x ∈ fiC (nodePat "[" "]") t, x ∈ fiC (nodePat "[" "]") (w ++ t) := by
  intro n
  induction n with
  | zero =>
    intro w t hw hhyp x hx
    have hnil : w = [] := List.length_eq_zero.mp (by omega)
    subst hnil
    simpa using hx
  | succ n ih =>
    intro w t hw hhyp x hx
    cases w with
    | nil => simpa using hx
    | cons c w2 =>
      rw [List.cons_append]
      cases hm : matchAt (nodePat "[" "]") (c :: (w2 ++ t)) with
      | none =>
        rw [fiC_slide hm]
        refine ih w2 t (by rw [List.length_cons] at hw; omega) ?_ x hx
        intro i hi g r hm2
        exact hhyp (i + 1) (by rw [List.length_cons]; omega) g r hm2
      | some gr =>
        obtain ⟨g, r⟩ := gr
        have hm2 : matchAt (nodePat "[" "]") ((c :: w2) ++ t) = some (g, r) := by
          rw [List.cons_append]
          exact hm
        have hsfx : List.IsSuffix t r :=
          hhyp 0 (by rw [List.length_cons]; omega) g r (by rw [List.drop_zero]; exact hm2)
        obtain ⟨W, B, hg, hcs, hWne, -, -, -, -⟩ := rectPat_matchAt_elim hm
        have hWpos : 0 < W.length := List.length_pos.mpr hWne
        have hrlen : r.length < (c :: (w2 ++ t)).length := by
          have h := congrArg List.length hcs
          simp only [List.length_append, List.length_cons] at h ⊢
          omega
        rw [fiC_match hm hrlen]
        obtain ⟨mm, hmm⟩ := hsfx
        have hr_sfx : (W ++ '[' :: B ++ [']']) ++ r = (c :: w2) ++ t := by
          rw [List.cons_append, hcs]
          simp [List.append_assoc]
        have hw_eq : (W ++ '[' :: B ++ [']']) ++ mm = c :: w2 := by
          have h2 : ((W ++ '[' :: B ++ [']']) ++ mm) ++ t = (c :: w2) ++ t := by
            rw [List.append_assoc, hmm, hr_sfx]
          exact List.append_cancel_right h2
        have hlen_eq : (W ++ '[' :: B ++ [']']).length + mm.length = (c :: w2).length := by
          have h := congrArg List.length hw_eq
          rw [List.length_append] at h
          exact h
        have hmmn : mm.length ≤ n := by
          have hstep : 0 < (W ++ '[' :: B ++ [']']).length := by
            simp only [List.length_append, List.length_cons, List.length_singleton]
            omega
          rw [List.length_cons] at hw hlen_eq
          omega
        have hfin : x ∈ fiC (nodePat "[" "]") r := by
          rw [← hmm]
          refine ih mm t hmmn ?_ x hx
          intro i hi g2 r2 hmt
          have hdd : (c :: w2).drop ((W ++ '[' :: B ++ [']']).length + i) = mm.drop i := by
            rw [← hw_eq, ← List.drop_drop, List.drop_left]
          refine hhyp ((W ++ '[' :: B ++ [']']).length + i) ?_ g2 r2 ?_
          · omega
          · rw [hdd]
            exact hmt
        exact List.mem_cons_of_mem _ hfin

theorem fiC_rect_extend (w t : List Char)
    (hhyp : ∀ i < w.length, ∀ g r,
      matchAt (nodePat "[" "]") (w.drop i ++ t) = some (g, r) → List.IsSuffix t r) :
    ∀ x ∈ fiC (nodePat "[" "]") t, x ∈ fiC (nodePat "[" "]") (w ++ t) :=
  fiC_rect_extend_aux w.length w t le_rfl hhyp

/-! ### Where the parallelogram fails, the rectangle cannot reach past -/

theorem rect_bounded_of_para_fail
    {w_i t Wp Mp r : List Char} {X : Char}
    (ht : t = Wp ++ '[' :: (Mp ++ X :: ']' :: r))
    (hWpne : Wp ≠ []) (hWpall : ∀ c ∈ Wp, isWordChar c = true)
    (hWptw : t.takeWhile isWordChar = Wp)
    (hMnn : ∀ c ∈ Mp, notNL c = true) (hX : X = '/' ∨ X = '\\')
    (hpf : matchAt paraPat (w_i ++ t) = none)
    {g : List String} {r2 : List Char}
    (hm : matchAt (nodePat "[" "]") (w_i ++ t) = some (g, r2)) :
    List.IsSuffix t r2 := by
  obtain ⟨Wq, Bq, hgq, hcsq, hWqne, hWqall, hWqtw, hBqnn, hBqfree⟩ := rectPat_matchAt_elim hm
  by_cases hcross : t.length ≤ r2.length
  · refine @suffix_of_suffix_len_le Char t r2 (w_i ++ t)
      ⟨w_i, rfl⟩ ⟨Wq ++ '[' :: Bq ++ [']'], ?_⟩ hcross
    rw [hcsq]
    simp [List.append_assoc]
  · exfalso
    push_neg at hcross
    by_cases hzone : Wq.length < w_i.length
    · have hcs2 : (Wq ++ ['[']) ++ (Bq ++ ']' :: r2) = w_i ++ t := by
        rw [hcsq]
        simp [List.append_assoc]
      obtain ⟨A, hA1, hA2⟩ := append_eq_append_decomp hcs2 (by
        rw [List.length_append, List.length_singleton]
        omega)
      have hAlen : A.length ≤ Bq.length := by
        have h := congrArg List.length hA2
        rw [List.length_append, List.length_cons, List.length_append] at h
        omega
      obtain ⟨A2, hA3, hA4⟩ := append_eq_append_decomp hA2.symm hAlen
      have hAnn : ∀ c ∈ A, notNL c = true := fun c hc =>
        hBqnn c (by rw [hA3]; exact List.mem_append_left _ hc)
      have hM2 : ∀ c ∈ A ++ (Wp ++ '[' :: Mp), notNL c = true := by
        intro c hc
        rcases List.mem_append.mp hc with h | h
        · exact hAnn c h
        · rcases List.mem_append.mp h with h2 | h2
          · exact wordChar_notNL (hWpall c h2)
          · rcases List.mem_cons.mp h2 with rfl | h3
            · decide
            · exact hMnn c h3
      have hu : w_i ++ t = Wq ++ '[' :: ((A ++ (Wp ++ '[' :: Mp)) ++ X :: ']' :: r) := by
        rw [hA1, ht]
        simp [List.append_assoc]
      rw [hu] at hpf
      exact @paraPat_matchAt_ne_none Wq (A ++ (Wp ++ '[' :: Mp)) r X
        hWqne hWqall hM2 hX hpf
    · push_neg at hzone
      have hwiall : ∀ c ∈ w_i, isWordChar c = true := by
        obtain ⟨m, hm1, hm2⟩ := append_eq_append_decomp hcsq hzone
        intro c hc
        exact hWqall c (by rw [hm1]; exact List.mem_append_left _ hc)
      have hwall2 : ∀ c ∈ w_i ++ Wp, isWordChar c = true := by
        intro c hc
        rcases List.mem_append.mp hc with h | h
        · exact hwiall c h
        · exact hWpall c h
      have hne2 : w_i ++ Wp ≠ [] := by
        intro hq
        exact hWpne (List.append_eq_nil.mp hq).2
      have hu : w_i ++ t = (w_i ++ Wp) ++ '[' :: (Mp ++ X :: ']' :: r) := by
        rw [ht]
        simp [List.append_assoc]
      rw [hu] at hpf
      exact @paraPat_matchAt_ne_none (w_i ++ Wp) Mp r X hne2 hwall2 hMnn hX hpf

/-! ### The parallelogram scan decomposed at its first match -/

theorem fiC_para_nil : fiC paraPat [] = [] := rfl

theorem para_first_match :
    ∀ (n : Nat) (cs : List Char), cs.length ≤ n → fiC paraPat cs ≠ [] →
      ∃ (w t : List Char) (g : List String) (r : List Char),
        cs = w ++ t ∧
        (∀ i < w.length, matchAt paraPat (w.drop i ++ t) = none) ∧
        matchAt paraPat t = some (g, r) ∧ r.length < t.length ∧
        fiC paraPat cs = g :: fiC paraPat r := by
  intro n
  induction n with
  | zero =>
    intro cs hlen hne
    have hnil : cs = [] := List.length_eq_zero.mp (by omega)
    subst hnil
    exact absurd fiC_para_nil hne
  | succ n ih =>
    intro cs hlen hne
    cases hm : matchAt paraPat cs with
    | some gr =>
      obtain ⟨g, r⟩ := gr
      obtain ⟨W, M, X, lab, hg, hcs, hWne, -, -, -, -⟩ := paraPat_matchAt_elim hm
      have hrlen : r.length < cs.length := by
        have h := congrArg List.length hcs
        simp only [List.length_append, List.length_cons] at h
        have hWpos : 0 < W.length := List.length_pos.mpr hWne
        omega
      exact ⟨[], cs, g, r, rfl, fun i hi => absurd hi (Nat.not_lt_zero i), hm, hrlen,
        fiC_match hm hrlen⟩
    | none =>
      cases cs with
      | nil => exact absurd fiC_para_nil hne
      | cons c rest =>
        rw [fiC_slide hm] at hne
        obtain ⟨w, t, g, r, hdec, hfail, hmt, hrl, hfi⟩ :=
          ih rest (by rw [List.length_cons] at hlen; omega) hne
        refine ⟨c :: w, t, g, r, by rw [List.cons_append, hdec], ?_, hmt, hrl, ?_⟩
        · intro i hi
          cases i with
          | zero =>
            rw [List.drop_zero, List.cons_append, ← hdec]
            exact hm
          | succ i2 =>
            exact hfail i2 (by rw [List.length_cons] at hi; omega)
        · rw [fiC_slide hm, hfi]

/-- Split a list with a known `']'` at its first `']'`. -/
theorem first_rbracket_split (B1 r : List Char) :
    ∃ B rest2, B1 ++ ']' :: r = B ++ ']' :: rest2 ∧ (']' : Char) ∉ B ∧
      B.length ≤ B1.length ∧ ∀ c ∈ B, c ∈ B1 := by
  obtain ⟨d, rest2, hdw⟩ : ∃ d rest2,
      (B1 ++ ']' :: r).dropWhile (fun c => c != ']') = d :: rest2 := by
    cases hq : (B1 ++ ']' :: r).dropWhile (fun c => c != ']') with
    | nil =>
      rw [List.dropWhile_eq_nil_iff] at hq
      have hr := hq ']' (by simp)
      simp at hr
    | cons d rest2 => exact ⟨d, rest2, rfl⟩
  have hdeq : d = ']' := by
    have hnot := dropWhile_head_not _ hdw
    simpa using hnot
  subst hdeq
  obtain ⟨B, hB⟩ : ∃ B, B = (B1 ++ ']' :: r).takeWhile (fun c => c != ']') := ⟨_, rfl⟩
  have hsplit : B1 ++ ']' :: r = B ++ ']' :: rest2 := by
    rw [hB, ← hdw]
    exact (List.takeWhile_append_dropWhile _ _).symm
  have hBfree : (']' : Char) ∉ B := by
    intro hq
    rw [hB] at hq
    have hp := List.mem_takeWhile_imp hq
    simp at hp
  have hBlen : B.length ≤ B1.length := by
    by_contra hq
    push_neg at hq
    obtain ⟨m, hm1, hm2⟩ := append_eq_append_decomp hsplit (by omega)
    cases m with
    | nil =>
      rw [List.append_nil] at hm1
      rw [hm1] at hq
      omega
    | cons c0 m2 =>
      rw [List.cons_append] at hm2
      injection hm2 with hm2a hm2b
      refine hBfree ?_
      rw [hm1, hm2a]
      simp
  refine ⟨B, rest2, hsplit, hBfree, hBlen, ?_⟩
  obtain ⟨m, hm1, hm2⟩ := append_eq_append_decomp hsplit.symm hBlen
  intro c hc
  rw [hm1]
  exact List.mem_append_left _ hc

/-! ### Every id the parallelogram scan captures, the rectangle scan captures -/

set_option maxHeartbeats 1000000 in
theorem para_capture_sub_rect_aux :
    ∀ (n : Nat) (cs : List Char), cs.length ≤ n →
      ∀ nid lab, [nid, lab] ∈ fiC paraPat cs →
        ∃ lab2, [nid, lab2] ∈ fiC (nodePat "[" "]") cs := by
  intro n
  induction n with
  | zero =>
    intro cs hlen nid lab hmem
    have hnil : cs = [] := List.length_eq_zero.mp (by omega)
    subst hnil
    rw [fiC_para_nil] at hmem
    cases hmem
  | succ n ih =>
    intro cs hlen nid lab hmem
    have hne : fiC paraPat cs ≠ [] := by
      intro hq
      rw [hq] at hmem
      cases hmem
    obtain ⟨w, t, g, r, hdec, hfail, hmt, hrl, hfi⟩ :=
      para_first_match (n + 1) cs hlen hne
    obtain ⟨Wp, Mp, X, labp, hg, ht, hWpne, hWpall, hWptw, hMnn, hX⟩ :=
      paraPat_matchAt_elim hmt
    obtain ⟨B, rest2, hsp0, hBfree, hBlen0, hBsub⟩ := first_rbracket_split (Mp ++ [X]) r
    have hsp : Mp ++ X :: ']' :: r = B ++ ']' :: rest2 := by
      rw [← hsp0]
      simp [List.append_assoc]
    have hBnn : ∀ c ∈ B, notNL c = true := by
      intro c hc
      rcases List.mem_append.mp (hBsub c hc) with h | h
      · exact hMnn c h
      · have hcX := List.mem_singleton.mp h
        rw [hcX]
        rcases hX with rfl | rfl <;> decide
    have ht2 : t = Wp ++ '[' :: (B ++ ']' :: rest2) := by
      rw [ht]
      congr 1
      rw [hsp]
    have hrect0 := @rectPat_matchAt_intro Wp B rest2 hWpne hWpall hBnn hBfree
    rw [← ht2] at hrect0
    have hrest2len : rest2.length < t.length := by
      have h := congrArg List.length ht2
      simp only [List.length_append, List.length_cons] at h
      have hWpos : 0 < Wp.length := List.length_pos.mpr hWpne
      omega
    have hfiCr : fiC (nodePat "[" "]") t =
        [String.mk Wp, String.mk B] :: fiC (nodePat "[" "]") rest2 :=
      fiC_match hrect0 hrest2len
    have hAhyp : ∀ i < w.length, ∀ g2 r2,
        matchAt (nodePat "[" "]") (w.drop i ++ t) = some (g2, r2) →
        List.IsSuffix t r2 := by
      intro i hi g2 r2 hm2
      exact rect_bounded_of_para_fail ht hWpne hWpall hWptw hMnn hX (hfail i hi) hm2
    have houter := fiC_rect_extend w t hAhyp
    rw [hfi] at hmem
    rcases List.mem_cons.mp hmem with hhd | htl
    · rw [hg] at hhd
      injection hhd with h1 h2
      refine ⟨String.mk B, ?_⟩
      rw [hdec]
      refine houter _ ?_
      rw [hfiCr, h1]
      exact List.mem_cons_self _ _
    · have hlent : t.length ≤ cs.length := by
        have h := congrArg List.length hdec
        rw [List.length_append] at h
        omega
      obtain ⟨lab2, h2⟩ := ih r (by omega) nid lab htl
      -- rest2 = m3 ++ r, with m3 ending in ']' when nonempty
      have hsp2 : (B ++ [']']) ++ rest2 = ((Mp ++ [X]) ++ [']']) ++ r := by
        simp only [List.append_assoc, List.singleton_append]
        exact hsp.symm
      obtain ⟨m3, hm31, hm32⟩ := append_eq_append_decomp hsp2 (by
        simp only [List.length_append, List.length_singleton] at hBlen0 ⊢
        omega)
      have hinner : ∀ i < m3.length, ∀ g3 r3,
          matchAt (nodePat "[" "]") (m3.drop i ++ r) = some (g3, r3) →
          List.IsSuffix r r3 := by
        intro i hi g3 r3 hm3
        have hm3ne : m3.drop i ≠ [] := by
          intro hq
          have hql := congrArg List.length hq
          rw [List.length_drop, List.length_nil] at hql
          omega
        have hm3ne2 : m3 ≠ [] := by
          intro hq
          rw [hq, List.length_nil] at hi
          omega
        have hlast : (m3.drop i).getLast? = some ']' := by
          have hne1 : ([']'] : List Char) ≠ [] := by simp
          have hl2 : (((Mp ++ [X]) ++ [']']) : List Char).getLast? = some ']' := by
            rw [List.getLast?_append_of_ne_nil _ hne1]
            rfl
          rw [hm31, List.getLast?_append_of_ne_nil _ hm3ne2] at hl2
          have hl3 : (m3.take i ++ m3.drop i).getLast? = some ']' := by
            rw [List.take_append_drop]
            exact hl2
          rw [List.getLast?_append_of_ne_nil _ hm3ne] at hl3
          exact hl3
        have hsplit3 : m3.drop i = (m3.drop i).dropLast ++ [']'] := by
          have hg3 := List.dropLast_append_getLast hm3ne
          have hgl : (m3.drop i).getLast hm3ne = ']' := by
            have := List.getLast?_eq_getLast (m3.drop i) hm3ne
            rw [this] at hlast
            injection hlast
          rw [hgl] at hg3
          exact hg3.symm
        have hm3r : m3.drop i ++ r = (m3.drop i).dropLast ++ ']' :: r := by
          rw [hsplit3]
          simp [List.append_assoc]
        rw [hm3r] at hm3
        exact rect_match_stops _ _ hm3
      have hm32r : rest2 = m3 ++ r := hm32
      have hlift := fiC_rect_extend m3 r hinner _ h2
      rw [← hm32r] at hlift
      refine ⟨lab2, ?_⟩
      rw [hdec]
      refine houter _ ?_
      rw [hfiCr]
      exact List.mem_cons_of_mem _ hlift

theorem para_capture_sub_rect (cs : List Char) (nid lab : String)
    (h : [nid, lab] ∈ fiC paraPat cs) :
    ∃ lab2, [nid, lab2] ∈ fiC (nodePat "[" "]") cs :=
  para_capture_sub_rect_aux cs.length cs le_rfl nid lab h


/-! ### Claim C9: the parallelogram rule never fires

Every `[nid, lab]` group the parallelogram scan produces has a rectangle
group `[nid, lab2]` (by `para_capture_sub_rect`), and the rectangle rule
runs first, so by the time the parallelogram rule runs every id it could
capture is already in the seen list and its fold is the identity. -/

theorem addNode_seen_mono {acc : List GRDNode × List String} {i : String}
    (h : i ∈ acc.2) (n : GRDNode) : i ∈ (addNode acc n).2 := by
  unfold addNode
  split
  · exact h
  · exact List.mem_append_left _ h

theorem scanStep_seen_mono (ty : NodeType) {a : List GRDNode × List String} {i : String}
    (h : i ∈ a.2) (gs : List String) : i ∈ (scanStep ty a gs).2 := by
  unfold scanStep
  match gs with
  | [] => exact h
  | [_] => exact h
  | [nid, lab] => exact addNode_seen_mono h _
  | _ :: _ :: _ :: _ => exact h

theorem foldl_scanStep_seen (ty : NodeType) (i lab : String) :
    ∀ (ms : List (List String)) (acc : List GRDNode × List String),
      [i, lab] ∈ ms ∨ i ∈ acc.2 → i ∈ (ms.foldl (scanStep ty) acc).2 := by
  intro ms
  induction ms with
  | nil =>
    intro acc h
    rcases h with h | h
    · cases h
    · exact h
  | cons gs ms2 ih =>
    intro acc h
    rw [List.foldl_cons]
    rcases h with h | h
    · rcases List.mem_cons.mp h with hg | h2
      · refine ih _ (Or.inr ?_)
        rw [← hg]
        show i ∈ (addNode acc ⟨i, pstrip lab, ty, []⟩).2
        unfold addNode
        split
        · next hin => exact hin
        · exact List.mem_append_right _ (List.mem_singleton.mpr rfl)
      · exact ih _ (Or.inl h2)
    · exact ih _ (Or.inr (scanStep_seen_mono ty h gs))

/-- Any id a rule's scan captures ends up in the rule's seen list. -/
theorem scanPattern_seen (code : String) (pn : Rx × NodeType)
    (acc : List GRDNode × List String) {i lab : String}
    (hm : [i, lab] ∈ finditer pn.1 code) :
    i ∈ (scanPattern code acc pn).2 :=
  foldl_scanStep_seen pn.2 i lab _ acc (Or.inl hm)

/-- A scan whose every two-group match carries an already-seen id is the
identity on the accumulator. -/
theorem foldl_scanStep_noop (ty : NodeType) :
    ∀ (ms : List (List String)) (acc : List GRDNode × List String),
      (∀ gs ∈ ms, ∀ nid lab : String, gs = [nid, lab] → nid ∈ acc.2) →
      ms.foldl (scanStep ty) acc = acc := by
  intro ms
  induction ms with
  | nil => intro acc _; rfl
  | cons gs ms2 ih =>
    intro acc h
    rw [List.foldl_cons]
    have hstep : scanStep ty acc gs = acc := by
      unfold scanStep
      match gs with
      | [] => rfl
      | [_] => rfl
      | [nid, lab] =>
        show addNode acc ⟨nid, pstrip lab, ty, []⟩ = acc
        unfold addNode
        split
        · rfl
        · next hnin => exact absurd (h [nid, lab] (List.mem_cons_self _ _) nid lab rfl) hnin
      | _ :: _ :: _ :: _ => rfl
    rw [hstep]
    exact ih acc (fun gs2 hgs2 => h gs2 (List.mem_cons_of_mem _ hgs2))

set_option maxHeartbeats 1000000 in
/-- The eighth rule (parallelogram) never changes the accumulator: every id
it captures was already captured by the seventh rule (rectangle). -/
theorem parse_nodes_scan_no_para (c : String) :
    parse_nodes_scan c =
      scanPattern c (scanPattern c (scanPattern c (scanPattern c
        (scanPattern c (scanPattern c (scanPattern c ([], [])
          (nodePat "[[" "]]", .SUBROUTINE)) (nodePat "[(" ")]", .STADIUM))
          (nodePat "((" "))", .CIRCLE)) (nodePat "\x7b" "\x7d", .DIAMOND))
          (nodePat "\x7b\x7b" "\x7d\x7d", .HEXAGON)) (nodePat "(" ")", .ROUNDED))
          (nodePat "[" "]", .RECTANGLE) := by
  rw [parse_nodes_scan_unfold]
  unfold scanPattern
  refine foldl_scanStep_noop _ _ _ ?_
  intro gs hgs nid lab hshape
  subst hshape
  obtain ⟨lab2, h2⟩ := para_capture_sub_rect c.data nid lab hgs
  exact scanPattern_seen c (nodePat "[" "]", .RECTANGLE) _ h2

/-- The seven node tags `parse` can actually assign. -/
def assignableTags7 : List NodeType :=
  [.RECTANGLE, .ROUNDED, .STADIUM, .SUBROUTINE, .CIRCLE, .DIAMOND, .HEXAGON]

theorem parse_nodes_tags7 (code : String) :
    ∀ m ∈ parse_nodes code, m.node_type ∈ assignableTags7 := by
  have h1 : ∀ m ∈ (parse_nodes_scan code).1, m.node_type ∈ assignableTags7 := by
    rw [parse_nodes_scan_no_para]
    have h0 : ∀ m ∈ (([], []) : List GRDNode × List String).1,
        m.node_type ∈ assignableTags7 := fun m hm => absurd hm (List.not_mem_nil m)
    have hA := scanPattern_type code (nodePat "[[" "]]", .SUBROUTINE) h0 (by decide)
    have hB := scanPattern_type code (nodePat "[(" ")]", .STADIUM) hA (by decide)
    have hC := scanPattern_type code (nodePat "((" "))", .CIRCLE) hB (by decide)
    have hD := scanPattern_type code (nodePat "\x7b" "\x7d", .DIAMOND) hC (by decide)
    have hE := scanPattern_type code (nodePat "\x7b\x7b" "\x7d\x7d", .HEXAGON) hD (by decide)
    have hF := scanPattern_type code (nodePat "(" ")", .ROUNDED) hE (by decide)
    exact scanPattern_type code (nodePat "[" "]", .RECTANGLE) hF (by decide)
  have h2 : ∀ m ∈ (parse_nodes_acc code).1, m.node_type ∈ assignableTags7 := by
    unfold parse_nodes_acc
    refine @foldl_preserve (List GRDNode × List String) _
      (fun a => ∀ m ∈ a.1, m.node_type ∈ assignableTags7) _
      (fun a gs ha => ?_) _ _ h1
    refine @foldl_preserve (List GRDNode × List String) _
      (fun a => ∀ m ∈ a.1, m.node_type ∈ assignableTags7) _
      (fun a2 nid ha2 => ?_) _ _ ha
    exact addNode_type ha2 (show NodeType.RECTANGLE ∈ assignableTags7 by decide)
  exact h2

set_option maxHeartbeats 1000000 in
/-- C9 (amended): every node of a parsed graph carries one of the seven
tags Rectangle, Rounded, Stadium, Subroutine, Circle, Diamond or Hexagon;
the tags Parallelogram, Cylindrical, Trapezoid and Unknown are never
assigned by `parse`.  Parallelogram is unassignable because every id its
rule's scan captures was already captured by the earlier rectangle rule:
a rectangle match at the same position captures the same id and ends at
the first closing bracket, never later than the parallelogram match.
Cylindrical, Trapezoid and Unknown have no rule at all, and implicit
edge-endpoint nodes are rectangles.  Hexagon, contrary to the original
claim, is assignable: see the counterexample. -/
theorem C9_assignable_node_tags (code : String) (g : GRDStructure)
    (h : parse code = .ok g) :
    ∀ n ∈ g.nodes, n.node_type ∈ assignableTags7 ∧
      n.node_type ≠ .PARALLELOGRAM ∧ n.node_type ≠ .CYLINDRICAL ∧
      n.node_type ≠ .TRAPEZOID ∧ n.node_type ≠ .UNKNOWN := by
  obtain ⟨-, -, rfl⟩ := parse_ok_elim h
  intro n hn
  have h7 := parse_nodes_tags7 (clean_code code) n hn
  refine ⟨h7, ?_, ?_, ?_, ?_⟩ <;> (intro hq; rw [hq] at h7; revert h7; decide)

set_option maxHeartbeats 1000000 in
/-- C9 witness: the amended theorem applied to a concrete input. -/
theorem C9_assignable_node_tags_witness :
    parse "graph TD\na\x7bb\x7b\x7bc\x7d\x7d"
        = .ok (parsedGraph "graph TD\na\x7bb\x7b\x7bc\x7d\x7d") ∧
      ∀ n ∈ (parsedGraph "graph TD\na\x7bb\x7b\x7bc\x7d\x7d").nodes,
        n.node_type ∈ assignableTags7 ∧ n.node_type ≠ .PARALLELOGRAM ∧
          n.node_type ≠ .CYLINDRICAL ∧ n.node_type ≠ .TRAPEZOID ∧
          n.node_type ≠ .UNKNOWN :=
  ⟨by rfl, C9_assignable_node_tags "graph TD\na\x7bb\x7b\x7bc\x7d\x7d" _ (by rfl)⟩

end Braid
